import Mathlib

/-!
Verification of the 3dmaze repository: a shallow embedding of the maze
generator (`src/maze.ts`), the renderer's coordinate mapping and
closest-red-tile search (`src/maze-renderer.ts`), the player controller
(`player-controller.ts`), the game state manager (`game-state-manager.ts`)
and the collectible manager (`ui-manager.ts` / `collectible-manager.ts`),
together with proofs of the specification's claims about them.

Conventions of the embedding:
  * JavaScript numbers that only ever hold integers are modelled as `Int`
    (world coordinates) or `Nat` (grid indices, fuel, counters).
  * `Math.round(a / 2)` on an integer-valued numerator `a` is modelled as
    `(a + 1).fdiv 2` (JS rounds half toward positive infinity and floors).
  * `Math.random()`-driven choices are modelled by an oracle `ρ : Nat → Nat`
    consumed through a counter; `Math.floor(Math.random() * k)` at counter
    `c` becomes `ρ c % k`.
  * The recursive carving of the generator and the BFS while-loops are
    modelled with explicit fuel; the fuel chosen by the top-level entry
    points is proved sufficient.
  * `Infinity` in `distanceFromCenter` is modelled as `(⊤ : ℕ∞)`.
-/

namespace Maze3d

/-! ## Coordinate mapping (maze-renderer.ts lines 86-90, 218-224;
    player-controller.ts canMove lines 247-248) -/

/-- `worldCoord = gridIndex * 2 - (size - 1)` (maze-renderer.ts line 89). -/
def worldCoordOf (i : Nat) (size : Nat) : Int :=
  (i : Int) * 2 - ((size : Int) - 1)

/-- `gridIndex = Math.round((worldCoord + (size - 1)) / 2)`
    (maze-renderer.ts line 218, player-controller.ts line 247).
    JS `Math.round x = ⌊x + 1/2⌋`, so for the integer-valued numerator
    `w + (size-1)` this is `⌊(w + size - 1 + 1) / 2⌋`; `Int` division by
    the positive constant `2` is exactly floor division. -/
def gridIndexOf (w : Int) (size : Nat) : Int :=
  (w + ((size : Int) - 1) + 1) / 2

/-- C4: the grid→world→grid round trip is the identity on `[0, size)`. -/
theorem gridIndexOf_worldCoordOf (size i : Nat) (hsize : 0 < size)
    (hi : i < size) : gridIndexOf (worldCoordOf i size) size = i := by
  unfold gridIndexOf worldCoordOf
  omega

/-- Witness for C4 at `size = 8`, `i = 5`. -/
theorem gridIndexOf_worldCoordOf_witness :
    0 < 8 ∧ 5 < 8 ∧ gridIndexOf (worldCoordOf 5 8) 8 = 5 :=
  ⟨by decide, by decide, gridIndexOf_worldCoordOf 8 5 (by decide) (by decide)⟩

/-! ## Player controller (player-controller.ts)

The controller's discrete command layer is embedded as a pure state
machine.  `currentRotation` accumulates exact multiples of `π/2`
(`startRotation` adds `±π/2` to a cardinal initial value), so rotation is
stored in quarter-turn units: `rot = k` stands for `k * π/2` radians, and
the source's tolerance tests `|normalizedRotation - c| < 0.1` against the
four cardinal constants become exact equality with `0, 1, 2, 3`.
`performance.now()` is passed in as the parameter `now`. -/

/-- The four wall sides / cardinal movement directions (maze.ts `Cell.walls`). -/
inductive Wall : Type
  | north
  | south
  | east
  | west
deriving DecidableEq, Repr

/-- The wall data the controller reads: `maze[gridX][gridZ].walls[dir]`.
    (The controller only ever indexes it at in-bounds integer indices.) -/
def Wgrid : Type := Int → Int → Wall → Bool

/-- PlayerController state (player-controller.ts lines 5-22). -/
structure PC where
  posX : Int
  posZ : Int
  rot : Int
  isMoving : Bool
  targetX : Int
  targetZ : Int
  moveStartX : Int
  moveStartZ : Int
  moveProgress : ℚ
  moveStartTime : Int
  isRotating : Bool
  targetRot : Int
  rotStartTime : Int
  rotStartAngle : Int
deriving DecidableEq, Repr

/-- `((currentRotation % (2π)) + 2π) % (2π)` in quarter-turn units
    (player-controller.ts line 137). -/
def normalizedRotation (rot : Int) : Int := ((rot % 4) + 4) % 4

/-- `canMove` (player-controller.ts lines 245-269).  The `position`
    parameter is declared but the body reads `this.currentPosition`, and
    the `!currentCell` check can never fire on in-bounds indices, so it is
    not modelled. -/
def canMove (maze : Wgrid) (mazeSize : Nat) (st : PC)
    (position : Int × Int) (direction : Wall) : Bool :=
  let gridX := gridIndexOf st.posX mazeSize
  let gridZ := gridIndexOf st.posZ mazeSize
  if gridX < 0 ∨ (mazeSize : Int) ≤ gridX ∨ gridZ < 0 ∨ (mazeSize : Int) ≤ gridZ then
    false
  else
    match direction with
    | .north => !(maze gridX gridZ .north)
    | .south => !(maze gridX gridZ .south)
    | .east => !(maze gridX gridZ .east)
    | .west => !(maze gridX gridZ .west)

/-- `startMovement` (player-controller.ts lines 271-277). -/
def startMovement (now : Int) (newX newZ : Int) (st : PC) : PC :=
  { st with
    isMoving := true
    moveStartTime := now
    moveProgress := 0
    moveStartX := st.posX
    moveStartZ := st.posZ
    targetX := newX
    targetZ := newZ }

/-- `startRotation` (player-controller.ts lines 279-284); `angle` in
    quarter turns. -/
def startRotation (now : Int) (angle : Int) (st : PC) : PC :=
  { st with
    isRotating := true
    rotStartTime := now
    rotStartAngle := st.rot
    targetRot := st.rot + angle }

/-- `moveForward` (player-controller.ts lines 134-174). -/
def moveForward (maze : Wgrid) (mazeSize : Nat) (now : Int) (st : PC) : PC :=
  if st.isMoving then st
  else
    let nr := normalizedRotation st.rot
    if nr = 0 then
      if canMove maze mazeSize st (st.posX, st.posZ) .north then
        startMovement now st.posX (st.posZ - 2) st
      else st
    else if nr = 2 then
      if canMove maze mazeSize st (st.posX, st.posZ) .south then
        startMovement now st.posX (st.posZ + 2) st
      else st
    else if nr = 1 then
      if canMove maze mazeSize st (st.posX, st.posZ) .west then
        startMovement now (st.posX - 2) st.posZ st
      else st
    else if nr = 3 then
      if canMove maze mazeSize st (st.posX, st.posZ) .east then
        startMovement now (st.posX + 2) st.posZ st
      else st
    else st

/-- `moveBackward` (player-controller.ts lines 176-216). -/
def moveBackward (maze : Wgrid) (mazeSize : Nat) (now : Int) (st : PC) : PC :=
  if st.isMoving then st
  else
    let nr := normalizedRotation st.rot
    if nr = 0 then
      if canMove maze mazeSize st (st.posX, st.posZ) .south then
        startMovement now st.posX (st.posZ + 2) st
      else st
    else if nr = 2 then
      if canMove maze mazeSize st (st.posX, st.posZ) .north then
        startMovement now st.posX (st.posZ - 2) st
      else st
    else if nr = 1 then
      if canMove maze mazeSize st (st.posX, st.posZ) .east then
        startMovement now (st.posX + 2) st.posZ st
      else st
    else if nr = 3 then
      if canMove maze mazeSize st (st.posX, st.posZ) .west then
        startMovement now (st.posX - 2) st.posZ st
      else st
    else st

/-- `rotateLeft` (player-controller.ts lines 218-221): `+π/2`. -/
def rotateLeft (now : Int) (st : PC) : PC :=
  if st.isRotating then st else startRotation now 1 st

/-- `rotateRight` (player-controller.ts lines 223-226): `-π/2`. -/
def rotateRight (now : Int) (st : PC) : PC :=
  if st.isRotating then st else startRotation now (-1) st

/-- Keys the keyboard handler distinguishes (player-controller.ts 293-306). -/
inductive Key : Type
  | arrowUp
  | arrowDown
  | arrowLeft
  | arrowRight
  | other
deriving DecidableEq, Repr

/-- `handleKeyDown` (player-controller.ts lines 286-307). -/
def handleKeyDown (maze : Wgrid) (mazeSize : Nat) (now : Int) (key : Key)
    (st : PC) : PC :=
  if st.isMoving || st.isRotating then st
  else
    match key with
    | .arrowUp => moveForward maze mazeSize now st
    | .arrowDown => moveBackward maze mazeSize now st
    | .arrowLeft => rotateLeft now st
    | .arrowRight => rotateRight now st
    | .other => st

/-- The cardinal direction `moveForward` resolves from the current
    rotation (player-controller.ts lines 145-169). -/
def forwardDirOf (rot : Int) : Wall :=
  if normalizedRotation rot = 0 then .north
  else if normalizedRotation rot = 2 then .south
  else if normalizedRotation rot = 1 then .west
  else .east

/-- The cardinal direction `moveBackward` resolves (lines 187-211). -/
def backwardDirOf (rot : Int) : Wall :=
  if normalizedRotation rot = 0 then .south
  else if normalizedRotation rot = 2 then .north
  else if normalizedRotation rot = 1 then .east
  else .west

/-- The rotation units are always normalized into `{0, 1, 2, 3}`. -/
theorem normalizedRotation_lt (rot : Int) :
    0 ≤ normalizedRotation rot ∧ normalizedRotation rot < 4 := by
  unfold normalizedRotation
  omega

/-- C5: `canMove` maps `currentPosition` through the shared coordinate
    mapping and bounds-checks it: out of `[0, size)` it returns `false`;
    in bounds it returns the negation of the cell's wall flag for the
    requested direction.  A move request whose `canMove` check fails
    leaves the whole controller state unchanged and starts no animation. -/
theorem canMove_spec_and_silent_rejection :
    (∀ (maze : Wgrid) (n : Nat) (st : PC) (pos : Int × Int) (dir : Wall),
      (gridIndexOf st.posX n < 0 ∨ (n : Int) ≤ gridIndexOf st.posX n ∨
        gridIndexOf st.posZ n < 0 ∨ (n : Int) ≤ gridIndexOf st.posZ n) →
      canMove maze n st pos dir = false) ∧
    (∀ (maze : Wgrid) (n : Nat) (st : PC) (pos : Int × Int) (dir : Wall),
      0 ≤ gridIndexOf st.posX n → gridIndexOf st.posX n < (n : Int) →
      0 ≤ gridIndexOf st.posZ n → gridIndexOf st.posZ n < (n : Int) →
      canMove maze n st pos dir =
        !(maze (gridIndexOf st.posX n) (gridIndexOf st.posZ n) dir)) ∧
    (∀ (maze : Wgrid) (n : Nat) (now : Int) (st : PC),
      canMove maze n st (st.posX, st.posZ) (forwardDirOf st.rot) = false →
      moveForward maze n now st = st) ∧
    (∀ (maze : Wgrid) (n : Nat) (now : Int) (st : PC),
      canMove maze n st (st.posX, st.posZ) (backwardDirOf st.rot) = false →
      moveBackward maze n now st = st) := by
  refine ⟨?_, ?_, ?_, ?_⟩
  · intro maze n st pos dir h
    unfold canMove
    simp only
    rw [if_pos (by omega)]
  · intro maze n st pos dir h1 h2 h3 h4
    unfold canMove
    simp only
    rw [if_neg (by omega)]
    cases dir <;> rfl
  · intro maze n now st h
    unfold moveForward
    by_cases hm : st.isMoving
    · rw [if_pos hm]
    · rw [if_neg hm]
      simp only
      unfold forwardDirOf at h
      have hnr := normalizedRotation_lt st.rot
      by_cases h0 : normalizedRotation st.rot = 0
      · rw [if_pos h0]
        rw [if_pos h0] at h
        simp [h]
      · rw [if_neg h0]
        rw [if_neg h0] at h
        by_cases h2 : normalizedRotation st.rot = 2
        · rw [if_pos h2]
          rw [if_pos h2] at h
          simp [h]
        · rw [if_neg h2]
          rw [if_neg h2] at h
          by_cases h1 : normalizedRotation st.rot = 1
          · rw [if_pos h1]
            rw [if_pos h1] at h
            simp [h]
          · rw [if_neg h1]
            rw [if_neg h1] at h
            rw [if_pos (by omega)]
            simp [h]
  · intro maze n now st h
    unfold moveBackward
    by_cases hm : st.isMoving
    · rw [if_pos hm]
    · rw [if_neg hm]
      simp only
      unfold backwardDirOf at h
      have hnr := normalizedRotation_lt st.rot
      by_cases h0 : normalizedRotation st.rot = 0
      · rw [if_pos h0]
        rw [if_pos h0] at h
        simp [h]
      · rw [if_neg h0]
        rw [if_neg h0] at h
        by_cases h2 : normalizedRotation st.rot = 2
        · rw [if_pos h2]
          rw [if_pos h2] at h
          simp [h]
        · rw [if_neg h2]
          rw [if_neg h2] at h
          by_cases h1 : normalizedRotation st.rot = 1
          · rw [if_pos h1]
            rw [if_pos h1] at h
            simp [h]
          · rw [if_neg h1]
            rw [if_neg h1] at h
            rw [if_pos (by omega)]
            simp [h]

/-- A fully walled 2×2 test maze. -/
def wallsAllUp : Wgrid := fun _ _ _ => true

/-- A controller state resting at world `(-1, -1)` (grid cell `(0,0)` of a
    2×2 maze), facing north, no animation running. -/
def pcAtOrigin : PC :=
  { posX := -1, posZ := -1, rot := 0, isMoving := false,
    targetX := 0, targetZ := 0, moveStartX := 0, moveStartZ := 0,
    moveProgress := 0, moveStartTime := 0, isRotating := false,
    targetRot := 0, rotStartTime := 0, rotStartAngle := 0 }

/-- Witness for C5: in the fully walled 2×2 maze the forward move from
    `(-1,-1)` facing north is rejected and changes nothing. -/
theorem canMove_spec_and_silent_rejection_witness :
    canMove wallsAllUp 2 pcAtOrigin (-1, -1) (forwardDirOf 0) = false ∧
    moveForward wallsAllUp 2 0 pcAtOrigin = pcAtOrigin :=
  ⟨by decide,
    canMove_spec_and_silent_rejection.2.2.1 wallsAllUp 2 0 pcAtOrigin (by decide)⟩

/-- The proposition claimed by C6: while either animation flag is set,
    none of the four input commands changes the controller state, on any
    input path (the on-screen buttons call these methods directly,
    ui-manager.ts lines 222-227). -/
def allCommandsGuardedWhileAnimating : Prop :=
  ∀ (maze : Wgrid) (n : Nat) (now : Int) (st : PC),
    (st.isMoving || st.isRotating) = true →
    moveForward maze n now st = st ∧ moveBackward maze n now st = st ∧
    rotateLeft now st = st ∧ rotateRight now st = st

/-- A state with a movement animation in progress and no rotation. -/
def pcMidMove : PC :=
  { pcAtOrigin with isMoving := true }

/-- C6 counterexample: `rotateLeft` called while `isMoving = true` (as the
    on-screen rotate button does) starts a rotation, so the claimed guard
    does not hold: `rotateLeft` and `rotateRight` check only `isRotating`,
    and `moveForward`/`moveBackward` check only `isMoving`. -/
theorem allCommandsGuardedWhileAnimating_false :
    ¬ allCommandsGuardedWhileAnimating := by
  intro h
  have h2 := (h wallsAllUp 2 0 pcMidMove (by decide)).2.2.1
  have h3 : (rotateLeft 0 pcMidMove).isRotating = pcMidMove.isRotating := by
    rw [h2]
  revert h3
  decide

/-- C6 amended: the keyboard path ignores all four commands while either
    animation is in progress; the direct method path rejects a new move
    only while `isMoving` and a new rotation only while `isRotating`. -/
theorem inputGuards_amended :
    (∀ (maze : Wgrid) (n : Nat) (now : Int) (key : Key) (st : PC),
      (st.isMoving || st.isRotating) = true →
      handleKeyDown maze n now key st = st) ∧
    (∀ (maze : Wgrid) (n : Nat) (now : Int) (st : PC), st.isMoving = true →
      moveForward maze n now st = st ∧ moveBackward maze n now st = st) ∧
    (∀ (now : Int) (st : PC), st.isRotating = true →
      rotateLeft now st = st ∧ rotateRight now st = st) := by
  refine ⟨?_, ?_, ?_⟩
  · intro maze n now key st h
    unfold handleKeyDown
    rw [if_pos h]
  · intro maze n now st h
    constructor
    · unfold moveForward
      rw [if_pos h]
    · unfold moveBackward
      rw [if_pos h]
  · intro now st h
    constructor
    · unfold rotateLeft
      rw [if_pos h]
    · unfold rotateRight
      rw [if_pos h]

/-- Witness for the amended C6 at a concrete mid-move state. -/
theorem inputGuards_amended_witness :
    handleKeyDown wallsAllUp 2 0 Key.arrowLeft pcMidMove = pcMidMove ∧
    moveForward wallsAllUp 2 0 pcMidMove = pcMidMove :=
  ⟨inputGuards_amended.1 wallsAllUp 2 0 Key.arrowLeft pcMidMove (by decide),
    (inputGuards_amended.2.1 wallsAllUp 2 0 pcMidMove (by decide)).1⟩

/-- C10: `canMove` ignores its `position` parameter — legality is judged
    from `currentPosition` only, whatever candidate position a caller
    passes. -/
theorem canMove_ignores_position_argument (maze : Wgrid) (n : Nat) (st : PC)
    (p q : Int × Int) (dir : Wall) :
    canMove maze n st p dir = canMove maze n st q dir := rfl

/-! ## Game state manager (game-state-manager.ts)

`checkWinCondition` is embedded as a pure function returning the
`hasWon` result, the successor state, and a record of the side effects
performed during the call.  The defensive `!this.farthestDeadEndTile`
guard can never fire in JS (a `Vector3` object is always truthy) and is
not modelled. -/

/-- GameStateManager state (game-state-manager.ts lines 16-38). -/
structure GSM where
  isTimedMode : Bool
  timeRemaining : Int
  timeBonus : Int
  score : Int
  isGameOver : Bool
  farthestX : Int
  farthestZ : Int
  mazeSize : Nat
deriving DecidableEq, Repr

/-- The externally visible side effects of one `checkWinCondition` call:
    `uiManager.pauseTimer()` and `uiManager.showGameOverScreen(...)`. -/
structure WinFx where
  pausedTimer : Bool
  showedGameOver : Bool
deriving DecidableEq, Repr

/-- `checkWinCondition` (game-state-manager.ts lines 64-94). -/
def checkWinCondition (st : GSM) (px pz : Int) : Bool × GSM × WinFx :=
  let currentGridX := gridIndexOf px st.mazeSize
  let currentGridZ := gridIndexOf pz st.mazeSize
  let targetGridX := gridIndexOf st.farthestX st.mazeSize
  let targetGridZ := gridIndexOf st.farthestZ st.mazeSize
  let hasWon := currentGridX = targetGridX && currentGridZ = targetGridZ
  if hasWon && !st.isGameOver then
    (hasWon,
      { st with
        isGameOver := true
        score :=
          if st.isTimedMode then st.score + max 0 st.timeRemaining
          else st.score },
      { pausedTimer := st.isTimedMode, showedGameOver := true })
  else
    (hasWon, st, { pausedTimer := false, showedGameOver := false })

/-- Running `checkWinCondition` over a tick sequence of player positions,
    returning the final state and the number of ticks whose call showed
    the game-over screen. -/
def runWinChecks (st : GSM) : List (Int × Int) → GSM × Nat
  | [] => (st, 0)
  | p :: rest =>
    let r := checkWinCondition st p.1 p.2
    let rec' := runWinChecks r.2.1 rest
    (rec'.1, (if r.2.2.showedGameOver then 1 else 0) + rec'.2)

/-- Once `isGameOver` holds, a check changes nothing and fires no effects. -/
theorem checkWinCondition_gameOver (st : GSM) (px pz : Int)
    (h : st.isGameOver = true) :
    (checkWinCondition st px pz).2.1 = st ∧
    (checkWinCondition st px pz).2.2.showedGameOver = false := by
  unfold checkWinCondition
  simp [h]

/-- A check that fires the game-over effects sets `isGameOver`. -/
theorem checkWinCondition_fired (st : GSM) (px pz : Int)
    (h : (checkWinCondition st px pz).2.2.showedGameOver = true) :
    (checkWinCondition st px pz).2.1.isGameOver = true := by
  unfold checkWinCondition at *
  by_cases hc : (gridIndexOf px st.mazeSize = gridIndexOf st.farthestX st.mazeSize &&
      gridIndexOf pz st.mazeSize = gridIndexOf st.farthestZ st.mazeSize) && !st.isGameOver
  · simp [hc]
  · simp [hc] at h

/-- From a game-over state, no later tick fires effects. -/
theorem runWinChecks_gameOver (ps : List (Int × Int)) (st : GSM)
    (h : st.isGameOver = true) : (runWinChecks st ps).2 = 0 := by
  induction ps generalizing st with
  | nil => rfl
  | cons p rest ih =>
    have h1 := checkWinCondition_gameOver st p.1 p.2 h
    have h2 : (checkWinCondition st p.1 p.2).2.1.isGameOver = true := by
      rw [h1.1]; exact h
    simp only [runWinChecks, h1.2, ih _ h2]
    simp

/-- C8: (1) `checkWinCondition` reports a win exactly when the player's
    world position, rounded through the shared coordinate mapping, equals
    the rounded goal-tile coordinates; (2) with the player standing on the
    world position of any grid cell, it wins exactly on the goal cell
    `(gx, gz)` and on no other cell (in particular no adjacent cell); and
    (3) over any tick sequence the game-over side effects fire at most
    once. -/
theorem checkWinCondition_exact_and_once :
    (∀ (st : GSM) (px pz : Int),
      (checkWinCondition st px pz).1 = true ↔
        (gridIndexOf px st.mazeSize = gridIndexOf st.farthestX st.mazeSize ∧
          gridIndexOf pz st.mazeSize = gridIndexOf st.farthestZ st.mazeSize)) ∧
    (∀ (st : GSM) (gx gz cx cz : Int),
      st.farthestX = gx * 2 - ((st.mazeSize : Int) - 1) →
      st.farthestZ = gz * 2 - ((st.mazeSize : Int) - 1) →
      ((checkWinCondition st (cx * 2 - ((st.mazeSize : Int) - 1))
          (cz * 2 - ((st.mazeSize : Int) - 1))).1 = true ↔
        (cx = gx ∧ cz = gz))) ∧
    (∀ (st : GSM) (ps : List (Int × Int)), (runWinChecks st ps).2 ≤ 1) := by
  refine ⟨?_, ?_, ?_⟩
  · intro st px pz
    unfold checkWinCondition
    by_cases hc : (gridIndexOf px st.mazeSize = gridIndexOf st.farthestX st.mazeSize &&
        gridIndexOf pz st.mazeSize = gridIndexOf st.farthestZ st.mazeSize) && !st.isGameOver
    · simp only [Bool.and_eq_true, Bool.not_eq_eq_eq_not, Bool.not_true,
        decide_eq_true_eq] at hc
      simp [checkWinCondition, hc.1.1, hc.1.2, hc.2]
    · by_cases hw : (gridIndexOf px st.mazeSize = gridIndexOf st.farthestX st.mazeSize ∧
          gridIndexOf pz st.mazeSize = gridIndexOf st.farthestZ st.mazeSize)
      · have hgo : st.isGameOver = true := by
          by_contra hgo
          rw [Bool.not_eq_true] at hgo
          exact hc (by simp [hw.1, hw.2, hgo])
        simp [checkWinCondition, hw.1, hw.2, hgo]
      · rcases Decidable.not_and_iff_or_not.mp hw with h1 | h1
        · simp [checkWinCondition, h1]
        · simp [checkWinCondition, h1]
  · intro st gx gz cx cz hx hz
    have key : ∀ c : Int, gridIndexOf (c * 2 - ((st.mazeSize : Int) - 1)) st.mazeSize = c := by
      intro c
      unfold gridIndexOf
      omega
    unfold checkWinCondition
    rw [hx, hz]
    by_cases hc : cx = gx ∧ cz = gz
    · by_cases hover : st.isGameOver
      · simp [key, hc.1, hc.2, hover]
      · simp [key, hc.1, hc.2, hover]
    · have : ¬ (cx = gx ∧ cz = gz) := hc
      by_cases hcx : cx = gx
      · have hcz : ¬ cz = gz := fun h => this ⟨hcx, h⟩
        simp [key, hcx, hcz]
      · simp [key, hcx]
  · intro st ps
    induction ps generalizing st with
    | nil => simp [runWinChecks]
    | cons p rest ih =>
      by_cases hf : (checkWinCondition st p.1 p.2).2.2.showedGameOver = true
      · have h0 := runWinChecks_gameOver rest _ (checkWinCondition_fired st p.1 p.2 hf)
        simp only [runWinChecks, hf, h0]
        simp
      · simp only [Bool.not_eq_true] at hf
        simp only [runWinChecks, hf]
        simpa using ih _

/-- Witness for C8: a concrete 8×8 timed session where the goal tile is
    grid `(3, 4)`; standing on the adjacent cell `(3, 3)` does not win. -/
def gsmSample : GSM :=
  { isTimedMode := true, timeRemaining := 30, timeBonus := 10, score := 0,
    isGameOver := false, farthestX := worldCoordOf 3 8,
    farthestZ := worldCoordOf 4 8, mazeSize := 8 }

/-- Witness for C8 applying the exactness part at the adjacent cell. -/
theorem checkWinCondition_exact_and_once_witness :
    (checkWinCondition gsmSample (worldCoordOf 3 8) (worldCoordOf 3 8)).1 = false := by
  have h := (checkWinCondition_exact_and_once.2.1 gsmSample 3 4 3 3
    (by decide) (by decide))
  have hne : ¬ ((3 : Int) = 3 ∧ (3 : Int) = 4) := by
    intro hcon
    exact absurd hcon.2 (by decide)
  have : ¬ (checkWinCondition gsmSample ((3 : Int) * 2 - ((8 : Nat) - 1 : Int))
      ((3 : Int) * 2 - ((8 : Nat) - 1 : Int))).1 = true := fun ht => hne (h.mp ht)
  simpa [worldCoordOf] using this

/-! ## Collectible collisions (ui-manager.ts CollectibleManager lines
    659-703; game-state-manager.ts updateScoreOrTime lines 51-62;
    ui-manager.ts addTimeBonus lines 276-279)

World positions are `Vec3` over `ℚ` (collectibles float at `y = 0.8`, the
player at `y = 0.5`).  `playerPosition.distanceTo(c.position) < 0.8` is
embedded as the equivalent squared comparison
`dist² < 0.8² = 16/25`, avoiding the square root. -/

/-- A THREE.Vector3 world position over exact rationals. -/
structure Vec3 where
  x : ℚ
  y : ℚ
  z : ℚ
deriving DecidableEq, Repr

/-- `playerPosition.distanceTo(collectible.position) < 0.8`
    (collision threshold, ui-manager.ts line 668), squared form. -/
def collides (p c : Vec3) : Bool :=
  decide ((p.x - c.x) ^ 2 + (p.y - c.y) ^ 2 + (p.z - c.z) ^ 2 < (8 / 10 : ℚ) ^ 2)

/-- The score/time state shared by GameStateManager and UIManager. -/
structure ScoreState where
  isTimedMode : Bool
  score : Nat
  timeRemaining : Int
  timeBonus : Int
deriving DecidableEq, Repr

/-- `updateScoreOrTime` (game-state-manager.ts lines 51-62), with
    `uiManager.addTimeBonus` (ui-manager.ts lines 276-279) inlined. -/
def updateScoreOrTime (s : ScoreState) : ScoreState :=
  if s.isTimedMode then { s with timeRemaining := s.timeRemaining + s.timeBonus }
  else { s with score := s.score + 1 }

/-- One step of the removal loop of `checkCollectibleCollisions`
    (ui-manager.ts lines 679-703): `indexOf` + `splice` removes the first
    occurrence, and the score/time callback runs only when the collectible
    was found (`index > -1`). -/
def consumeCollectible (acc : List Vec3 × ScoreState) (c : Vec3) :
    List Vec3 × ScoreState :=
  if c ∈ acc.1 then (acc.1.erase c, updateScoreOrTime acc.2) else acc

/-- `checkCollectibleCollisions` (ui-manager.ts lines 659-703): first
    collect every live collectible within the threshold, then remove each
    and update score or time. -/
def checkCollectibleCollisions (p : Vec3) (collectibles : List Vec3)
    (s : ScoreState) : List Vec3 × ScoreState :=
  let collectiblesToRemove := collectibles.filter (fun c => collides p c)
  collectiblesToRemove.foldl consumeCollectible (collectibles, s)

/-- Helper: folding `consumeCollectible` over elements all different from
    `a` leaves a head `a` in place. -/
theorem foldl_consume_cons (a : Vec3) :
    ∀ (r : List Vec3) (t : List Vec3) (s : ScoreState),
      (∀ c ∈ r, c ≠ a) →
      r.foldl consumeCollectible (a :: t, s) =
        ((r.foldl consumeCollectible (t, s)).1.cons a,
          (r.foldl consumeCollectible (t, s)).2) := by
  intro r
  induction r with
  | nil => intro t s _; rfl
  | cons c r ih =>
    intro t s hne
    have hca : c ≠ a := hne c (List.mem_cons_self c r)
    have hmem : c ∈ a :: t ↔ c ∈ t := by
      constructor
      · intro h
        rcases List.mem_cons.mp h with h | h
        · exact absurd h hca
        · exact h
      · intro h
        exact List.mem_cons_of_mem a h
    have herase : (a :: t).erase c = a :: t.erase c := by
      rw [List.erase_cons]
      rw [if_neg (by simpa using fun h => hca h.symm)]
    simp only [List.foldl_cons]
    unfold consumeCollectible
    by_cases hc : c ∈ t
    · rw [if_pos (hmem.mpr hc), if_pos hc]
      simp only [herase]
      exact ih (t.erase c) (updateScoreOrTime s) (fun d hd => hne d (List.mem_cons_of_mem c hd))
    · rw [if_neg (fun h => hc (hmem.mp h)), if_neg hc]
      exact ih t s (fun d hd => hne d (List.mem_cons_of_mem c hd))

/-- Core lemma: processing exactly the colliding prefix filter of a list
    removes all colliding occurrences, keeps everything else in order, and
    applies the update once per removed collectible. -/
theorem foldl_consume_filter (P : Vec3 → Bool) :
    ∀ (l : List Vec3) (s : ScoreState),
      (l.filter P).foldl consumeCollectible (l, s) =
        (l.filter (fun c => !(P c)), updateScoreOrTime^[(l.filter P).length] s) := by
  intro l
  induction l with
  | nil => intro s; rfl
  | cons a t ih =>
    intro s
    by_cases hp : P a
    · have hfa : (a :: t).filter P = a :: t.filter P := by
        simp [List.filter_cons, hp]
      have hfn : (a :: t).filter (fun c => !(P c)) = t.filter (fun c => !(P c)) := by
        simp [List.filter_cons, hp]
      rw [hfa, hfn]
      simp only [List.foldl_cons]
      have hstep : consumeCollectible (a :: t, s) a = (t, updateScoreOrTime s) := by
        unfold consumeCollectible
        rw [if_pos (List.mem_cons_self a t)]
        simp [List.erase_cons_head]
      rw [hstep, ih (updateScoreOrTime s), List.length_cons,
        Function.iterate_succ_apply]
    · have hp' : P a = false := by simpa using hp
      have hfa : (a :: t).filter P = t.filter P := by
        simp [List.filter_cons, hp']
      have hfn : (a :: t).filter (fun c => !(P c)) = a :: t.filter (fun c => !(P c)) := by
        simp [List.filter_cons, hp']
      rw [hfa, hfn]
      have hne : ∀ c ∈ t.filter P, c ≠ a := by
        intro c hc hca
        have := List.of_mem_filter hc
        rw [hca, hp'] at this
        exact absurd this (by decide)
      rw [foldl_consume_cons a (t.filter P) t s hne, ih s]

/-- Projections of one score/time update. -/
theorem updateScoreOrTime_proj (s : ScoreState) :
    (updateScoreOrTime s).isTimedMode = s.isTimedMode ∧
    (updateScoreOrTime s).timeBonus = s.timeBonus ∧
    (updateScoreOrTime s).score = s.score + (if s.isTimedMode then 0 else 1) ∧
    (updateScoreOrTime s).timeRemaining =
      s.timeRemaining + (if s.isTimedMode then s.timeBonus else 0) := by
  unfold updateScoreOrTime
  by_cases ht : s.isTimedMode = true
  · simp [ht]
  · have ht' : s.isTimedMode = false := by simpa using ht
    simp [ht']

/-- Iterating the score/time update `k` times. -/
theorem updateScoreOrTime_iterate (k : Nat) (s : ScoreState) :
    (updateScoreOrTime^[k] s).isTimedMode = s.isTimedMode ∧
    (updateScoreOrTime^[k] s).timeBonus = s.timeBonus ∧
    (updateScoreOrTime^[k] s).score =
      s.score + (if s.isTimedMode then 0 else k) ∧
    (updateScoreOrTime^[k] s).timeRemaining =
      s.timeRemaining + (if s.isTimedMode then (k : Int) * s.timeBonus else 0) := by
  induction k generalizing s with
  | zero => simp
  | succ k ih =>
    rw [Function.iterate_succ_apply]
    rcases ih (updateScoreOrTime s) with ⟨h1, h2, h3, h4⟩
    rcases updateScoreOrTime_proj s with ⟨p1, p2, p3, p4⟩
    rw [p1] at h1 h3 h4
    rw [p2] at h2 h4
    rw [p3] at h3
    rw [p4] at h4
    refine ⟨h1, h2, ?_, ?_⟩
    · rw [h3]
      by_cases ht : s.isTimedMode = true
      · simp [ht]
      · have ht' : s.isTimedMode = false := by simpa using ht
        simp [ht']
        omega
    · rw [h4]
      by_cases ht : s.isTimedMode = true
      · simp only [ht, if_true]
        push_cast
        ring
      · have ht' : s.isTimedMode = false := by simpa using ht
        simp [ht']

/-- C9: on a collision check every live collectible strictly closer than
    0.8 world units to the player is removed; each removal increments the
    score by one in non-timed mode or adds the configured time bonus in
    timed mode; collectibles at distance ≥ 0.8 remain, in order. -/
theorem checkCollectibleCollisions_spec (p : Vec3) (l : List Vec3)
    (s : ScoreState) :
    (checkCollectibleCollisions p l s).1 =
      l.filter (fun c => !(collides p c)) ∧
    (checkCollectibleCollisions p l s).2.score =
      s.score + (if s.isTimedMode then 0 else (l.filter (fun c => collides p c)).length) ∧
    (checkCollectibleCollisions p l s).2.timeRemaining =
      s.timeRemaining +
        (if s.isTimedMode then ((l.filter (fun c => collides p c)).length : Int) * s.timeBonus
          else 0) ∧
    (∀ c ∈ l, collides p c = false → c ∈ (checkCollectibleCollisions p l s).1) := by
  have hmain := foldl_consume_filter (fun c => collides p c) l s
  have hiter := updateScoreOrTime_iterate (l.filter (fun c => collides p c)).length s
  unfold checkCollectibleCollisions
  rw [hmain]
  refine ⟨rfl, hiter.2.2.1, hiter.2.2.2, ?_⟩
  intro c hc hnc
  exact List.mem_filter.mpr ⟨hc, by simp [hnc]⟩

/-- Witness for C9: the player at the origin collects the collectible at
    distance 0.3 (its own cell) and leaves the one a full cell away. -/
theorem checkCollectibleCollisions_spec_witness :
    (checkCollectibleCollisions ⟨0, 1/2, 0⟩
        [⟨0, 8/10, 0⟩, ⟨2, 8/10, 0⟩]
        ⟨false, 0, 60, 10⟩).1 = [⟨2, 8/10, 0⟩] ∧
    (checkCollectibleCollisions ⟨0, 1/2, 0⟩
        [⟨0, 8/10, 0⟩, ⟨2, 8/10, 0⟩]
        ⟨false, 0, 60, 10⟩).2.score = 1 := by
  have h := checkCollectibleCollisions_spec ⟨0, 1/2, 0⟩
    [⟨0, 8/10, 0⟩, ⟨2, 8/10, 0⟩] ⟨false, 0, 60, 10⟩
  have hc1 : collides ⟨0, 1/2, 0⟩ ⟨0, 8/10, 0⟩ = true := by
    unfold collides
    rw [decide_eq_true_eq]
    norm_num
  have hc2 : collides ⟨0, 1/2, 0⟩ ⟨2, 8/10, 0⟩ = false := by
    unfold collides
    rw [decide_eq_false_iff_not]
    norm_num
  refine ⟨?_, ?_⟩
  · rw [h.1, List.filter_cons, List.filter_cons, hc1, hc2]
    simp
  · rw [h.2.1, List.filter_cons, List.filter_cons, hc1, hc2]
    simp


/-! ## Maze generator (maze.ts)

The recursive backtracking carver is embedded with the `Math.random()`
oracle `ρ` and explicit fuel.  The top-level entry point uses fuel
`n * n`, which is proved sufficient: every recursive call targets a cell
that is unvisited at call time, so the recursion depth never exceeds the
number of unvisited cells. -/

/-- `getOppositeWall` (maze.ts lines 105-112). -/
def getOppositeWall : Wall → Wall
  | .north => .south
  | .south => .north
  | .east => .west
  | .west => .east

/-- Generator state: per-cell visited flags and wall flags plus the
    randomness counter. -/
structure St where
  visited : Nat → Nat → Bool
  walls : Nat → Nat → Wall → Bool
  ctr : Nat

/-- The freshly initialized grid: all walls up, nothing visited
    (maze.ts constructor lines 25-43). -/
def initSt : St :=
  { visited := fun _ _ => false, walls := fun _ _ _ => true, ctr := 0 }

/-- `this.grid[x][y].visited = true` (maze.ts line 65). -/
def visitCell (x y : Nat) (st : St) : St :=
  { st with visited := fun a b => if a = x ∧ b = y then true else st.visited a b }

/-- `removeWall` (maze.ts lines 101-103). -/
def removeWall (x y : Nat) (w : Wall) (st : St) : St :=
  { st with
    walls := fun a b v => if a = x ∧ b = y ∧ v = w then false else st.walls a b v }

/-- `getUnvisitedNeighbors` (maze.ts lines 90-99): candidates pushed in
    the order west, east, north, south, then filtered by unvisitedness. -/
def getUnvisitedNeighbors (n : Nat) (st : St) (x y : Nat) :
    List (Nat × Nat × Wall) :=
  ((if 0 < x then [(x - 1, y, Wall.west)] else []) ++
    (if x < n - 1 then [(x + 1, y, Wall.east)] else []) ++
    (if 0 < y then [(x, y - 1, Wall.north)] else []) ++
    (if y < n - 1 then [(x, y + 1, Wall.south)] else [])).filter
    (fun t => !(st.visited t.1 t.2.1))

/-- One swap `[d[i], d[j]] = [d[j], d[i]]` of the shuffle loop
    (maze.ts line 73). -/
def swapIdx (l : List (Nat × Nat × Wall)) (i j : Nat) :
    List (Nat × Nat × Wall) :=
  match l[i]?, l[j]? with
  | some a, some b => (l.set i b).set j a
  | some _, none => l
  | none, _ => l

/-- The Fisher-Yates loop (maze.ts lines 71-74): for `i` from
    `length - 1` down to `1`, swap index `i` with
    `j = Math.floor(Math.random() * (i + 1))`. -/
def fyLoop (ρ : Nat → Nat) (l : List (Nat × Nat × Wall)) (c : Nat) :
    Nat → List (Nat × Nat × Wall) × Nat
  | 0 => (l, c)
  | i + 1 => fyLoop ρ (swapIdx l (i + 1) (ρ c % (i + 2))) (c + 1) i

/-- The full shuffle of the `directions` array. -/
def shuffleDirs (ρ : Nat → Nat) (c : Nat) (l : List (Nat × Nat × Wall)) :
    List (Nat × Nat × Wall) × Nat :=
  fyLoop ρ l c (l.length - 1)

mutual

/-- `carvePathFrom` (maze.ts lines 64-88), with explicit fuel. -/
def carve (ρ : Nat → Nat) (n : Nat) (fuel x y : Nat) (st : St) : St :=
  match fuel with
  | 0 => st
  | f + 1 =>
    let st1 := visitCell x y st
    let sh := shuffleDirs ρ st1.ctr (getUnvisitedNeighbors n st1 x y)
    carveDirs ρ n f x y sh.1 { st1 with ctr := sh.2 }
termination_by (fuel, 0)

/-- The `directions.forEach` body (maze.ts lines 77-87): re-check the
    visited flag, remove the facing wall pair, recurse. -/
def carveDirs (ρ : Nat → Nat) (n : Nat) (fuel x y : Nat)
    (dirs : List (Nat × Nat × Wall)) (st : St) : St :=
  match dirs with
  | [] => st
  | (nx, ny, w) :: rest =>
    if st.visited nx ny then carveDirs ρ n fuel x y rest st
    else
      let st1 := removeWall x y w st
      let st2 := removeWall nx ny (getOppositeWall w) st1
      let st3 := carve ρ n fuel nx ny st2
      carveDirs ρ n fuel x y rest st3
termination_by (fuel, dirs.length + 1)

end

/-- The carving start cell `(⌊size/2⌋, ⌊size/2⌋)` (maze.ts lines 47-48). -/
def startCell (n : Nat) : Nat × Nat := (n / 2, n / 2)

/-- The grid state right after `this.carvePathFrom(startX, startY)`
    (maze.ts line 49), with fuel `n * n`. -/
def carvedMaze (ρ : Nat → Nat) (n : Nat) : St :=
  carve ρ n (n * n) (startCell n).1 (startCell n).2 initSt


/-! ### Shuffle lemmas: the Fisher-Yates loop permutes the list -/

/-- Swapping a tail element to the head is a permutation. -/
theorem cons_set_perm (a b : Nat × Nat × Wall) :
    ∀ (t : List (Nat × Nat × Wall)) (j : Nat), t[j]? = some b →
      (b :: t.set j a).Perm (a :: t) := by
  intro t
  induction t with
  | nil =>
    intro j hj
    simp at hj
  | cons c t ih =>
    intro j hj
    cases j with
    | zero =>
      simp at hj
      subst hj
      simp only [List.set_cons_zero]
      exact List.Perm.swap a c t
    | succ k =>
      simp only [List.getElem?_cons_succ] at hj
      simp only [List.set_cons_succ]
      have h1 : (b :: c :: t.set k a).Perm (c :: b :: t.set k a) :=
        List.Perm.swap c b (t.set k a)
      have h2 : (c :: b :: t.set k a).Perm (c :: a :: t) :=
        List.Perm.cons c (ih k hj)
      have h3 : (c :: a :: t).Perm (a :: c :: t) := List.Perm.swap a c t
      exact (h1.trans h2).trans h3

/-- Setting index `i` to the value at `j` and `j` to the value at `i`
    permutes the list. -/
theorem set_set_perm :
    ∀ (l : List (Nat × Nat × Wall)) (i j : Nat) (a b : Nat × Nat × Wall),
      l[i]? = some a → l[j]? = some b → ((l.set i b).set j a).Perm l := by
  intro l
  induction l with
  | nil =>
    intro i j a b hi _
    simp at hi
  | cons x t ih =>
    intro i j a b hi hj
    cases i with
    | zero =>
      simp at hi
      subst hi
      cases j with
      | zero =>
        simp at hj
        subst hj
        simp
      | succ m =>
        simp only [List.getElem?_cons_succ] at hj
        simp only [List.set_cons_zero, List.set_cons_succ]
        exact cons_set_perm x b t m hj
    | succ k =>
      simp only [List.getElem?_cons_succ] at hi
      cases j with
      | zero =>
        simp at hj
        subst hj
        simp only [List.set_cons_succ, List.set_cons_zero]
        exact cons_set_perm x a t k hi
      | succ m =>
        simp only [List.getElem?_cons_succ] at hj
        simp only [List.set_cons_succ]
        exact List.Perm.cons x (ih k m a b hi hj)

/-- `swapIdx` permutes the list. -/
theorem swapIdx_perm (l : List (Nat × Nat × Wall)) (i j : Nat) :
    (swapIdx l i j).Perm l := by
  unfold swapIdx
  split
  · rename_i a b hi hj
    exact set_set_perm l i j a b hi hj
  · exact List.Perm.refl l
  · exact List.Perm.refl l

/-- The shuffle loop permutes the list. -/
theorem fyLoop_perm (ρ : Nat → Nat) :
    ∀ (i : Nat) (l : List (Nat × Nat × Wall)) (c : Nat),
      ((fyLoop ρ l c i).1).Perm l := by
  intro i
  induction i with
  | zero =>
    intro l c
    exact List.Perm.refl l
  | succ i ih =>
    intro l c
    exact (ih _ _).trans (swapIdx_perm l (i + 1) (ρ c % (i + 2)))

/-- The shuffled `directions` array has the same members as the input. -/
theorem shuffleDirs_mem (ρ : Nat → Nat) (c : Nat)
    (l : List (Nat × Nat × Wall)) (d : Nat × Nat × Wall) :
    d ∈ (shuffleDirs ρ c l).1 ↔ d ∈ l :=
  (fyLoop_perm ρ (l.length - 1) l c).mem_iff

/-! ### Well-formed direction triples -/

/-- A cell lies inside the `n × n` grid. -/
def inBounds (n x y : Nat) : Prop := x < n ∧ y < n

/-- The shape of a neighbor triple `(nextX, nextY, wall)` produced by
    `getUnvisitedNeighbors` at `(x, y)`: it names the adjacent cell across
    the named wall and stays inside the grid. -/
def dirOK (n x y : Nat) (d : Nat × Nat × Wall) : Prop :=
  inBounds n x y ∧
  ((d.2.2 = Wall.west ∧ 0 < x ∧ d.1 = x - 1 ∧ d.2.1 = y) ∨
    (d.2.2 = Wall.east ∧ x + 1 < n ∧ d.1 = x + 1 ∧ d.2.1 = y) ∨
    (d.2.2 = Wall.north ∧ 0 < y ∧ d.1 = x ∧ d.2.1 = y - 1) ∨
    (d.2.2 = Wall.south ∧ y + 1 < n ∧ d.1 = x ∧ d.2.1 = y + 1))

/-- Members of `getUnvisitedNeighbors` are well-formed and unvisited. -/
theorem getUnvisitedNeighbors_sound (n : Nat) (st : St) (x y : Nat)
    (hx : inBounds n x y) (d : Nat × Nat × Wall)
    (hd : d ∈ getUnvisitedNeighbors n st x y) :
    dirOK n x y d ∧ st.visited d.1 d.2.1 = false := by
  unfold getUnvisitedNeighbors at hd
  have hmem := List.mem_filter.mp hd
  have hvis : st.visited d.1 d.2.1 = false := by
    have := hmem.2
    simp at this
    exact this
  refine ⟨⟨hx, ?_⟩, hvis⟩
  have h := hmem.1
  simp only [List.mem_append] at h
  rcases h with ((h | h) | h) | h
  · by_cases h0 : 0 < x
    · rw [if_pos h0] at h
      simp at h
      subst h
      exact Or.inl ⟨rfl, h0, rfl, rfl⟩
    · rw [if_neg h0] at h
      simp at h
  · by_cases h0 : x < n - 1
    · rw [if_pos h0] at h
      simp at h
      subst h
      exact Or.inr (Or.inl ⟨rfl, by omega, rfl, rfl⟩)
    · rw [if_neg h0] at h
      simp at h
  · by_cases h0 : 0 < y
    · rw [if_pos h0] at h
      simp at h
      subst h
      exact Or.inr (Or.inr (Or.inl ⟨rfl, h0, rfl, rfl⟩))
    · rw [if_neg h0] at h
      simp at h
  · by_cases h0 : y < n - 1
    · rw [if_pos h0] at h
      simp at h
      subst h
      exact Or.inr (Or.inr (Or.inr ⟨rfl, by omega, rfl, rfl⟩))
    · rw [if_neg h0] at h
      simp at h

/-- Every well-formed unvisited neighbor triple is produced by
    `getUnvisitedNeighbors`. -/
theorem getUnvisitedNeighbors_complete (n : Nat) (st : St) (x y : Nat)
    (d : Nat × Nat × Wall) (hok : dirOK n x y d)
    (hvis : st.visited d.1 d.2.1 = false) :
    d ∈ getUnvisitedNeighbors n st x y := by
  unfold getUnvisitedNeighbors
  refine List.mem_filter.mpr ⟨?_, by simp [hvis]⟩
  obtain ⟨d1, d2, d3⟩ := d
  rcases hok.2 with ⟨hw, hb, h1, h2⟩ | ⟨hw, hb, h1, h2⟩ | ⟨hw, hb, h1, h2⟩ | ⟨hw, hb, h1, h2⟩ <;>
    simp only at hw h1 h2 <;> subst hw <;> subst h1 <;> subst h2 <;>
    simp only [List.mem_append]
  · exact Or.inl (Or.inl (Or.inl (by rw [if_pos hb]; simp)))
  · have hb' : x < n - 1 := by omega
    exact Or.inl (Or.inl (Or.inr (by rw [if_pos hb']; simp)))
  · exact Or.inl (Or.inr (by rw [if_pos hb]; simp))
  · have hb' : y < n - 1 := by omega
    exact Or.inr (by rw [if_pos hb']; simp)


/-! ### Monotonicity of the carver: visited flags only get set, wall
    flags only get cleared, and a wall slot changes only at the current
    cell or at a cell that was still unvisited -/

/-- `visitCell` flag shape. -/
theorem visitCell_visited (x y a b : Nat) (st : St) :
    (visitCell x y st).visited a b =
      if a = x ∧ b = y then true else st.visited a b := rfl

/-- `removeWall` slot shape. -/
theorem removeWall_walls (x y : Nat) (w : Wall) (st : St) (a b : Nat)
    (v : Wall) :
    (removeWall x y w st).walls a b v =
      if a = x ∧ b = y ∧ v = w then false else st.walls a b v := rfl

/-- Visited monotonicity for the loop, given it for the recursive call. -/
theorem carveDirs_vis_mono_of (ρ : Nat → Nat) (n fuel : Nat)
    (hc : ∀ x y st a b, st.visited a b = true →
      (carve ρ n fuel x y st).visited a b = true) :
    ∀ (dirs : List (Nat × Nat × Wall)) (x y : Nat) (st : St) (a b : Nat),
      st.visited a b = true →
      (carveDirs ρ n fuel x y dirs st).visited a b = true := by
  intro dirs
  induction dirs with
  | nil =>
    intro x y st a b hv
    unfold carveDirs
    exact hv
  | cons d rest ih =>
    obtain ⟨nx, ny, w⟩ := d
    intro x y st a b hv
    unfold carveDirs
    by_cases h : st.visited nx ny = true
    · rw [if_pos h]
      exact ih x y st a b hv
    · rw [if_neg h]
      apply ih
      exact hc nx ny _ a b hv

/-- Visited flags are monotone along `carve`. -/
theorem carve_vis_mono (ρ : Nat → Nat) (n : Nat) :
    ∀ (fuel x y : Nat) (st : St) (a b : Nat),
      st.visited a b = true → (carve ρ n fuel x y st).visited a b = true := by
  intro fuel
  induction fuel with
  | zero =>
    intro x y st a b hv
    unfold carve
    exact hv
  | succ f ih =>
    intro x y st a b hv
    unfold carve
    apply carveDirs_vis_mono_of ρ n f ih
    show (visitCell x y st).visited a b = true
    rw [visitCell_visited]
    by_cases h : a = x ∧ b = y
    · rw [if_pos h]
    · rw [if_neg h]
      exact hv

/-- Visited flags are monotone along `carveDirs`. -/
theorem carveDirs_vis_mono (ρ : Nat → Nat) (n fuel : Nat)
    (dirs : List (Nat × Nat × Wall)) (x y : Nat) (st : St) (a b : Nat)
    (hv : st.visited a b = true) :
    (carveDirs ρ n fuel x y dirs st).visited a b = true :=
  carveDirs_vis_mono_of ρ n fuel (carve_vis_mono ρ n fuel) dirs x y st a b hv

/-- Wall monotonicity for the loop, given it for the recursive call. -/
theorem carveDirs_walls_mono_of (ρ : Nat → Nat) (n fuel : Nat)
    (hc : ∀ x y st a b v, st.walls a b v = false →
      (carve ρ n fuel x y st).walls a b v = false) :
    ∀ (dirs : List (Nat × Nat × Wall)) (x y : Nat) (st : St) (a b : Nat)
      (v : Wall), st.walls a b v = false →
      (carveDirs ρ n fuel x y dirs st).walls a b v = false := by
  intro dirs
  induction dirs with
  | nil =>
    intro x y st a b v hw
    unfold carveDirs
    exact hw
  | cons d rest ih =>
    obtain ⟨nx, ny, w⟩ := d
    intro x y st a b v hw
    unfold carveDirs
    by_cases h : st.visited nx ny = true
    · rw [if_pos h]
      exact ih x y st a b v hw
    · rw [if_neg h]
      apply ih
      apply hc
      show (removeWall nx ny (getOppositeWall w) (removeWall x y w st)).walls a b v = false
      rw [removeWall_walls, removeWall_walls]
      by_cases h1 : a = nx ∧ b = ny ∧ v = getOppositeWall w
      · rw [if_pos h1]
      · rw [if_neg h1]
        by_cases h2 : a = x ∧ b = y ∧ v = w
        · rw [if_pos h2]
        · rw [if_neg h2]
          exact hw

/-- Cleared wall flags stay cleared along `carve`. -/
theorem carve_walls_mono (ρ : Nat → Nat) (n : Nat) :
    ∀ (fuel x y : Nat) (st : St) (a b : Nat) (v : Wall),
      st.walls a b v = false → (carve ρ n fuel x y st).walls a b v = false := by
  intro fuel
  induction fuel with
  | zero =>
    intro x y st a b v hw
    unfold carve
    exact hw
  | succ f ih =>
    intro x y st a b v hw
    unfold carve
    apply carveDirs_walls_mono_of ρ n f ih
    exact hw

/-- Cleared wall flags stay cleared along `carveDirs`. -/
theorem carveDirs_walls_mono (ρ : Nat → Nat) (n fuel : Nat)
    (dirs : List (Nat × Nat × Wall)) (x y : Nat) (st : St) (a b : Nat)
    (v : Wall) (hw : st.walls a b v = false) :
    (carveDirs ρ n fuel x y dirs st).walls a b v = false :=
  carveDirs_walls_mono_of ρ n fuel (carve_walls_mono ρ n fuel) dirs x y st a b v hw

/-- Wall stability for the loop: a slot that changes belongs to the loop's
    own cell or to a cell that was unvisited at loop entry. -/
theorem carveDirs_wallStable_of (ρ : Nat → Nat) (n fuel : Nat)
    (hc : ∀ x y st a b v, (carve ρ n fuel x y st).walls a b v ≠ st.walls a b v →
      ((a, b) = (x, y) ∨ st.visited a b = false)) :
    ∀ (dirs : List (Nat × Nat × Wall)) (x y : Nat) (st : St) (a b : Nat)
      (v : Wall),
      (carveDirs ρ n fuel x y dirs st).walls a b v ≠ st.walls a b v →
      ((a, b) = (x, y) ∨ st.visited a b = false) := by
  intro dirs
  induction dirs with
  | nil =>
    intro x y st a b v hne
    unfold carveDirs at hne
    exact absurd rfl hne
  | cons d rest ih =>
    obtain ⟨nx, ny, w⟩ := d
    intro x y st a b v hne
    unfold carveDirs at hne
    by_cases h : st.visited nx ny = true
    · rw [if_pos h] at hne
      exact ih x y st a b v hne
    · rw [if_neg h] at hne
      set st1 := removeWall x y w st with hst1
      set st2 := removeWall nx ny (getOppositeWall w) st1 with hst2
      set st3 := carve ρ n fuel nx ny st2 with hst3
      by_cases e3 : (carveDirs ρ n fuel x y rest st3).walls a b v = st3.walls a b v
      · rw [e3] at hne
        by_cases e2 : st3.walls a b v = st2.walls a b v
        · rw [e2] at hne
          by_cases e1 : st2.walls a b v = st1.walls a b v
          · rw [e1] at hne
            rw [hst1, removeWall_walls] at hne
            by_cases hcond : a = x ∧ b = y ∧ v = w
            · exact Or.inl (by rw [hcond.1, hcond.2.1])
            · rw [if_neg hcond] at hne
              exact absurd rfl hne
          · rw [hst2, removeWall_walls] at e1
            by_cases hcond : a = nx ∧ b = ny ∧ v = getOppositeWall w
            · right
              rw [hcond.1, hcond.2.1]
              simpa using h
            · rw [if_neg hcond] at e1
              exact absurd rfl e1
        · rcases hc nx ny st2 a b v e2 with heq | hvis
          · right
            have ha : a = nx := congrArg Prod.fst heq
            have hb : b = ny := congrArg Prod.snd heq
            rw [ha, hb]
            simpa using h
          · right
            have : st2.visited = st.visited := rfl
            rw [this] at hvis
            exact hvis
      · rcases ih x y st3 a b v e3 with heq | hvis
        · exact Or.inl heq
        · right
          by_cases hv : st.visited a b = true
          · have hv2 : st2.visited a b = true := hv
            have hmono := carve_vis_mono ρ n fuel nx ny st2 a b hv2
            rw [← hst3] at hmono
            rw [hmono] at hvis
            exact Bool.noConfusion hvis
          · simpa using hv

/-- Wall stability along `carve`: a slot that changes belongs to the
    carved cell or to a cell unvisited at entry. -/
theorem carve_wallStable (ρ : Nat → Nat) (n : Nat) :
    ∀ (fuel x y : Nat) (st : St) (a b : Nat) (v : Wall),
      (carve ρ n fuel x y st).walls a b v ≠ st.walls a b v →
      ((a, b) = (x, y) ∨ st.visited a b = false) := by
  intro fuel
  induction fuel with
  | zero =>
    intro x y st a b v hne
    unfold carve at hne
    exact absurd rfl hne
  | succ f ih =>
    intro x y st a b v hne
    unfold carve at hne
    rcases carveDirs_wallStable_of ρ n f ih _ x y _ a b v hne with heq | hvis
    · exact Or.inl heq
    · rw [visitCell_visited] at hvis
      by_cases hcond : a = x ∧ b = y
      · exact Or.inl (by rw [hcond.1, hcond.2])
      · rw [if_neg hcond] at hvis
        exact Or.inr hvis


/-! ### Counting visited cells and open wall pairs -/

/-- The in-bounds grid as a finset. -/
def gridFinset (n : Nat) : Finset (Nat × Nat) :=
  (Finset.range n) ×ˢ (Finset.range n)

theorem mem_gridFinset (n : Nat) (p : Nat × Nat) :
    p ∈ gridFinset n ↔ p.1 < n ∧ p.2 < n := by
  unfold gridFinset
  simp [Finset.mem_product]

/-- Number of visited in-bounds cells. -/
def visCnt (n : Nat) (st : St) : Nat :=
  ((gridFinset n).filter (fun p => st.visited p.1 p.2 = true)).card

/-- Number of unvisited in-bounds cells. -/
def unvisCnt (n : Nat) (st : St) : Nat :=
  ((gridFinset n).filter (fun p => st.visited p.1 p.2 = false)).card

/-- The wall pair between `(x, y)` and `(x+1, y)` is removed. -/
def hPairOpen (st : St) (x y : Nat) : Prop :=
  st.walls x y Wall.east = false ∧ st.walls (x + 1) y Wall.west = false

/-- The wall pair between `(x, y)` and `(x, y+1)` is removed. -/
def vPairOpen (st : St) (x y : Nat) : Prop :=
  st.walls x y Wall.south = false ∧ st.walls x (y + 1) Wall.north = false

instance (st : St) (x y : Nat) : Decidable (hPairOpen st x y) := by
  unfold hPairOpen
  infer_instance

instance (st : St) (x y : Nat) : Decidable (vPairOpen st x y) := by
  unfold vPairOpen
  infer_instance

/-- Number of internal open wall pairs (edges of the wall-permeability
    graph). -/
def openPairCnt (n : Nat) (st : St) : Nat :=
  ((gridFinset n).filter (fun p => p.1 + 1 < n ∧ hPairOpen st p.1 p.2)).card +
  ((gridFinset n).filter (fun p => p.2 + 1 < n ∧ vPairOpen st p.1 p.2)).card

/-- Visiting does not change wall counts; removing walls does not change
    visit counts. -/
theorem visCnt_removeWall (n x y : Nat) (w : Wall) (st : St) :
    visCnt n (removeWall x y w st) = visCnt n st := rfl

theorem unvisCnt_removeWall (n x y : Nat) (w : Wall) (st : St) :
    unvisCnt n (removeWall x y w st) = unvisCnt n st := rfl

theorem openPairCnt_visitCell (n x y : Nat) (st : St) :
    openPairCnt n (visitCell x y st) = openPairCnt n st := rfl

/-- Visiting an in-bounds unvisited cell moves one cell from the
    unvisited count to the visited count. -/
theorem visCnt_visitCell (n x y : Nat) (st : St) (hx : inBounds n x y)
    (hv : st.visited x y = false) :
    visCnt n (visitCell x y st) = visCnt n st + 1 := by
  unfold visCnt
  have hset : (gridFinset n).filter
      (fun p => (visitCell x y st).visited p.1 p.2 = true) =
      insert (x, y) ((gridFinset n).filter (fun p => st.visited p.1 p.2 = true)) := by
    ext p
    simp only [Finset.mem_filter, Finset.mem_insert]
    constructor
    · intro ⟨hpg, hpv⟩
      rw [visitCell_visited] at hpv
      by_cases hc : p.1 = x ∧ p.2 = y
      · left
        obtain ⟨p1, p2⟩ := p
        simp only at hc
        rw [hc.1, hc.2]
      · right
        rw [if_neg hc] at hpv
        exact ⟨hpg, hpv⟩
    · intro h
      rcases h with h | ⟨hpg, hpv⟩
      · subst h
        refine ⟨(mem_gridFinset n _).mpr ⟨hx.1, hx.2⟩, ?_⟩
        rw [visitCell_visited]
        simp
      · refine ⟨hpg, ?_⟩
        rw [visitCell_visited]
        by_cases hc : p.1 = x ∧ p.2 = y
        · rw [if_pos hc]
        · rw [if_neg hc]
          exact hpv
  rw [hset]
  rw [Finset.card_insert_of_not_mem]
  intro hmem
  have := (Finset.mem_filter.mp hmem).2
  simp only at this
  rw [hv] at this
  exact Bool.noConfusion this

/-- Visiting an in-bounds unvisited cell decrements the unvisited count. -/
theorem unvisCnt_visitCell (n x y : Nat) (st : St) (hx : inBounds n x y)
    (hv : st.visited x y = false) :
    unvisCnt n (visitCell x y st) + 1 = unvisCnt n st := by
  unfold unvisCnt
  have hset : (gridFinset n).filter (fun p => st.visited p.1 p.2 = false) =
      insert (x, y) ((gridFinset n).filter
        (fun p => (visitCell x y st).visited p.1 p.2 = false)) := by
    ext p
    simp only [Finset.mem_filter, Finset.mem_insert]
    constructor
    · intro ⟨hpg, hpv⟩
      by_cases hc : p.1 = x ∧ p.2 = y
      · left
        obtain ⟨p1, p2⟩ := p
        simp only at hc
        rw [hc.1, hc.2]
      · right
        refine ⟨hpg, ?_⟩
        rw [visitCell_visited, if_neg hc]
        exact hpv
    · intro h
      rcases h with h | ⟨hpg, hpv⟩
      · subst h
        exact ⟨(mem_gridFinset n _).mpr ⟨hx.1, hx.2⟩, hv⟩
      · refine ⟨hpg, ?_⟩
        rw [visitCell_visited] at hpv
        by_cases hc : p.1 = x ∧ p.2 = y
        · rw [if_pos hc] at hpv
          exact Bool.noConfusion hpv
        · rw [if_neg hc] at hpv
          exact hpv
  rw [hset]
  rw [Finset.card_insert_of_not_mem]
  intro hmem
  have := (Finset.mem_filter.mp hmem).2
  rw [visitCell_visited] at this
  simp at this

/-- An unvisited in-bounds cell witnesses `1 ≤ unvisCnt`. -/
theorem unvisCnt_pos (n x y : Nat) (st : St) (hx : inBounds n x y)
    (hv : st.visited x y = false) : 1 ≤ unvisCnt n st := by
  unfold unvisCnt
  rw [Nat.one_le_iff_ne_zero, Ne, Finset.card_eq_zero]
  intro hempty
  have : (x, y) ∈ (gridFinset n).filter (fun p => st.visited p.1 p.2 = false) :=
    Finset.mem_filter.mpr ⟨(mem_gridFinset n _).mpr ⟨hx.1, hx.2⟩, hv⟩
  rw [hempty] at this
  exact absurd this (Finset.not_mem_empty _)

/-- Unvisited count is antitone along any visited-monotone transition. -/
theorem unvisCnt_le_of_mono (n : Nat) (st st2 : St)
    (hmono : ∀ a b, st.visited a b = true → st2.visited a b = true) :
    unvisCnt n st2 ≤ unvisCnt n st := by
  unfold unvisCnt
  apply Finset.card_le_card
  intro p hp
  have hmem := Finset.mem_filter.mp hp
  refine Finset.mem_filter.mpr ⟨hmem.1, ?_⟩
  by_cases h : st.visited p.1 p.2 = true
  · have := hmono p.1 p.2 h
    rw [hmem.2] at this
    exact Bool.noConfusion this
  · simpa using h


/-! ### Opening one wall pair -/

/-- Opening the horizontal pair at base `(bx, bz)` (both slots cleared,
    everything else untouched) adds exactly one open pair, provided the
    pair was closed before. -/
theorem openPairCnt_open_h (n bx bz : Nat) (st st2 : St)
    (hw : ∀ a b v, st2.walls a b v =
      if a = bx ∧ b = bz ∧ v = Wall.east then false
      else if a = bx + 1 ∧ b = bz ∧ v = Wall.west then false
      else st.walls a b v)
    (hb : bx + 1 < n) (hz : bz < n)
    (hclosed : st.walls bx bz Wall.east = true ∨
      st.walls (bx + 1) bz Wall.west = true) :
    openPairCnt n st2 = openPairCnt n st + 1 := by
  unfold openPairCnt
  have hvEq : ((gridFinset n).filter (fun p => p.2 + 1 < n ∧ vPairOpen st2 p.1 p.2)) =
      ((gridFinset n).filter (fun p => p.2 + 1 < n ∧ vPairOpen st p.1 p.2)) := by
    apply Finset.filter_congr
    intro p _
    have h1 : st2.walls p.1 p.2 Wall.south = st.walls p.1 p.2 Wall.south := by
      rw [hw]
      simp
    have h2 : st2.walls p.1 (p.2 + 1) Wall.north = st.walls p.1 (p.2 + 1) Wall.north := by
      rw [hw]
      simp
    unfold vPairOpen
    rw [h1, h2]
  have hSlotE : ∀ a b, ¬(a = bx ∧ b = bz) →
      st2.walls a b Wall.east = st.walls a b Wall.east := by
    intro a b hne
    rw [hw]
    rw [if_neg (by tauto), if_neg (by simp)]
  have hSlotW : ∀ a b, ¬(a = bx ∧ b = bz) →
      st2.walls (a + 1) b Wall.west = st.walls (a + 1) b Wall.west := by
    intro a b hne
    rw [hw]
    rw [if_neg (by simp), if_neg (by rintro ⟨h1, h2, h3⟩; exact hne ⟨by omega, h2⟩)]
  have hhEq : ((gridFinset n).filter (fun p => p.1 + 1 < n ∧ hPairOpen st2 p.1 p.2)) =
      insert (bx, bz)
        ((gridFinset n).filter (fun p => p.1 + 1 < n ∧ hPairOpen st p.1 p.2)) := by
    ext p
    simp only [Finset.mem_filter, Finset.mem_insert]
    constructor
    · intro ⟨hpg, hlt, hop⟩
      by_cases hc : p.1 = bx ∧ p.2 = bz
      · left
        obtain ⟨p1, p2⟩ := p
        simp only at hc
        rw [hc.1, hc.2]
      · right
        unfold hPairOpen at hop
        rw [hSlotE p.1 p.2 hc, hSlotW p.1 p.2 hc] at hop
        exact ⟨hpg, hlt, hop⟩
    · intro h
      rcases h with h | ⟨hpg, hlt, hop⟩
      · subst h
        refine ⟨(mem_gridFinset n _).mpr ⟨by omega, hz⟩, hb, ?_, ?_⟩
        · rw [hw]
          simp
        · rw [hw]
          rw [if_neg (by rintro ⟨h1, h2, h3⟩; omega), if_pos ⟨rfl, rfl, rfl⟩]
      · refine ⟨hpg, hlt, ?_⟩
        by_cases hc : p.1 = bx ∧ p.2 = bz
        · exfalso
          unfold hPairOpen at hop
          rw [hc.1, hc.2] at hop
          rcases hclosed with hcl | hcl
          · rw [hcl] at hop
            exact Bool.noConfusion hop.1
          · rw [hcl] at hop
            exact Bool.noConfusion hop.2
        · unfold hPairOpen at hop ⊢
          rw [hSlotE p.1 p.2 hc, hSlotW p.1 p.2 hc]
          exact hop
  rw [hvEq, hhEq, Finset.card_insert_of_not_mem]
  · omega
  · intro hmem
    have hop := (Finset.mem_filter.mp hmem).2.2
    unfold hPairOpen at hop
    rcases hclosed with hcl | hcl
    · rw [hcl] at hop
      exact Bool.noConfusion hop.1
    · rw [hcl] at hop
      exact Bool.noConfusion hop.2

/-- Opening the vertical pair at base `(bx, bz)` adds exactly one open
    pair, provided it was closed before. -/
theorem openPairCnt_open_v (n bx bz : Nat) (st st2 : St)
    (hw : ∀ a b v, st2.walls a b v =
      if a = bx ∧ b = bz ∧ v = Wall.south then false
      else if a = bx ∧ b = bz + 1 ∧ v = Wall.north then false
      else st.walls a b v)
    (hb : bx < n) (hz : bz + 1 < n)
    (hclosed : st.walls bx bz Wall.south = true ∨
      st.walls bx (bz + 1) Wall.north = true) :
    openPairCnt n st2 = openPairCnt n st + 1 := by
  unfold openPairCnt
  have hhEq : ((gridFinset n).filter (fun p => p.1 + 1 < n ∧ hPairOpen st2 p.1 p.2)) =
      ((gridFinset n).filter (fun p => p.1 + 1 < n ∧ hPairOpen st p.1 p.2)) := by
    apply Finset.filter_congr
    intro p _
    have h1 : st2.walls p.1 p.2 Wall.east = st.walls p.1 p.2 Wall.east := by
      rw [hw]
      simp
    have h2 : st2.walls (p.1 + 1) p.2 Wall.west = st.walls (p.1 + 1) p.2 Wall.west := by
      rw [hw]
      simp
    unfold hPairOpen
    rw [h1, h2]
  have hSlotS : ∀ a b, ¬(a = bx ∧ b = bz) →
      st2.walls a b Wall.south = st.walls a b Wall.south := by
    intro a b hne
    rw [hw]
    rw [if_neg (by tauto), if_neg (by simp)]
  have hSlotN : ∀ a b, ¬(a = bx ∧ b = bz) →
      st2.walls a (b + 1) Wall.north = st.walls a (b + 1) Wall.north := by
    intro a b hne
    rw [hw]
    rw [if_neg (by simp), if_neg (by rintro ⟨h1, h2, h3⟩; exact hne ⟨h1, by omega⟩)]
  have hvEq : ((gridFinset n).filter (fun p => p.2 + 1 < n ∧ vPairOpen st2 p.1 p.2)) =
      insert (bx, bz)
        ((gridFinset n).filter (fun p => p.2 + 1 < n ∧ vPairOpen st p.1 p.2)) := by
    ext p
    simp only [Finset.mem_filter, Finset.mem_insert]
    constructor
    · intro ⟨hpg, hlt, hop⟩
      by_cases hc : p.1 = bx ∧ p.2 = bz
      · left
        obtain ⟨p1, p2⟩ := p
        simp only at hc
        rw [hc.1, hc.2]
      · right
        unfold vPairOpen at hop
        rw [hSlotS p.1 p.2 hc, hSlotN p.1 p.2 hc] at hop
        exact ⟨hpg, hlt, hop⟩
    · intro h
      rcases h with h | ⟨hpg, hlt, hop⟩
      · subst h
        refine ⟨(mem_gridFinset n _).mpr ⟨hb, by omega⟩, hz, ?_, ?_⟩
        · rw [hw]
          simp
        · rw [hw]
          rw [if_neg (by rintro ⟨h1, h2, h3⟩; omega), if_pos ⟨rfl, rfl, rfl⟩]
      · refine ⟨hpg, hlt, ?_⟩
        by_cases hc : p.1 = bx ∧ p.2 = bz
        · exfalso
          unfold vPairOpen at hop
          rw [hc.1, hc.2] at hop
          rcases hclosed with hcl | hcl
          · rw [hcl] at hop
            exact Bool.noConfusion hop.1
          · rw [hcl] at hop
            exact Bool.noConfusion hop.2
        · unfold vPairOpen at hop ⊢
          rw [hSlotS p.1 p.2 hc, hSlotN p.1 p.2 hc]
          exact hop
  rw [hhEq, hvEq, Finset.card_insert_of_not_mem]
  · omega
  · intro hmem
    have hop := (Finset.mem_filter.mp hmem).2.2
    unfold vPairOpen at hop
    rcases hclosed with hcl | hcl
    · rw [hcl] at hop
      exact Bool.noConfusion hop.1
    · rw [hcl] at hop
      exact Bool.noConfusion hop.2


/-! ### Structural invariants: symmetry, in-bounds walls, spanning tree -/

/-- Two in-bounds cells adjacent with the shared wall pair removed: the
    edges of the wall-permeability graph. -/
def openAdj (n : Nat) (st : St) (p q : Nat × Nat) : Prop :=
  inBounds n p.1 p.2 ∧ inBounds n q.1 q.2 ∧
  ((q = (p.1 + 1, p.2) ∧ hPairOpen st p.1 p.2) ∨
    (p = (q.1 + 1, q.2) ∧ hPairOpen st q.1 q.2) ∨
    (q = (p.1, p.2 + 1) ∧ vPairOpen st p.1 p.2) ∨
    (p = (q.1, q.2 + 1) ∧ vPairOpen st q.1 q.2))

/-- `openAdj` is symmetric. -/
theorem openAdj_symm (n : Nat) (st : St) (p q : Nat × Nat)
    (h : openAdj n st p q) : openAdj n st q p := by
  obtain ⟨h1, h2, h3⟩ := h
  exact ⟨h2, h1, by tauto⟩

/-- `openAdj` survives any transition that clears no wall back up. -/
theorem openAdj_mono (n : Nat) (st st2 : St)
    (hw : ∀ a b v, st.walls a b v = false → st2.walls a b v = false)
    (p q : Nat × Nat) (h : openAdj n st p q) : openAdj n st2 p q := by
  obtain ⟨h1, h2, h3⟩ := h
  refine ⟨h1, h2, ?_⟩
  unfold hPairOpen vPairOpen at *
  rcases h3 with ⟨he, ho⟩ | ⟨he, ho⟩ | ⟨he, ho⟩ | ⟨he, ho⟩
  · exact Or.inl ⟨he, hw _ _ _ ho.1, hw _ _ _ ho.2⟩
  · exact Or.inr (Or.inl ⟨he, hw _ _ _ ho.1, hw _ _ _ ho.2⟩)
  · exact Or.inr (Or.inr (Or.inl ⟨he, hw _ _ _ ho.1, hw _ _ _ ho.2⟩))
  · exact Or.inr (Or.inr (Or.inr ⟨he, hw _ _ _ ho.1, hw _ _ _ ho.2⟩))

/-- Every unvisited cell other than the exception `e` still has all four
    walls up. -/
def unvisitedWallsUp (st : St) (e : Nat × Nat) : Prop :=
  ∀ a b, st.visited a b = false → (a, b) ≠ e → ∀ v, st.walls a b v = true

/-- Every unvisited cell has all four walls up. -/
def unvisitedWallsUpAll (st : St) : Prop :=
  ∀ a b, st.visited a b = false → ∀ v, st.walls a b v = true

/-- A cleared wall slot lies on an internal (in-bounds) pair. -/
def slotInB (n : Nat) (a b : Nat) (v : Wall) : Prop :=
  match v with
  | Wall.east => a + 1 < n ∧ b < n
  | Wall.west => 0 < a ∧ a < n ∧ b < n
  | Wall.north => 0 < b ∧ a < n ∧ b < n
  | Wall.south => b + 1 < n ∧ a < n

/-- All cleared wall slots are internal. -/
def wallsInB (n : Nat) (st : St) : Prop :=
  ∀ a b v, st.walls a b v = false → slotInB n a b v

/-- Wall pairs are always cleared together (the C2 invariant). -/
def wallsSym (st : St) : Prop :=
  ∀ a b, st.walls a b Wall.east = st.walls (a + 1) b Wall.west ∧
    st.walls a b Wall.south = st.walls a (b + 1) Wall.north

/-- The spanning-tree discipline of the carver: there are discovery ranks
    (`ord`) and parents (`par`) such that every open pair joins a parent
    to a strictly later child, the parent side of every open pair is
    visited, and every visited non-root cell keeps an open pair to its
    visited, earlier-ranked parent. -/
def TreeInv (n : Nat) (st : St) (root : Nat × Nat) : Prop :=
  ∃ (ord : Nat × Nat → Nat) (par : Nat × Nat → Nat × Nat) (B : Nat),
    (∀ p : Nat × Nat, st.visited p.1 p.2 = true → ord p < B) ∧
    (∀ a b : Nat, a + 1 < n → b < n → hPairOpen st a b →
      ((par (a + 1, b) = (a, b) ∧ ord (a, b) < ord (a + 1, b) ∧
          st.visited a b = true) ∨
        (par (a, b) = (a + 1, b) ∧ ord (a + 1, b) < ord (a, b) ∧
          st.visited (a + 1) b = true))) ∧
    (∀ a b : Nat, a < n → b + 1 < n → vPairOpen st a b →
      ((par (a, b + 1) = (a, b) ∧ ord (a, b) < ord (a, b + 1) ∧
          st.visited a b = true) ∨
        (par (a, b) = (a, b + 1) ∧ ord (a, b + 1) < ord (a, b) ∧
          st.visited a (b + 1) = true))) ∧
    (∀ p : Nat × Nat, st.visited p.1 p.2 = true → p ≠ root →
      openAdj n st (par p) p ∧ st.visited (par p).1 (par p).2 = true ∧
      ord (par p) < ord p)

/-- The target of a well-formed direction triple is in bounds. -/
theorem dirOK_target_inB (n x y : Nat) (d : Nat × Nat × Wall)
    (h : dirOK n x y d) : inBounds n d.1 d.2.1 := by
  obtain ⟨⟨hx, hy⟩, hcase⟩ := h
  rcases hcase with ⟨_, hb, h1, h2⟩ | ⟨_, hb, h1, h2⟩ | ⟨_, hb, h1, h2⟩ | ⟨_, hb, h1, h2⟩ <;>
    rw [h1, h2] <;> exact ⟨by omega, by omega⟩

/-- Two disjoint false-producing conditions commute. -/
theorem ite_false_swap {p q : Prop} [Decidable p] [Decidable q]
    (h : ¬(p ∧ q)) (z : Bool) :
    (if p then false else if q then false else z) =
      (if q then false else if p then false else z) := by
  by_cases hp : p <;> by_cases hq : q
  · exact absurd ⟨hp, hq⟩ h
  · simp [hp, hq]
  · simp [hp, hq]
  · simp [hp, hq]

/-- The double `removeWall` of one loop iteration, in canonical form: it
    clears exactly the two slots of one internal pair, whose base cell and
    orientation are determined by the wall direction. -/
theorem removePair_form (n x y nx ny : Nat) (w : Wall) (st : St)
    (hok : dirOK n x y (nx, ny, w)) :
    (∃ bx bz, bx + 1 < n ∧ bz < n ∧
      ((bx, bz) = (x, y) ∧ (bx + 1, bz) = (nx, ny) ∨
        (bx, bz) = (nx, ny) ∧ (bx + 1, bz) = (x, y)) ∧
      (∀ a b v,
        (removeWall nx ny (getOppositeWall w) (removeWall x y w st)).walls a b v =
          if a = bx ∧ b = bz ∧ v = Wall.east then false
          else if a = bx + 1 ∧ b = bz ∧ v = Wall.west then false
          else st.walls a b v)) ∨
    (∃ bx bz, bx < n ∧ bz + 1 < n ∧
      ((bx, bz) = (x, y) ∧ (bx, bz + 1) = (nx, ny) ∨
        (bx, bz) = (nx, ny) ∧ (bx, bz + 1) = (x, y)) ∧
      (∀ a b v,
        (removeWall nx ny (getOppositeWall w) (removeWall x y w st)).walls a b v =
          if a = bx ∧ b = bz ∧ v = Wall.south then false
          else if a = bx ∧ b = bz + 1 ∧ v = Wall.north then false
          else st.walls a b v)) := by
  obtain ⟨⟨hx, hy⟩, hcase⟩ := hok
  rcases hcase with ⟨hw, hb, h1, h2⟩ | ⟨hw, hb, h1, h2⟩ | ⟨hw, hb, h1, h2⟩ | ⟨hw, hb, h1, h2⟩ <;>
    simp only at hw h1 h2 <;> subst hw
  · -- west: canonical horizontal base (x - 1, y), no swap needed
    left
    refine ⟨x - 1, y, by omega, hy,
      Or.inr ⟨by rw [h1, h2], by rw [Prod.mk.injEq]; exact ⟨by omega, rfl⟩⟩, ?_⟩
    intro a b v
    rw [h1, h2, removeWall_walls, removeWall_walls]
    simp only [getOppositeWall]
    have hxx : x - 1 + 1 = x := by omega
    rw [hxx]
  · -- east: canonical horizontal base (x, y), swap the two conditions
    left
    refine ⟨x, y, by omega, hy, Or.inl ⟨rfl, by rw [h1, h2]⟩, ?_⟩
    intro a b v
    rw [h1, h2, removeWall_walls, removeWall_walls]
    simp only [getOppositeWall]
    exact ite_false_swap
      (by rintro ⟨⟨_, _, hv1⟩, ⟨_, _, hv2⟩⟩; rw [hv1] at hv2; exact Wall.noConfusion hv2) _
  · -- north: canonical vertical base (x, y - 1), no swap needed
    right
    refine ⟨x, y - 1, hx, by omega,
      Or.inr ⟨by rw [h1, h2], by rw [Prod.mk.injEq]; exact ⟨rfl, by omega⟩⟩, ?_⟩
    intro a b v
    rw [h1, h2, removeWall_walls, removeWall_walls]
    simp only [getOppositeWall]
    have hyy : y - 1 + 1 = y := by omega
    rw [hyy]
  · -- south: canonical vertical base (x, y), swap the two conditions
    right
    refine ⟨x, y, hx, by omega, Or.inl ⟨rfl, by rw [h1, h2]⟩, ?_⟩
    intro a b v
    rw [h1, h2, removeWall_walls, removeWall_walls]
    simp only [getOppositeWall]
    exact ite_false_swap
      (by rintro ⟨⟨_, _, hv1⟩, ⟨_, _, hv2⟩⟩; rw [hv1] at hv2; exact Wall.noConfusion hv2) _

/-- Opening a horizontal pair preserves wall-pair symmetry. -/
theorem wallsSym_open_h (st st2 : St) (bx bz : Nat)
    (hw : ∀ a b v, st2.walls a b v =
      if a = bx ∧ b = bz ∧ v = Wall.east then false
      else if a = bx + 1 ∧ b = bz ∧ v = Wall.west then false
      else st.walls a b v)
    (hs : wallsSym st) : wallsSym st2 := by
  intro a b
  constructor
  · rw [hw, hw]
    by_cases hc : a = bx ∧ b = bz
    · rw [if_pos ⟨hc.1, hc.2, rfl⟩, if_neg (by simp), if_pos ⟨by omega, hc.2, rfl⟩]
    · rw [if_neg (by tauto), if_neg (by simp), if_neg (by simp),
        if_neg (by rintro ⟨h1, h2, _⟩; exact hc ⟨by omega, h2⟩)]
      exact (hs a b).1
  · rw [hw, hw]
    rw [if_neg (by simp), if_neg (by simp), if_neg (by simp), if_neg (by simp)]
    exact (hs a b).2

/-- Opening a vertical pair preserves wall-pair symmetry. -/
theorem wallsSym_open_v (st st2 : St) (bx bz : Nat)
    (hw : ∀ a b v, st2.walls a b v =
      if a = bx ∧ b = bz ∧ v = Wall.south then false
      else if a = bx ∧ b = bz + 1 ∧ v = Wall.north then false
      else st.walls a b v)
    (hs : wallsSym st) : wallsSym st2 := by
  intro a b
  constructor
  · rw [hw, hw]
    rw [if_neg (by simp), if_neg (by simp), if_neg (by simp), if_neg (by simp)]
    exact (hs a b).1
  · rw [hw, hw]
    by_cases hc : a = bx ∧ b = bz
    · rw [if_pos ⟨hc.1, hc.2, rfl⟩, if_neg (by simp), if_pos ⟨hc.1, by omega, rfl⟩]
    · rw [if_neg (by tauto), if_neg (by simp), if_neg (by simp),
        if_neg (by rintro ⟨h1, h2, _⟩; exact hc ⟨h1, by omega⟩)]
      exact (hs a b).2

/-- Wall symmetry is preserved by the loop (given it for the call). -/
theorem carveDirs_wallsSym_of (ρ : Nat → Nat) (n fuel : Nat)
    (hc : ∀ x y st, inBounds n x y → wallsSym st →
      wallsSym (carve ρ n fuel x y st)) :
    ∀ (dirs : List (Nat × Nat × Wall)) (x y : Nat) (st : St),
      (∀ d ∈ dirs, dirOK n x y d) → wallsSym st →
      wallsSym (carveDirs ρ n fuel x y dirs st) := by
  intro dirs
  induction dirs with
  | nil =>
    intro x y st _ hs
    unfold carveDirs
    exact hs
  | cons d rest ih =>
    obtain ⟨nx, ny, w⟩ := d
    intro x y st hdirs hs
    unfold carveDirs
    by_cases h : st.visited nx ny = true
    · rw [if_pos h]
      exact ih x y st (fun d hd => hdirs d (List.mem_cons_of_mem _ hd)) hs
    · rw [if_neg h]
      apply ih x y _ (fun d hd => hdirs d (List.mem_cons_of_mem _ hd))
      have hok := hdirs (nx, ny, w) (List.mem_cons_self _ _)
      apply hc nx ny _ (dirOK_target_inB n x y (nx, ny, w) hok)
      rcases removePair_form n x y nx ny w st hok with
        ⟨bx, bz, _, _, _, hw⟩ | ⟨bx, bz, _, _, _, hw⟩
      · exact wallsSym_open_h st _ bx bz hw hs
      · exact wallsSym_open_v st _ bx bz hw hs

/-- Wall symmetry is preserved by the carver. -/
theorem carve_wallsSym (ρ : Nat → Nat) (n : Nat) :
    ∀ (fuel x y : Nat) (st : St), inBounds n x y → wallsSym st →
      wallsSym (carve ρ n fuel x y st) := by
  intro fuel
  induction fuel with
  | zero =>
    intro x y st _ hs
    unfold carve
    exact hs
  | succ f ih =>
    intro x y st hxy hs
    unfold carve
    apply carveDirs_wallsSym_of ρ n f ih
    · intro d hd
      have := getUnvisitedNeighbors_sound n (visitCell x y st) x y hxy d
        ((shuffleDirs_mem ρ _ _ d).mp hd)
      exact this.1
    · exact hs



/-- Opening a horizontal pair keeps all cleared slots internal. -/
theorem wallsInB_open_h (n : Nat) (st st2 : St) (bx bz : Nat)
    (hw : ∀ a b v, st2.walls a b v =
      if a = bx ∧ b = bz ∧ v = Wall.east then false
      else if a = bx + 1 ∧ b = bz ∧ v = Wall.west then false
      else st.walls a b v)
    (hb : bx + 1 < n) (hz : bz < n) (hi : wallsInB n st) : wallsInB n st2 := by
  intro a b v hfalse
  rw [hw] at hfalse
  by_cases c1 : a = bx ∧ b = bz ∧ v = Wall.east
  · obtain ⟨e1, e2, e3⟩ := c1
    subst e1
    subst e2
    subst e3
    exact ⟨hb, hz⟩
  · rw [if_neg c1] at hfalse
    by_cases c2 : a = bx + 1 ∧ b = bz ∧ v = Wall.west
    · obtain ⟨e1, e2, e3⟩ := c2
      subst e1
      subst e2
      subst e3
      exact ⟨by omega, by omega, hz⟩
    · rw [if_neg c2] at hfalse
      exact hi a b v hfalse

/-- Opening a vertical pair keeps all cleared slots internal. -/
theorem wallsInB_open_v (n : Nat) (st st2 : St) (bx bz : Nat)
    (hw : ∀ a b v, st2.walls a b v =
      if a = bx ∧ b = bz ∧ v = Wall.south then false
      else if a = bx ∧ b = bz + 1 ∧ v = Wall.north then false
      else st.walls a b v)
    (hb : bx < n) (hz : bz + 1 < n) (hi : wallsInB n st) : wallsInB n st2 := by
  intro a b v hfalse
  rw [hw] at hfalse
  by_cases c1 : a = bx ∧ b = bz ∧ v = Wall.south
  · obtain ⟨e1, e2, e3⟩ := c1
    subst e1
    subst e2
    subst e3
    exact ⟨hz, hb⟩
  · rw [if_neg c1] at hfalse
    by_cases c2 : a = bx ∧ b = bz + 1 ∧ v = Wall.north
    · obtain ⟨e1, e2, e3⟩ := c2
      subst e1
      subst e2
      subst e3
      exact ⟨by omega, hb, hz⟩
    · rw [if_neg c2] at hfalse
      exact hi a b v hfalse

/-- Internal-walls invariant is preserved by the loop. -/
theorem carveDirs_wallsInB_of (ρ : Nat → Nat) (n fuel : Nat)
    (hc : ∀ x y st, inBounds n x y → wallsInB n st →
      wallsInB n (carve ρ n fuel x y st)) :
    ∀ (dirs : List (Nat × Nat × Wall)) (x y : Nat) (st : St),
      (∀ d ∈ dirs, dirOK n x y d) → wallsInB n st →
      wallsInB n (carveDirs ρ n fuel x y dirs st) := by
  intro dirs
  induction dirs with
  | nil =>
    intro x y st _ hi
    unfold carveDirs
    exact hi
  | cons d rest ih =>
    obtain ⟨nx, ny, w⟩ := d
    intro x y st hdirs hi
    unfold carveDirs
    by_cases h : st.visited nx ny = true
    · rw [if_pos h]
      exact ih x y st (fun d hd => hdirs d (List.mem_cons_of_mem _ hd)) hi
    · rw [if_neg h]
      apply ih x y _ (fun d hd => hdirs d (List.mem_cons_of_mem _ hd))
      have hok := hdirs (nx, ny, w) (List.mem_cons_self _ _)
      apply hc nx ny _ (dirOK_target_inB n x y (nx, ny, w) hok)
      rcases removePair_form n x y nx ny w st hok with
        ⟨bx, bz, hb, hz, _, hw⟩ | ⟨bx, bz, hb, hz, _, hw⟩
      · exact wallsInB_open_h n st _ bx bz hw hb hz hi
      · exact wallsInB_open_v n st _ bx bz hw hb hz hi

/-- Internal-walls invariant is preserved by the carver. -/
theorem carve_wallsInB (ρ : Nat → Nat) (n : Nat) :
    ∀ (fuel x y : Nat) (st : St), inBounds n x y → wallsInB n st →
      wallsInB n (carve ρ n fuel x y st) := by
  intro fuel
  induction fuel with
  | zero =>
    intro x y st _ hi
    unfold carve
    exact hi
  | succ f ih =>
    intro x y st hxy hi
    unfold carve
    apply carveDirs_wallsInB_of ρ n f ih
    · intro d hd
      exact (getUnvisitedNeighbors_sound n (visitCell x y st) x y hxy d
        ((shuffleDirs_mem ρ _ _ d).mp hd)).1
    · exact hi

/-- Zero fuel is the identity. -/
theorem carve_zero (ρ : Nat → Nat) (n x y : Nat) (st : St) :
    carve ρ n 0 x y st = st := by
  unfold carve
  rfl

/-- The carved maze keeps wall pairs symmetric. -/
theorem carvedMaze_wallsSym (ρ : Nat → Nat) (n : Nat) :
    wallsSym (carvedMaze ρ n) := by
  unfold carvedMaze
  by_cases hn : 0 < n
  · apply carve_wallsSym ρ n (n * n) _ _ initSt
    · exact ⟨by unfold startCell; omega, by unfold startCell; omega⟩
    · intro a b
      exact ⟨rfl, rfl⟩
  · have hz : n = 0 := by omega
    subst hz
    rw [Nat.zero_mul, carve_zero]
    intro a b
    exact ⟨rfl, rfl⟩

/-- The carved maze clears only internal wall slots. -/
theorem carvedMaze_wallsInB (ρ : Nat → Nat) (n : Nat) :
    wallsInB n (carvedMaze ρ n) := by
  unfold carvedMaze
  by_cases hn : 0 < n
  · apply carve_wallsInB ρ n (n * n) _ _ initSt
    · exact ⟨by unfold startCell; omega, by unfold startCell; omega⟩
    · intro a b v hfalse
      exact Bool.noConfusion hfalse
  · have hz : n = 0 := by omega
    subst hz
    rw [Nat.zero_mul, carve_zero]
    intro a b v hfalse
    exact Bool.noConfusion hfalse

/-- C2: in every generated maze of any size, the wall flags of the two
    sides of any adjacent cell pair agree: the east flag of `(x, y)` is
    cleared iff the west flag of `(x+1, y)` is, and the south flag of
    `(x, y)` iff the north flag of `(x, y+1)` — wall pairs are removed
    together, never independently. -/
theorem wallPair_symmetry (ρ : Nat → Nat) (n x y : Nat) :
    (x + 1 < n → y < n →
      ((carvedMaze ρ n).walls x y Wall.east = false ↔
        (carvedMaze ρ n).walls (x + 1) y Wall.west = false)) ∧
    (x < n → y + 1 < n →
      ((carvedMaze ρ n).walls x y Wall.south = false ↔
        (carvedMaze ρ n).walls x (y + 1) Wall.north = false)) := by
  have hs := carvedMaze_wallsSym ρ n x y
  exact ⟨fun _ _ => by rw [hs.1], fun _ _ => by rw [hs.2]⟩

/-- Witness for C2 on a concrete 2×2 maze. -/
theorem wallPair_symmetry_witness :
    ((carvedMaze (fun _ => 0) 2).walls 0 0 Wall.east = false ↔
      (carvedMaze (fun _ => 0) 2).walls 1 0 Wall.west = false) :=
  (wallPair_symmetry (fun _ => 0) 2 0 0).1 (by decide) (by decide)


/-! ### Helper lemmas for the main carving induction -/

/-- The loop is the identity when every direction target is visited. -/
theorem carveDirs_all_visited (ρ : Nat → Nat) (n fuel x y : Nat) :
    ∀ (dirs : List (Nat × Nat × Wall)) (st : St),
      (∀ d ∈ dirs, st.visited d.1 d.2.1 = true) →
      carveDirs ρ n fuel x y dirs st = st := by
  intro dirs
  induction dirs with
  | nil =>
    intro st _
    unfold carveDirs
    rfl
  | cons d rest ih =>
    obtain ⟨nx, ny, w⟩ := d
    intro st h
    unfold carveDirs
    rw [if_pos (h (nx, ny, w) (List.mem_cons_self _ _))]
    exact ih st (fun d hd => h d (List.mem_cons_of_mem _ hd))

/-- With no unvisited in-bounds cells, every in-bounds cell is visited. -/
theorem unvisCnt_zero (n : Nat) (st : St) (h : unvisCnt n st = 0)
    (a b : Nat) (hab : inBounds n a b) : st.visited a b = true := by
  unfold unvisCnt at h
  rw [Finset.card_eq_zero] at h
  by_contra hv
  have hmem : (a, b) ∈ (gridFinset n).filter (fun p => st.visited p.1 p.2 = false) :=
    Finset.mem_filter.mpr ⟨(mem_gridFinset n _).mpr ⟨hab.1, hab.2⟩, by simpa using hv⟩
  rw [h] at hmem
  exact absurd hmem (Finset.not_mem_empty _)

/-- A horizontal open pair gives an edge. -/
theorem openAdj_of_h (n : Nat) (st : St) (bx bz : Nat) (hb : bx + 1 < n)
    (hz : bz < n) (hop : hPairOpen st bx bz) :
    openAdj n st (bx, bz) (bx + 1, bz) :=
  ⟨⟨by omega, hz⟩, ⟨hb, hz⟩, Or.inl ⟨rfl, hop⟩⟩

/-- A vertical open pair gives an edge. -/
theorem openAdj_of_v (n : Nat) (st : St) (bx bz : Nat) (hb : bx < n)
    (hz : bz + 1 < n) (hop : vPairOpen st bx bz) :
    openAdj n st (bx, bz) (bx, bz + 1) :=
  ⟨⟨hb, by omega⟩, ⟨hb, hz⟩, Or.inr (Or.inr (Or.inl ⟨rfl, hop⟩))⟩

/-- The combined facts about the double `removeWall` of one iteration,
    assuming the target cell still has all walls up. -/
theorem removePair_bundle (n x y nx ny : Nat) (w : Wall) (st : St)
    (hok : dirOK n x y (nx, ny, w))
    (hup : ∀ v, st.walls nx ny v = true) :
    (∀ a b, (removeWall nx ny (getOppositeWall w) (removeWall x y w st)).visited a b =
      st.visited a b) ∧
    openPairCnt n (removeWall nx ny (getOppositeWall w) (removeWall x y w st)) =
      openPairCnt n st + 1 ∧
    openAdj n (removeWall nx ny (getOppositeWall w) (removeWall x y w st)) (x, y) (nx, ny) ∧
    (∀ a b v, st.walls a b v = false →
      (removeWall nx ny (getOppositeWall w) (removeWall x y w st)).walls a b v = false) ∧
    (∀ a b v, (a, b) ≠ (x, y) → (a, b) ≠ (nx, ny) →
      (removeWall nx ny (getOppositeWall w) (removeWall x y w st)).walls a b v =
        st.walls a b v) ∧
    (∀ a b, a + 1 < n → b < n →
      hPairOpen (removeWall nx ny (getOppositeWall w) (removeWall x y w st)) a b →
      ¬ hPairOpen st a b →
      ((a, b) = (x, y) ∧ (a + 1, b) = (nx, ny)) ∨
        ((a, b) = (nx, ny) ∧ (a + 1, b) = (x, y))) ∧
    (∀ a b, a < n → b + 1 < n →
      vPairOpen (removeWall nx ny (getOppositeWall w) (removeWall x y w st)) a b →
      ¬ vPairOpen st a b →
      ((a, b) = (x, y) ∧ (a, b + 1) = (nx, ny)) ∨
        ((a, b) = (nx, ny) ∧ (a, b + 1) = (x, y))) := by
  have hxyne : (x, y) ≠ (nx, ny) := by
    obtain ⟨_, hcase⟩ := hok
    rcases hcase with ⟨_, hb, h1, h2⟩ | ⟨_, hb, h1, h2⟩ | ⟨_, hb, h1, h2⟩ | ⟨_, hb, h1, h2⟩ <;>
      simp only at h1 h2 <;> intro heq <;>
      have e1 := congrArg Prod.fst heq <;> have e2 := congrArg Prod.snd heq <;>
      simp only at e1 e2 <;> omega
  rcases removePair_form n x y nx ny w st hok with
    ⟨bx, bz, hb, hz, hbase, hw⟩ | ⟨bx, bz, hb, hz, hbase, hw⟩
  · -- horizontal pair
    have hne : (bx, bz) ≠ (bx + 1, bz) := by
      intro heq
      have e1 := congrArg Prod.fst heq
      simp only at e1
      omega
    have hinx : inBounds n x y := hok.1
    have hiny : inBounds n nx ny := dirOK_target_inB n x y (nx, ny, w) hok
    have hclosed : st.walls bx bz Wall.east = true ∨
        st.walls (bx + 1) bz Wall.west = true := by
      rcases hbase with ⟨hb1, hb2⟩ | ⟨hb1, hb2⟩
      · right
        have e1 : bx + 1 = nx := congrArg Prod.fst hb2
        have e2 : bz = ny := congrArg Prod.snd hb2
        rw [e1, e2]
        exact hup Wall.west
      · left
        have e1 : bx = nx := congrArg Prod.fst hb1
        have e2 : bz = ny := congrArg Prod.snd hb1
        rw [e1, e2]
        exact hup Wall.east
    refine ⟨fun a b => rfl, openPairCnt_open_h n bx bz st _ hw hb hz hclosed, ?_, ?_, ?_, ?_, ?_⟩
    · -- the new open pair is exactly the carved edge
      have hopen : hPairOpen (removeWall nx ny (getOppositeWall w) (removeWall x y w st)) bx bz := by
        constructor
        · rw [hw]
          simp
        · rw [hw]
          rw [if_neg (by rintro ⟨h1, _, _⟩; omega), if_pos ⟨rfl, rfl, rfl⟩]
      rcases hbase with ⟨hb1, hb2⟩ | ⟨hb1, hb2⟩
      · rw [← hb1, ← hb2]
        exact openAdj_of_h n _ bx bz hb hz hopen
      · rw [← hb2, ← hb1]
        exact openAdj_symm n _ _ _ (openAdj_of_h n _ bx bz hb hz hopen)
    · intro a b v hfalse
      rw [hw]
      by_cases c1 : a = bx ∧ b = bz ∧ v = Wall.east
      · rw [if_pos c1]
      · rw [if_neg c1]
        by_cases c2 : a = bx + 1 ∧ b = bz ∧ v = Wall.west
        · rw [if_pos c2]
        · rw [if_neg c2]
          exact hfalse
    · intro a b v hne1 hne2
      rw [hw]
      have hbase2 : ((bx, bz) = (x, y) ∨ (bx, bz) = (nx, ny)) ∧
          ((bx + 1, bz) = (x, y) ∨ (bx + 1, bz) = (nx, ny)) := by
        rcases hbase with ⟨hb1, hb2⟩ | ⟨hb1, hb2⟩
        · exact ⟨Or.inl hb1, Or.inr hb2⟩
        · exact ⟨Or.inr hb1, Or.inl hb2⟩
      rw [if_neg ?_, if_neg ?_]
      · rintro ⟨e1, e2, _⟩
        subst e1
        subst e2
        rcases hbase2.2 with hq | hq
        · exact hne1 hq
        · exact hne2 hq
      · rintro ⟨e1, e2, _⟩
        subst e1
        subst e2
        rcases hbase2.1 with hq | hq
        · exact hne1 hq
        · exact hne2 hq
    · intro a b hab hbb hop2 hop1
      have hco : a = bx ∧ b = bz := by
        by_contra hco
        apply hop1
        have h1 : (removeWall nx ny (getOppositeWall w) (removeWall x y w st)).walls a b
            Wall.east = st.walls a b Wall.east := by
          rw [hw]
          rw [if_neg (by tauto), if_neg (by rintro ⟨_, _, hv⟩; exact Wall.noConfusion hv)]
        have h2 : (removeWall nx ny (getOppositeWall w) (removeWall x y w st)).walls (a + 1) b
            Wall.west = st.walls (a + 1) b Wall.west := by
          rw [hw]
          rw [if_neg (by rintro ⟨_, _, hv⟩; exact Wall.noConfusion hv),
            if_neg (by rintro ⟨e1, e2, _⟩; exact hco ⟨by omega, e2⟩)]
        exact ⟨h1 ▸ hop2.1, h2 ▸ hop2.2⟩
      rcases hbase with ⟨hb1, hb2⟩ | ⟨hb1, hb2⟩
      · left
        rw [hco.1, hco.2]
        exact ⟨hb1, hb2⟩
      · right
        rw [hco.1, hco.2]
        exact ⟨hb1, hb2⟩
    · intro a b hab hbb hop2 hop1
      exfalso
      apply hop1
      have h1 : (removeWall nx ny (getOppositeWall w) (removeWall x y w st)).walls a b
          Wall.south = st.walls a b Wall.south := by
        rw [hw]
        rw [if_neg (by rintro ⟨_, _, hv⟩; exact Wall.noConfusion hv),
          if_neg (by rintro ⟨_, _, hv⟩; exact Wall.noConfusion hv)]
      have h2 : (removeWall nx ny (getOppositeWall w) (removeWall x y w st)).walls a (b + 1)
          Wall.north = st.walls a (b + 1) Wall.north := by
        rw [hw]
        rw [if_neg (by rintro ⟨_, _, hv⟩; exact Wall.noConfusion hv),
          if_neg (by rintro ⟨_, _, hv⟩; exact Wall.noConfusion hv)]
      exact ⟨h1 ▸ hop2.1, h2 ▸ hop2.2⟩
  · -- vertical pair
    have hinx : inBounds n x y := hok.1
    have hiny : inBounds n nx ny := dirOK_target_inB n x y (nx, ny, w) hok
    have hclosed : st.walls bx bz Wall.south = true ∨
        st.walls bx (bz + 1) Wall.north = true := by
      rcases hbase with ⟨hb1, hb2⟩ | ⟨hb1, hb2⟩
      · right
        have e1 : bx = nx := congrArg Prod.fst hb2
        have e2 : bz + 1 = ny := congrArg Prod.snd hb2
        rw [e1, e2]
        exact hup Wall.north
      · left
        have e1 : bx = nx := congrArg Prod.fst hb1
        have e2 : bz = ny := congrArg Prod.snd hb1
        rw [e1, e2]
        exact hup Wall.south
    refine ⟨fun a b => rfl, openPairCnt_open_v n bx bz st _ hw hb hz hclosed, ?_, ?_, ?_, ?_, ?_⟩
    · have hopen : vPairOpen (removeWall nx ny (getOppositeWall w) (removeWall x y w st)) bx bz := by
        constructor
        · rw [hw]
          simp
        · rw [hw]
          rw [if_neg (by rintro ⟨_, h1, _⟩; omega), if_pos ⟨rfl, rfl, rfl⟩]
      rcases hbase with ⟨hb1, hb2⟩ | ⟨hb1, hb2⟩
      · rw [← hb1, ← hb2]
        exact openAdj_of_v n _ bx bz hb hz hopen
      · rw [← hb2, ← hb1]
        exact openAdj_symm n _ _ _ (openAdj_of_v n _ bx bz hb hz hopen)
    · intro a b v hfalse
      rw [hw]
      by_cases c1 : a = bx ∧ b = bz ∧ v = Wall.south
      · rw [if_pos c1]
      · rw [if_neg c1]
        by_cases c2 : a = bx ∧ b = bz + 1 ∧ v = Wall.north
        · rw [if_pos c2]
        · rw [if_neg c2]
          exact hfalse
    · intro a b v hne1 hne2
      rw [hw]
      have hbase2 : ((bx, bz) = (x, y) ∨ (bx, bz) = (nx, ny)) ∧
          ((bx, bz + 1) = (x, y) ∨ (bx, bz + 1) = (nx, ny)) := by
        rcases hbase with ⟨hb1, hb2⟩ | ⟨hb1, hb2⟩
        · exact ⟨Or.inl hb1, Or.inr hb2⟩
        · exact ⟨Or.inr hb1, Or.inl hb2⟩
      rw [if_neg ?_, if_neg ?_]
      · rintro ⟨e1, e2, _⟩
        subst e1
        subst e2
        rcases hbase2.2 with hq | hq
        · exact hne1 hq
        · exact hne2 hq
      · rintro ⟨e1, e2, _⟩
        subst e1
        subst e2
        rcases hbase2.1 with hq | hq
        · exact hne1 hq
        · exact hne2 hq
    · intro a b hab hbb hop2 hop1
      exfalso
      apply hop1
      have h1 : (removeWall nx ny (getOppositeWall w) (removeWall x y w st)).walls a b
          Wall.east = st.walls a b Wall.east := by
        rw [hw]
        rw [if_neg (by rintro ⟨_, _, hv⟩; exact Wall.noConfusion hv),
          if_neg (by rintro ⟨_, _, hv⟩; exact Wall.noConfusion hv)]
      have h2 : (removeWall nx ny (getOppositeWall w) (removeWall x y w st)).walls (a + 1) b
          Wall.west = st.walls (a + 1) b Wall.west := by
        rw [hw]
        rw [if_neg (by rintro ⟨_, _, hv⟩; exact Wall.noConfusion hv),
          if_neg (by rintro ⟨_, _, hv⟩; exact Wall.noConfusion hv)]
      exact ⟨h1 ▸ hop2.1, h2 ▸ hop2.2⟩
    · intro a b hab hbb hop2 hop1
      have hco : a = bx ∧ b = bz := by
        by_contra hco
        apply hop1
        have h1 : (removeWall nx ny (getOppositeWall w) (removeWall x y w st)).walls a b
            Wall.south = st.walls a b Wall.south := by
          rw [hw]
          rw [if_neg (by tauto), if_neg (by rintro ⟨_, _, hv⟩; exact Wall.noConfusion hv)]
        have h2 : (removeWall nx ny (getOppositeWall w) (removeWall x y w st)).walls a (b + 1)
            Wall.north = st.walls a (b + 1) Wall.north := by
          rw [hw]
          rw [if_neg (by rintro ⟨_, _, hv⟩; exact Wall.noConfusion hv),
            if_neg (by rintro ⟨e1, e2, _⟩; exact hco ⟨e1, by omega⟩)]
        exact ⟨h1 ▸ hop2.1, h2 ▸ hop2.2⟩
      rcases hbase with ⟨hb1, hb2⟩ | ⟨hb1, hb2⟩
      · left
        rw [hco.1, hco.2]
        exact ⟨hb1, hb2⟩
      · right
        rw [hco.1, hco.2]
        exact ⟨hb1, hb2⟩


/-! ### Maintaining the spanning-tree discipline -/

/-- The tree invariant holds for the fresh grid. -/
theorem treeInv_init (n : Nat) (root : Nat × Nat) : TreeInv n initSt root := by
  refine ⟨fun _ => 0, id, 1, ?_, ?_, ?_, ?_⟩
  · intro p hv
    exact Bool.noConfusion hv
  · intro a b _ _ hop
    exact Bool.noConfusion hop.1
  · intro a b _ _ hop
    exact Bool.noConfusion hop.1
  · intro p hv
    exact Bool.noConfusion hv

/-- From the pair-orientation clauses, every edge is oriented: one
    endpoint is the other's parent, with a strictly smaller rank and a
    visited parent side. -/
theorem edge_cases (n : Nat) (st : St) (ord : Nat × Nat → Nat)
    (par : Nat × Nat → Nat × Nat)
    (hH : ∀ a b : Nat, a + 1 < n → b < n → hPairOpen st a b →
      ((par (a + 1, b) = (a, b) ∧ ord (a, b) < ord (a + 1, b) ∧
          st.visited a b = true) ∨
        (par (a, b) = (a + 1, b) ∧ ord (a + 1, b) < ord (a, b) ∧
          st.visited (a + 1) b = true)))
    (hV : ∀ a b : Nat, a < n → b + 1 < n → vPairOpen st a b →
      ((par (a, b + 1) = (a, b) ∧ ord (a, b) < ord (a, b + 1) ∧
          st.visited a b = true) ∨
        (par (a, b) = (a, b + 1) ∧ ord (a, b + 1) < ord (a, b) ∧
          st.visited a (b + 1) = true)))
    (u v : Nat × Nat) (hadj : openAdj n st u v) :
    (par v = u ∧ ord u < ord v ∧ st.visited u.1 u.2 = true) ∨
    (par u = v ∧ ord v < ord u ∧ st.visited v.1 v.2 = true) := by
  obtain ⟨hu, hv, hcase⟩ := hadj
  have hu' : u.1 < n ∧ u.2 < n := hu
  have hv' : v.1 < n ∧ v.2 < n := hv
  rcases hcase with ⟨he, ho⟩ | ⟨he, ho⟩ | ⟨he, ho⟩ | ⟨he, ho⟩
  · have hb1 : u.1 + 1 < n := by
      have he1 : v.1 = u.1 + 1 := by rw [he]
      omega
    have := hH u.1 u.2 hb1 hu'.2 ho
    rw [Prod.mk.eta, ← he] at this
    rcases this with ⟨h1, h2, h3⟩ | ⟨h1, h2, h3⟩
    · exact Or.inl ⟨h1, h2, h3⟩
    · right
      refine ⟨h1, h2, ?_⟩
      have e1 : v.1 = u.1 + 1 := by rw [he]
      have e2 : v.2 = u.2 := by rw [he]
      rw [e1, e2]
      exact h3
  · have hb1 : v.1 + 1 < n := by
      have he1 : u.1 = v.1 + 1 := by rw [he]
      omega
    have := hH v.1 v.2 hb1 hv'.2 ho
    rw [Prod.mk.eta, ← he] at this
    rcases this with ⟨h1, h2, h3⟩ | ⟨h1, h2, h3⟩
    · exact Or.inr ⟨h1, h2, h3⟩
    · left
      refine ⟨h1, h2, ?_⟩
      have e1 : u.1 = v.1 + 1 := by rw [he]
      have e2 : u.2 = v.2 := by rw [he]
      rw [e1, e2]
      exact h3
  · have hb1 : u.2 + 1 < n := by
      have he1 : v.2 = u.2 + 1 := by rw [he]
      omega
    have := hV u.1 u.2 hu'.1 hb1 ho
    rw [Prod.mk.eta, ← he] at this
    rcases this with ⟨h1, h2, h3⟩ | ⟨h1, h2, h3⟩
    · exact Or.inl ⟨h1, h2, h3⟩
    · right
      refine ⟨h1, h2, ?_⟩
      have e1 : v.1 = u.1 := by rw [he]
      have e2 : v.2 = u.2 + 1 := by rw [he]
      rw [e1, e2]
      exact h3
  · have hb1 : v.2 + 1 < n := by
      have he1 : u.2 = v.2 + 1 := by rw [he]
      omega
    have := hV v.1 v.2 hv'.1 hb1 ho
    rw [Prod.mk.eta, ← he] at this
    rcases this with ⟨h1, h2, h3⟩ | ⟨h1, h2, h3⟩
    · exact Or.inr ⟨h1, h2, h3⟩
    · left
      refine ⟨h1, h2, ?_⟩
      have e1 : u.1 = v.1 := by rw [he]
      have e2 : u.2 = v.2 + 1 := by rw [he]
      rw [e1, e2]
      exact h3

/-- Visiting a pending cell preserves the tree invariant. -/
theorem treeInv_visit (n : Nat) (st st2 : St) (root : Nat × Nat) (x y : Nat)
    (hvis2 : ∀ a b, st2.visited a b =
      if a = x ∧ b = y then true else st.visited a b)
    (hw2 : ∀ a b v, st2.walls a b v = st.walls a b v)
    (hunvis : st.visited x y = false)
    (hpend : (x, y) = root ∨
      ∃ u : Nat × Nat, st.visited u.1 u.2 = true ∧ openAdj n st u (x, y))
    (htree : TreeInv n st root) : TreeInv n st2 root := by
  obtain ⟨ord, par, B, hB, hH, hV, hC⟩ := htree
  have hvmono : ∀ a b, st.visited a b = true → st2.visited a b = true := by
    intro a b hv
    rw [hvis2]
    by_cases hc : a = x ∧ b = y
    · rw [if_pos hc]
    · rw [if_neg hc]
      exact hv
  have hopH : ∀ a b, hPairOpen st2 a b ↔ hPairOpen st a b := by
    intro a b
    unfold hPairOpen
    rw [hw2, hw2]
  have hopV : ∀ a b, vPairOpen st2 a b ↔ vPairOpen st a b := by
    intro a b
    unfold vPairOpen
    rw [hw2, hw2]
  refine ⟨ord, par, max B (ord (x, y) + 1), ?_, ?_, ?_, ?_⟩
  · intro p hv
    rw [hvis2] at hv
    by_cases hc : p.1 = x ∧ p.2 = y
    · have hp : p = (x, y) := by
        obtain ⟨p1, p2⟩ := p
        simp only at hc
        rw [hc.1, hc.2]
      rw [hp]
      omega
    · rw [if_neg hc] at hv
      have := hB p hv
      omega
  · intro a b hab hbb hop
    rcases hH a b hab hbb ((hopH a b).mp hop) with ⟨h1, h2, h3⟩ | ⟨h1, h2, h3⟩
    · exact Or.inl ⟨h1, h2, hvmono a b h3⟩
    · exact Or.inr ⟨h1, h2, hvmono (a + 1) b h3⟩
  · intro a b hab hbb hop
    rcases hV a b hab hbb ((hopV a b).mp hop) with ⟨h1, h2, h3⟩ | ⟨h1, h2, h3⟩
    · exact Or.inl ⟨h1, h2, hvmono a b h3⟩
    · exact Or.inr ⟨h1, h2, hvmono a (b + 1) h3⟩
  · intro p hv hroot
    rw [hvis2] at hv
    by_cases hc : p.1 = x ∧ p.2 = y
    · have hp : p = (x, y) := by
        obtain ⟨p1, p2⟩ := p
        simp only at hc
        rw [hc.1, hc.2]
      subst hp
      rcases hpend with hr | ⟨u, huv, huadj⟩
      · exact absurd hr hroot
      · rcases edge_cases n st ord par hH hV u (x, y) huadj with
          ⟨h1, h2, h3⟩ | ⟨h1, h2, h3⟩
        · rw [h1]
          refine ⟨?_, hvmono u.1 u.2 h3, h2⟩
          apply openAdj_mono n st st2 (fun a b w hf => by rw [hw2]; exact hf)
          exact huadj
        · rw [h3] at hunvis
          exact Bool.noConfusion hunvis
    · rw [if_neg hc] at hv
      obtain ⟨hc1, hc2, hc3⟩ := hC p hv hroot
      refine ⟨?_, hvmono _ _ hc2, hc3⟩
      exact openAdj_mono n st st2 (fun a b w hf => by rw [hw2]; exact hf) _ _ hc1

/-- Opening the pair from a visited cell to an unvisited all-walls-up cell
    preserves the tree invariant. -/
theorem treeInv_extend (n : Nat) (st st2 : St) (root : Nat × Nat)
    (u v : Nat × Nat)
    (hvis : ∀ a b, st2.visited a b = st.visited a b)
    (hwmono : ∀ a b w, st.walls a b w = false → st2.walls a b w = false)
    (hvisu : st.visited u.1 u.2 = true)
    (hvisv : st.visited v.1 v.2 = false)
    (hvwalls : ∀ w, st.walls v.1 v.2 w = true)
    (hnewh : ∀ a b, a + 1 < n → b < n → hPairOpen st2 a b → ¬ hPairOpen st a b →
      ((a, b) = u ∧ (a + 1, b) = v) ∨ ((a, b) = v ∧ (a + 1, b) = u))
    (hnewv : ∀ a b, a < n → b + 1 < n → vPairOpen st2 a b → ¬ vPairOpen st a b →
      ((a, b) = u ∧ (a, b + 1) = v) ∨ ((a, b) = v ∧ (a, b + 1) = u))
    (htree : TreeInv n st root) : TreeInv n st2 root := by
  obtain ⟨u1, u2⟩ := u
  obtain ⟨v1, v2⟩ := v
  simp only at hvisu hvisv hvwalls
  obtain ⟨ord, par, B, hB, hH, hV, hC⟩ := htree
  have huvne : ((u1, u2) : Nat × Nat) ≠ (v1, v2) := by
    intro he
    have e1 := congrArg Prod.fst he
    have e2 := congrArg Prod.snd he
    simp only at e1 e2
    rw [e1, e2, hvisv] at hvisu
    exact Bool.noConfusion hvisu
  refine ⟨fun p => if p = (v1, v2) then B else ord p,
    fun p => if p = (v1, v2) then (u1, u2) else par p, B + 1, ?_, ?_, ?_, ?_⟩
  · intro p hv
    beta_reduce
    rw [hvis] at hv
    have hpv : p ≠ (v1, v2) := by
      intro he
      rw [he] at hv
      simp only at hv
      rw [hvisv] at hv
      exact Bool.noConfusion hv
    rw [if_neg hpv]
    have := hB p hv
    omega
  · intro a b hab hbb hop
    beta_reduce
    by_cases hold : hPairOpen st a b
    · have hav : ((a, b) : Nat × Nat) ≠ (v1, v2) := by
        intro he
        have e1 := congrArg Prod.fst he
        have e2 := congrArg Prod.snd he
        simp only at e1 e2
        have hx := hold.1
        rw [e1, e2, hvwalls Wall.east] at hx
        exact Bool.noConfusion hx
      have hbv : ((a + 1, b) : Nat × Nat) ≠ (v1, v2) := by
        intro he
        have e1 := congrArg Prod.fst he
        have e2 := congrArg Prod.snd he
        simp only at e1 e2
        have hx := hold.2
        rw [e1, e2, hvwalls Wall.west] at hx
        exact Bool.noConfusion hx
      rcases hH a b hab hbb hold with ⟨h1, h2, h3⟩ | ⟨h1, h2, h3⟩
      · left
        rw [if_neg hbv, if_neg hav, if_neg hbv, hvis]
        exact ⟨h1, h2, h3⟩
      · right
        rw [if_neg hav, if_neg hbv, if_neg hav, hvis]
        exact ⟨h1, h2, h3⟩
    · rcases hnewh a b hab hbb hop hold with ⟨he1, he2⟩ | ⟨he1, he2⟩
      · have ea : a = u1 := congrArg Prod.fst he1
        have eb : b = u2 := congrArg Prod.snd he1
        subst ea
        subst eb
        have ev1 : v1 = a + 1 := (congrArg Prod.fst he2).symm
        have ev2 : v2 = b := (congrArg Prod.snd he2).symm
        subst ev1
        subst ev2
        left
        refine ⟨by simp, ?_, ?_⟩
        · rw [if_neg huvne, if_pos rfl]
          exact hB _ hvisu
        · rw [hvis]
          exact hvisu
      · have ea : a = v1 := congrArg Prod.fst he1
        have eb : b = v2 := congrArg Prod.snd he1
        subst ea
        subst eb
        have eu1 : u1 = a + 1 := (congrArg Prod.fst he2).symm
        have eu2 : u2 = b := (congrArg Prod.snd he2).symm
        subst eu1
        subst eu2
        right
        refine ⟨by simp, ?_, ?_⟩
        · rw [if_neg huvne, if_pos rfl]
          exact hB _ hvisu
        · rw [hvis]
          exact hvisu
  · intro a b hab hbb hop
    beta_reduce
    by_cases hold : vPairOpen st a b
    · have hav : ((a, b) : Nat × Nat) ≠ (v1, v2) := by
        intro he
        have e1 := congrArg Prod.fst he
        have e2 := congrArg Prod.snd he
        simp only at e1 e2
        have hx := hold.1
        rw [e1, e2, hvwalls Wall.south] at hx
        exact Bool.noConfusion hx
      have hbv : ((a, b + 1) : Nat × Nat) ≠ (v1, v2) := by
        intro he
        have e1 := congrArg Prod.fst he
        have e2 := congrArg Prod.snd he
        simp only at e1 e2
        have hx := hold.2
        rw [e1, e2, hvwalls Wall.north] at hx
        exact Bool.noConfusion hx
      rcases hV a b hab hbb hold with ⟨h1, h2, h3⟩ | ⟨h1, h2, h3⟩
      · left
        rw [if_neg hbv, if_neg hav, if_neg hbv, hvis]
        exact ⟨h1, h2, h3⟩
      · right
        rw [if_neg hav, if_neg hbv, if_neg hav, hvis]
        exact ⟨h1, h2, h3⟩
    · rcases hnewv a b hab hbb hop hold with ⟨he1, he2⟩ | ⟨he1, he2⟩
      · have ea : a = u1 := congrArg Prod.fst he1
        have eb : b = u2 := congrArg Prod.snd he1
        subst ea
        subst eb
        have ev1 : v1 = a := (congrArg Prod.fst he2).symm
        have ev2 : v2 = b + 1 := (congrArg Prod.snd he2).symm
        subst ev1
        subst ev2
        left
        refine ⟨by simp, ?_, ?_⟩
        · rw [if_neg huvne, if_pos rfl]
          exact hB _ hvisu
        · rw [hvis]
          exact hvisu
      · have ea : a = v1 := congrArg Prod.fst he1
        have eb : b = v2 := congrArg Prod.snd he1
        subst ea
        subst eb
        have eu1 : u1 = a := (congrArg Prod.fst he2).symm
        have eu2 : u2 = b + 1 := (congrArg Prod.snd he2).symm
        subst eu1
        subst eu2
        right
        refine ⟨by simp, ?_, ?_⟩
        · rw [if_neg huvne, if_pos rfl]
          exact hB _ hvisu
        · rw [hvis]
          exact hvisu
  · intro p hv hroot
    beta_reduce
    rw [hvis] at hv
    have hpv : p ≠ (v1, v2) := by
      intro he
      rw [he] at hv
      simp only at hv
      rw [hvisv] at hv
      exact Bool.noConfusion hv
    obtain ⟨hc1, hc2, hc3⟩ := hC p hv hroot
    have hparv : par p ≠ (v1, v2) := by
      intro he
      rw [he] at hc2
      simp only at hc2
      rw [hvisv] at hc2
      exact Bool.noConfusion hc2
    rw [if_neg hpv, if_neg hparv, if_neg hpv, hvis]
    exact ⟨openAdj_mono n st st2 hwmono _ _ hc1, hc2, hc3⟩


/-! ### The main carving induction: with sufficient fuel the carver
    visits its cell, keeps the tree discipline, and opens exactly one
    wall pair per newly visited cell -/

/-- What a sufficient-fuel `carve` call guarantees. -/
def CarveMain (ρ : Nat → Nat) (n : Nat) (root : Nat × Nat) (fuel : Nat) : Prop :=
  ∀ x y st, unvisCnt n st ≤ fuel → inBounds n x y → st.visited x y = false →
    unvisitedWallsUp st (x, y) → TreeInv n st root →
    ((x, y) = root ∨
      ∃ u : Nat × Nat, st.visited u.1 u.2 = true ∧ openAdj n st u (x, y)) →
    (carve ρ n fuel x y st).visited x y = true ∧
    unvisitedWallsUpAll (carve ρ n fuel x y st) ∧
    TreeInv n (carve ρ n fuel x y st) root ∧
    openPairCnt n (carve ρ n fuel x y st) + visCnt n st + 1 =
      openPairCnt n st + visCnt n (carve ρ n fuel x y st) ∧
    (∀ a b, (carve ρ n fuel x y st).visited a b = true →
      st.visited a b = false → ∀ d : Nat × Nat × Wall, dirOK n a b d →
      (carve ρ n fuel x y st).visited d.1 d.2.1 = true)

/-- What a sufficient-fuel `carveDirs` loop guarantees. -/
def CarveDirsMain (ρ : Nat → Nat) (n : Nat) (root : Nat × Nat) (fuel : Nat) : Prop :=
  ∀ x y dirs st, unvisCnt n st ≤ fuel → inBounds n x y →
    st.visited x y = true → (∀ d ∈ dirs, dirOK n x y d) →
    unvisitedWallsUpAll st → TreeInv n st root →
    (∀ d ∈ dirs, (carveDirs ρ n fuel x y dirs st).visited d.1 d.2.1 = true) ∧
    unvisitedWallsUpAll (carveDirs ρ n fuel x y dirs st) ∧
    TreeInv n (carveDirs ρ n fuel x y dirs st) root ∧
    openPairCnt n (carveDirs ρ n fuel x y dirs st) + visCnt n st =
      openPairCnt n st + visCnt n (carveDirs ρ n fuel x y dirs st) ∧
    (∀ a b, (carveDirs ρ n fuel x y dirs st).visited a b = true →
      st.visited a b = false → ∀ d : Nat × Nat × Wall, dirOK n a b d →
      (carveDirs ρ n fuel x y dirs st).visited d.1 d.2.1 = true)

/-- The loop part of the main induction, given the call part at the same
    fuel. -/
theorem carveDirs_main_of (ρ : Nat → Nat) (n : Nat) (root : Nat × Nat)
    (fuel : Nat) (hcarve : CarveMain ρ n root fuel) :
    CarveDirsMain ρ n root fuel := by
  intro x y dirs
  induction dirs with
  | nil =>
    intro st hfuel hxy hvxy hdirs hUWT htree
    unfold carveDirs
    refine ⟨fun d hd => absurd hd (List.not_mem_nil d), hUWT, htree, by omega, ?_⟩
    intro a b hvt hvf
    rw [hvt] at hvf
    exact Bool.noConfusion hvf
  | cons d0 rest ih =>
    obtain ⟨nx, ny, w⟩ := d0
    intro st hfuel hxy hvxy hdirs hUWT htree
    have hok := hdirs (nx, ny, w) (List.mem_cons_self _ _)
    have hdrest : ∀ d ∈ rest, dirOK n x y d :=
      fun d hd => hdirs d (List.mem_cons_of_mem _ hd)
    unfold carveDirs
    by_cases h : st.visited nx ny = true
    · rw [if_pos h]
      obtain ⟨c1, c2, c3, c4, c5⟩ := ih st hfuel hxy hvxy hdrest hUWT htree
      refine ⟨?_, c2, c3, c4, c5⟩
      intro d hd
      rcases List.mem_cons.mp hd with he | hd'
      · rw [he]
        exact carveDirs_vis_mono ρ n fuel rest x y st nx ny h
      · exact c1 d hd'
    · rw [if_neg h]
      unfold_let
      have hnv : st.visited nx ny = false := by simpa using h
      have hup : ∀ v, st.walls nx ny v = true := fun v => hUWT nx ny hnv v
      obtain ⟨bvis, bcnt, badj, bwmono, bstable, bnewh, bnewv⟩ :=
        removePair_bundle n x y nx ny w st hok hup
      have htree2 : TreeInv n
          (removeWall nx ny (getOppositeWall w) (removeWall x y w st)) root :=
        treeInv_extend n st _ root (x, y) (nx, ny) bvis bwmono hvxy hnv hup
          bnewh bnewv htree
      have hUWT2 : unvisitedWallsUp
          (removeWall nx ny (getOppositeWall w) (removeWall x y w st)) (nx, ny) := by
        intro a b hv hne v
        have hvst : st.visited a b = false := by rw [← bvis a b]; exact hv
        have hnexy : (a, b) ≠ (x, y) := by
          intro he
          have e1 : a = x := congrArg Prod.fst he
          have e2 : b = y := congrArg Prod.snd he
          rw [e1, e2, hvxy] at hvst
          exact Bool.noConfusion hvst
        rw [bstable a b v hnexy hne]
        exact hUWT a b hvst v
      have hfuel2 : unvisCnt n
          (removeWall nx ny (getOppositeWall w) (removeWall x y w st)) ≤ fuel := hfuel
      have hpend2 : ((nx, ny) : Nat × Nat) = root ∨
          ∃ u : Nat × Nat, (removeWall nx ny (getOppositeWall w)
            (removeWall x y w st)).visited u.1 u.2 = true ∧
            openAdj n (removeWall nx ny (getOppositeWall w)
              (removeWall x y w st)) u (nx, ny) := by
        right
        exact ⟨(x, y), by rw [bvis]; exact hvxy, badj⟩
      obtain ⟨k2, kUWT3, ktree3, kcnt3, kclosure3⟩ :=
        hcarve nx ny _ hfuel2 (dirOK_target_inB n x y (nx, ny, w) hok)
          (by rw [bvis]; exact hnv) hUWT2 htree2 hpend2
      have hvmono23 := carve_vis_mono ρ n fuel nx ny
        (removeWall nx ny (getOppositeWall w) (removeWall x y w st))
      have hfuel3 : unvisCnt n (carve ρ n fuel nx ny
          (removeWall nx ny (getOppositeWall w) (removeWall x y w st))) ≤ fuel :=
        le_trans (unvisCnt_le_of_mono n _ _ (fun a b hv => hvmono23 a b hv)) hfuel2
      have hv3xy : (carve ρ n fuel nx ny
          (removeWall nx ny (getOppositeWall w) (removeWall x y w st))).visited
            x y = true :=
        hvmono23 x y (by rw [bvis]; exact hvxy)
      obtain ⟨r1, rUWT, rtree, rcnt, rclosure⟩ :=
        ih _ hfuel3 hxy hv3xy hdrest kUWT3 ktree3
      refine ⟨?_, rUWT, rtree, ?_, ?_⟩
      · intro d hd
        rcases List.mem_cons.mp hd with he | hd'
        · rw [he]
          exact carveDirs_vis_mono ρ n fuel rest x y _ nx ny k2
        · exact r1 d hd'
      · have hv2 : visCnt n
            (removeWall nx ny (getOppositeWall w) (removeWall x y w st)) =
            visCnt n st := rfl
        omega
      · intro a b hvt hvf hd hdok
        by_cases hv3 : (carve ρ n fuel nx ny
            (removeWall nx ny (getOppositeWall w)
              (removeWall x y w st))).visited a b = true
        · have := kclosure3 a b hv3 (by rw [bvis]; exact hvf) hd hdok
          exact carveDirs_vis_mono ρ n fuel rest x y _ _ _ this
        · have hv3' : (carve ρ n fuel nx ny
              (removeWall nx ny (getOppositeWall w)
                (removeWall x y w st))).visited a b = false := by simpa using hv3
          exact rclosure a b hvt hv3' hd hdok

/-- The main induction: both parts at every fuel. -/
theorem carve_main (ρ : Nat → Nat) (n : Nat) (root : Nat × Nat) :
    ∀ fuel, CarveMain ρ n root fuel ∧ CarveDirsMain ρ n root fuel := by
  intro fuel
  induction fuel with
  | zero =>
    constructor
    · intro x y st hfuel hxy hunvis _ _ _
      exfalso
      have := unvisCnt_pos n x y st hxy hunvis
      omega
    · intro x y dirs st hfuel hxy hvxy hdirs hUWT htree
      have hall : ∀ d ∈ dirs, st.visited d.1 d.2.1 = true := by
        intro d hd
        exact unvisCnt_zero n st (by omega) d.1 d.2.1
          (dirOK_target_inB n x y d (hdirs d hd))
      rw [carveDirs_all_visited ρ n 0 x y dirs st hall]
      refine ⟨hall, hUWT, htree, by omega, ?_⟩
      intro a b hvt hvf
      rw [hvt] at hvf
      exact Bool.noConfusion hvf
  | succ f ihf =>
    have hcm : CarveMain ρ n root (f + 1) := by
      intro x y st hfuel hxy hunvis hUWTx htree hpend
      have heq : carve ρ n (f + 1) x y st =
          carveDirs ρ n f x y
            (shuffleDirs ρ (visitCell x y st).ctr
              (getUnvisitedNeighbors n (visitCell x y st) x y)).1
            { visitCell x y st with
              ctr := (shuffleDirs ρ (visitCell x y st).ctr
                (getUnvisitedNeighbors n (visitCell x y st) x y)).2 } := by
        unfold carve
        rfl
      have hvisv : ∀ a b, ({ visitCell x y st with
          ctr := (shuffleDirs ρ (visitCell x y st).ctr
            (getUnvisitedNeighbors n (visitCell x y st) x y)).2 } : St).visited a b =
          if a = x ∧ b = y then true else st.visited a b := fun a b => rfl
      have hwv : ∀ a b v, ({ visitCell x y st with
          ctr := (shuffleDirs ρ (visitCell x y st).ctr
            (getUnvisitedNeighbors n (visitCell x y st) x y)).2 } : St).walls a b v =
          st.walls a b v := fun a b v => rfl
      have htreev := treeInv_visit n st _ root x y hvisv hwv hunvis hpend htree
      have hUWTv : unvisitedWallsUpAll ({ visitCell x y st with
          ctr := (shuffleDirs ρ (visitCell x y st).ctr
            (getUnvisitedNeighbors n (visitCell x y st) x y)).2 } : St) := by
        intro a b hv v
        rw [hvisv] at hv
        by_cases hc : a = x ∧ b = y
        · rw [if_pos hc] at hv
          exact Bool.noConfusion hv
        · rw [if_neg hc] at hv
          rw [hwv]
          refine hUWTx a b hv ?_ v
          intro he
          have e1 : a = x := congrArg Prod.fst he
          have e2 : b = y := congrArg Prod.snd he
          exact hc ⟨e1, e2⟩
      have hfuelv : unvisCnt n ({ visitCell x y st with
          ctr := (shuffleDirs ρ (visitCell x y st).ctr
            (getUnvisitedNeighbors n (visitCell x y st) x y)).2 } : St) ≤ f := by
        have hdec := unvisCnt_visitCell n x y st hxy hunvis
        have hsame : unvisCnt n ({ visitCell x y st with
            ctr := (shuffleDirs ρ (visitCell x y st).ctr
              (getUnvisitedNeighbors n (visitCell x y st) x y)).2 } : St) =
            unvisCnt n (visitCell x y st) := rfl
        omega
      have hdirsv : ∀ d ∈ (shuffleDirs ρ (visitCell x y st).ctr
          (getUnvisitedNeighbors n (visitCell x y st) x y)).1, dirOK n x y d := by
        intro d hd
        exact (getUnvisitedNeighbors_sound n (visitCell x y st) x y hxy d
          ((shuffleDirs_mem ρ _ _ d).mp hd)).1
      have hvxyv : ({ visitCell x y st with
          ctr := (shuffleDirs ρ (visitCell x y st).ctr
            (getUnvisitedNeighbors n (visitCell x y st) x y)).2 } : St).visited
            x y = true := by
        rw [hvisv]
        rw [if_pos ⟨rfl, rfl⟩]
      obtain ⟨r1, rUWT, rtree, rcnt, rclosure⟩ :=
        ihf.2 x y _ _ hfuelv hxy hvxyv hdirsv hUWTv htreev
      rw [heq]
      refine ⟨?_, rUWT, rtree, ?_, ?_⟩
      · exact carveDirs_vis_mono ρ n f _ x y _ x y hvxyv
      · have hvc : visCnt n ({ visitCell x y st with
            ctr := (shuffleDirs ρ (visitCell x y st).ctr
              (getUnvisitedNeighbors n (visitCell x y st) x y)).2 } : St) =
            visCnt n st + 1 := visCnt_visitCell n x y st hxy hunvis
        have hpc : openPairCnt n ({ visitCell x y st with
            ctr := (shuffleDirs ρ (visitCell x y st).ctr
              (getUnvisitedNeighbors n (visitCell x y st) x y)).2 } : St) =
            openPairCnt n st := rfl
        omega
      · intro a b hvt hvf hd hdok
        by_cases hcase : a = x ∧ b = y
        · obtain ⟨e1, e2⟩ := hcase
          subst e1
          subst e2
          by_cases hvd : ({ visitCell a b st with
              ctr := (shuffleDirs ρ (visitCell a b st).ctr
                (getUnvisitedNeighbors n (visitCell a b st) a b)).2 } : St).visited
                hd.1 hd.2.1 = true
          · exact carveDirs_vis_mono ρ n f _ a b _ _ _ hvd
          · have hvd' : (visitCell a b st).visited hd.1 hd.2.1 = false := by
              simpa using hvd
            have hmem : hd ∈ getUnvisitedNeighbors n (visitCell a b st) a b :=
              getUnvisitedNeighbors_complete n (visitCell a b st) a b hd hdok hvd'
            exact r1 hd ((shuffleDirs_mem ρ _ _ hd).mpr hmem)
        · have hvfv : ({ visitCell x y st with
              ctr := (shuffleDirs ρ (visitCell x y st).ctr
                (getUnvisitedNeighbors n (visitCell x y st) x y)).2 } : St).visited
                a b = false := by
            rw [hvisv, if_neg hcase]
            exact hvf
          exact rclosure a b hvt hvfv hd hdok
    exact ⟨hcm, carveDirs_main_of ρ n root (f + 1) hcm⟩


/-! ### The carved maze: completeness, edge count, connectivity,
    acyclicity -/

/-- Initially no cell is visited. -/
theorem visCnt_init (n : Nat) : visCnt n initSt = 0 := by
  unfold visCnt initSt
  simp

/-- Initially every in-bounds cell is unvisited. -/
theorem unvisCnt_init (n : Nat) : unvisCnt n initSt = n * n := by
  unfold unvisCnt initSt gridFinset
  simp

/-- Initially no wall pair is open. -/
theorem openPairCnt_init (n : Nat) : openPairCnt n initSt = 0 := by
  unfold openPairCnt hPairOpen vPairOpen initSt
  simp

/-- The master induction applied to the top-level call: the carved maze
    visits the start, keeps every unvisited cell walled, satisfies the tree
    discipline, opens one pair fewer than it visits cells, and every
    visited cell has all its in-grid neighbors visited. -/
theorem carvedMaze_master (ρ : Nat → Nat) (n : Nat) (hn : 1 ≤ n) :
    (carvedMaze ρ n).visited (n / 2) (n / 2) = true ∧
    unvisitedWallsUpAll (carvedMaze ρ n) ∧
    TreeInv n (carvedMaze ρ n) (startCell n) ∧
    openPairCnt n (carvedMaze ρ n) + 1 = visCnt n (carvedMaze ρ n) ∧
    (∀ a b, (carvedMaze ρ n).visited a b = true →
      ∀ d : Nat × Nat × Wall, dirOK n a b d →
      (carvedMaze ρ n).visited d.1 d.2.1 = true) := by
  have hxy : inBounds n (n / 2) (n / 2) := ⟨by omega, by omega⟩
  obtain ⟨h1, h2, h3, h4, h5⟩ :=
    (carve_main ρ n (startCell n) (n * n)).1 (n / 2) (n / 2) initSt
      (by rw [unvisCnt_init])
      hxy rfl (fun a b _ _ v => rfl) (treeInv_init n (startCell n))
      (Or.inl rfl)
  refine ⟨h1, h2, h3, ?_, ?_⟩
  · have hv0 := visCnt_init n
    have hp0 := openPairCnt_init n
    have he : carvedMaze ρ n = carve ρ n (n * n) (n / 2) (n / 2) initSt := rfl
    rw [he]
    omega
  · intro a b hv d hd
    exact h5 a b hv rfl d hd

/-- Reachability over the four-direction grid steps: any cell of the grid
    is reached from any starting cell by single-axis walks. -/
theorem grid_reach (n : Nat) (P : Nat → Nat → Prop)
    (hW : ∀ x y, x < n → y < n → 0 < x → P x y → P (x - 1) y)
    (hE : ∀ x y, x < n → y < n → x + 1 < n → P x y → P (x + 1) y)
    (hN : ∀ x y, x < n → y < n → 0 < y → P x y → P x (y - 1))
    (hS : ∀ x y, x < n → y < n → y + 1 < n → P x y → P x (y + 1))
    (sx sy : Nat) (hsx : sx < n) (hsy : sy < n) (hP : P sx sy) :
    ∀ a b, a < n → b < n → P a b := by
  have hrow : ∀ a, a < n → P a sy := by
    have hdown : ∀ k, k ≤ sx → P (sx - k) sy := by
      intro k
      induction k with
      | zero => intro _; simpa using hP
      | succ m ihm =>
        intro hk
        have hm := ihm (by omega)
        have hstep := hW (sx - m) sy (by omega) hsy (by omega) hm
        have heq : sx - m - 1 = sx - (m + 1) := by omega
        rwa [heq] at hstep
    have hup : ∀ k, sx + k < n → P (sx + k) sy := by
      intro k
      induction k with
      | zero => intro _; simpa using hP
      | succ m ihm =>
        intro hk
        have hm := ihm (by omega)
        have hstep := hE (sx + m) sy (by omega) hsy (by omega) hm
        have heq : sx + m + 1 = sx + (m + 1) := by omega
        rwa [heq] at hstep
    intro a ha
    by_cases hle : a ≤ sx
    · have := hdown (sx - a) (by omega)
      have heq : sx - (sx - a) = a := by omega
      rwa [heq] at this
    · have := hup (a - sx) (by omega)
      have heq : sx + (a - sx) = a := by omega
      rwa [heq] at this
  intro a b ha hb
  have hcol0 : P a sy := hrow a ha
  have hdown : ∀ k, k ≤ sy → P a (sy - k) := by
    intro k
    induction k with
    | zero => intro _; simpa using hcol0
    | succ m ihm =>
      intro hk
      have hm := ihm (by omega)
      have hstep := hN a (sy - m) ha (by omega) (by omega) hm
      have heq : sy - m - 1 = sy - (m + 1) := by omega
      rwa [heq] at hstep
  have hup : ∀ k, sy + k < n → P a (sy + k) := by
    intro k
    induction k with
    | zero => intro _; simpa using hcol0
    | succ m ihm =>
      intro hk
      have hm := ihm (by omega)
      have hstep := hS a (sy + m) ha (by omega) (by omega) hm
      have heq : sy + m + 1 = sy + (m + 1) := by omega
      rwa [heq] at hstep
  by_cases hle : b ≤ sy
  · have := hdown (sy - b) (by omega)
    have heq : sy - (sy - b) = b := by omega
    rwa [heq] at this
  · have := hup (b - sy) (by omega)
    have heq : sy + (b - sy) = b := by omega
    rwa [heq] at this

/-- Every in-bounds cell is visited after carving. -/
theorem carvedMaze_complete (ρ : Nat → Nat) (n : Nat) (hn : 1 ≤ n) :
    ∀ a b, a < n → b < n → (carvedMaze ρ n).visited a b = true := by
  obtain ⟨h1, _, _, _, h5⟩ := carvedMaze_master ρ n hn
  refine grid_reach n (fun a b => (carvedMaze ρ n).visited a b = true)
    ?_ ?_ ?_ ?_ (n / 2) (n / 2) (by omega) (by omega) h1
  · intro x y hx hy hpos hP
    exact h5 x y hP (x - 1, y, Wall.west) ⟨⟨hx, hy⟩, Or.inl ⟨rfl, hpos, rfl, rfl⟩⟩
  · intro x y hx hy hlt hP
    exact h5 x y hP (x + 1, y, Wall.east)
      ⟨⟨hx, hy⟩, Or.inr (Or.inl ⟨rfl, hlt, rfl, rfl⟩)⟩
  · intro x y hx hy hpos hP
    exact h5 x y hP (x, y - 1, Wall.north)
      ⟨⟨hx, hy⟩, Or.inr (Or.inr (Or.inl ⟨rfl, hpos, rfl, rfl⟩))⟩
  · intro x y hx hy hlt hP
    exact h5 x y hP (x, y + 1, Wall.south)
      ⟨⟨hx, hy⟩, Or.inr (Or.inr (Or.inr ⟨rfl, hlt, rfl, rfl⟩))⟩

/-- A fully visited grid has `n * n` visited cells. -/
theorem visCnt_full (n : Nat) (st : St)
    (h : ∀ a b, a < n → b < n → st.visited a b = true) :
    visCnt n st = n * n := by
  unfold visCnt
  rw [Finset.filter_true_of_mem]
  · unfold gridFinset
    simp [Nat.mul_comm]
  · intro p hp
    obtain ⟨hp1, hp2⟩ := (mem_gridFinset n p).mp hp
    exact h p.1 p.2 hp1 hp2

/-- The carved maze has exactly `n * n - 1` open wall pairs. -/
theorem carvedMaze_openPairCnt (ρ : Nat → Nat) (n : Nat) (hn : 1 ≤ n) :
    openPairCnt n (carvedMaze ρ n) = n * n - 1 := by
  obtain ⟨_, _, _, h4, _⟩ := carvedMaze_master ρ n hn
  have hfull := visCnt_full n (carvedMaze ρ n) (carvedMaze_complete ρ n hn)
  have hnn : 1 ≤ n * n := Nat.one_le_iff_ne_zero.mpr (by positivity)
  omega


/-- Two cells connected by a path of open wall pairs. -/
def Conn (n : Nat) (st : St) : Nat × Nat → Nat × Nat → Prop :=
  Relation.ReflTransGen (openAdj n st)

/-- In a tree-disciplined state every visited cell is connected to the
    root. -/
theorem conn_to_root (n : Nat) (st : St) (root : Nat × Nat)
    (htree : TreeInv n st root) :
    ∀ p : Nat × Nat, st.visited p.1 p.2 = true → Conn n st p root := by
  obtain ⟨ord, par, B, hB, hH, hV, hc⟩ := htree
  have H : ∀ k, ∀ p : Nat × Nat, ord p = k → st.visited p.1 p.2 = true →
      Conn n st p root := by
    intro k
    induction k using Nat.strong_induction_on with
    | _ k ih =>
      intro p hk hv
      by_cases hr : p = root
      · rw [hr]
        exact Relation.ReflTransGen.refl
      · obtain ⟨hadj, hpv, hlt⟩ := hc p hv hr
        have htail := ih (ord (par p)) (by omega) (par p) rfl hpv
        exact Relation.ReflTransGen.head (openAdj_symm n st (par p) p hadj) htail
  intro p hv
  exact H (ord p) p rfl hv

/-- A cycle in the open-wall graph: at least three pairwise distinct
    cells, consecutive ones adjacent, and the last adjacent back to the
    first. -/
def IsCycle (n : Nat) (st : St) (l : List (Nat × Nat)) : Prop :=
  3 ≤ l.length ∧ l.Nodup ∧ List.Chain' (openAdj n st) l ∧
  ∀ (h : l ≠ []), openAdj n st (l.getLast h) (l.head h)

/-- A tree-disciplined state has no cycle: the cell of largest rank on a
    cycle would need two distinct parents. -/
theorem cycle_free (n : Nat) (st : St) (root : Nat × Nat)
    (htree : TreeInv n st root) :
    ∀ l : List (Nat × Nat), ¬ IsCycle n st l := by
  obtain ⟨ord, par, B, hB, hH, hV, hc⟩ := htree
  rintro l ⟨hlen, hnodup, hchain, hclose⟩
  have hne : l ≠ [] := by
    intro he
    rw [he] at hlen
    simp at hlen
  have hL : 3 ≤ l.length := hlen
  -- all cycle edges in the forward direction, with wraparound
  have hstep : ∀ i : Nat, ∀ hi : i < l.length,
      openAdj n st (l.get ⟨i, hi⟩)
        (l.get ⟨if i + 1 = l.length then 0 else i + 1, by split <;> omega⟩) := by
    intro i hi
    by_cases hlast : i + 1 = l.length
    · have hget2 : (l.get ⟨if i + 1 = l.length then 0 else i + 1,
          by split <;> omega⟩) = l.get ⟨0, by omega⟩ := by
        congr 1
        apply Fin.ext
        show (if i + 1 = l.length then 0 else i + 1) = 0
        rw [if_pos hlast]
      rw [hget2]
      have hgl : l.getLast hne = l.get ⟨l.length - 1, by omega⟩ :=
        List.getLast_eq_get l hne
      have hhd : l.head hne = l.get ⟨0, by omega⟩ := List.head_eq_getElem l hne
      have hclose' := hclose hne
      rw [hgl, hhd] at hclose'
      have hgeti : l.get ⟨i, hi⟩ = l.get ⟨l.length - 1, by omega⟩ := by
        congr 1
        apply Fin.ext
        show i = l.length - 1
        omega
      rw [hgeti]
      exact hclose'
    · have hget2 : (l.get ⟨if i + 1 = l.length then 0 else i + 1,
          by split <;> omega⟩) = l.get ⟨i + 1, by omega⟩ := by
        congr 1
        apply Fin.ext
        show (if i + 1 = l.length then 0 else i + 1) = i + 1
        rw [if_neg hlast]
      rw [hget2]
      rw [List.chain'_iff_get] at hchain
      exact hchain i (by omega)
  -- the cell of maximal rank on the cycle
  have hnonempty : (Finset.univ : Finset (Fin l.length)).Nonempty := by
    refine ⟨⟨0, by omega⟩, Finset.mem_univ _⟩
  obtain ⟨i, _, hmax⟩ := Finset.exists_max_image
    (Finset.univ : Finset (Fin l.length)) (fun j => ord (l.get j)) hnonempty
  -- a maximal cell cannot have two distinct neighbors on the cycle, since
  -- both would have to be its parent
  have hget_congr : ∀ (pi qi : Nat) (hpi : pi < l.length) (hqi : qi < l.length),
      pi = qi → l.get ⟨pi, hpi⟩ = l.get ⟨qi, hqi⟩ := by
    intro pi qi hpi hqi h
    congr 1
    exact Fin.ext h
  have hcore : ∀ (pi qi : Nat) (hpi : pi < l.length) (hqi : qi < l.length),
      openAdj n st (l.get ⟨pi, hpi⟩) (l.get i) →
      openAdj n st (l.get i) (l.get ⟨qi, hqi⟩) →
      pi ≠ qi → False := by
    intro pi qi hpi hqi hp hq hne'
    have hc1 := edge_cases n st ord par hH hV _ _ hp
    have hc2 := edge_cases n st ord par hH hV _ _ hq
    have hm1 : ord (l.get ⟨pi, hpi⟩) ≤ ord (l.get i) :=
      hmax ⟨pi, hpi⟩ (Finset.mem_univ _)
    have hm2 : ord (l.get ⟨qi, hqi⟩) ≤ ord (l.get i) :=
      hmax ⟨qi, hqi⟩ (Finset.mem_univ _)
    have hposs1 : par (l.get i) = l.get ⟨pi, hpi⟩ := by
      rcases hc1 with ⟨hpp, _, _⟩ | ⟨_, hlt, _⟩
      · exact hpp
      · omega
    have hposs2 : par (l.get i) = l.get ⟨qi, hqi⟩ := by
      rcases hc2 with ⟨_, hlt, _⟩ | ⟨hpp, _, _⟩
      · omega
      · exact hpp
    have hgeteq : l.get ⟨pi, hpi⟩ = l.get ⟨qi, hqi⟩ := by
      rw [← hposs1, hposs2]
    have hidx := (List.Nodup.get_inj_iff hnodup).mp hgeteq
    exact hne' (congrArg Fin.val hidx)
  by_cases h0 : i.1 = 0
  · -- the maximum sits at the head: neighbors are the last cell and cell 1
    have he1 := hstep (l.length - 1) (by omega)
    have he2 := hstep i.1 i.2
    have e1fix : l.get ⟨if (l.length - 1) + 1 = l.length then 0
        else (l.length - 1) + 1, by split <;> omega⟩ = l.get ⟨i.1, i.2⟩ := by
      apply hget_congr
      rw [if_pos (show l.length - 1 + 1 = l.length by omega)]
      omega
    rw [e1fix] at he1
    have e2fix : l.get ⟨if i.1 + 1 = l.length then 0 else i.1 + 1,
        by split <;> omega⟩ = l.get ⟨1, by omega⟩ := by
      apply hget_congr
      rw [if_neg (show ¬(i.1 + 1 = l.length) by omega)]
      omega
    rw [e2fix] at he2
    exact hcore (l.length - 1) 1 (by omega) (by omega) he1 he2 (by omega)
  · by_cases hlast : i.1 + 1 = l.length
    · -- the maximum sits at the end: neighbors are the previous cell and
      -- the head
      have he1 := hstep (i.1 - 1) (by omega)
      have he2 := hstep i.1 i.2
      have e1fix : l.get ⟨if (i.1 - 1) + 1 = l.length then 0
          else (i.1 - 1) + 1, by split <;> omega⟩ = l.get ⟨i.1, i.2⟩ := by
        apply hget_congr
        rw [if_neg (show ¬((i.1 - 1) + 1 = l.length) by omega)]
        omega
      rw [e1fix] at he1
      have e2fix : l.get ⟨if i.1 + 1 = l.length then 0 else i.1 + 1,
          by split <;> omega⟩ = l.get ⟨0, by omega⟩ := by
        apply hget_congr
        rw [if_pos hlast]
      rw [e2fix] at he2
      exact hcore (i.1 - 1) 0 (by omega) (by omega) he1 he2 (by omega)
    · -- the maximum sits inside: neighbors are the previous and next cells
      have he1 := hstep (i.1 - 1) (by omega)
      have he2 := hstep i.1 i.2
      have e1fix : l.get ⟨if (i.1 - 1) + 1 = l.length then 0
          else (i.1 - 1) + 1, by split <;> omega⟩ = l.get ⟨i.1, i.2⟩ := by
        apply hget_congr
        rw [if_neg (show ¬((i.1 - 1) + 1 = l.length) by omega)]
        omega
      rw [e1fix] at he1
      have e2fix : l.get ⟨if i.1 + 1 = l.length then 0 else i.1 + 1,
          by split <;> omega⟩ = l.get ⟨i.1 + 1, by omega⟩ := by
        apply hget_congr
        rw [if_neg hlast]
      rw [e2fix] at he2
      exact hcore (i.1 - 1) (i.1 + 1) (by omega) (by omega) he1 he2 (by omega)


/-- C1: For every size ≥ 2, `MazeGenerator.generate` (whose carving pass is
    `carvePathFrom` from the center cell) produces a grid whose
    wall-permeability graph — adjacent cells connected exactly when the
    shared wall pair is absent — is a spanning tree over all size·size
    cells: any two in-bounds cells are connected, no cycle exists, and
    exactly size·size − 1 wall pairs are open. -/
theorem generate_spanning_tree (ρ : Nat → Nat) (n : Nat) (hn : 2 ≤ n) :
    (∀ p q : Nat × Nat, inBounds n p.1 p.2 → inBounds n q.1 q.2 →
      Conn n (carvedMaze ρ n) p q) ∧
    (∀ l : List (Nat × Nat), ¬ IsCycle n (carvedMaze ρ n) l) ∧
    openPairCnt n (carvedMaze ρ n) = n * n - 1 := by
  have hn1 : 1 ≤ n := by omega
  obtain ⟨h1, h2, htree, h4, h5⟩ := carvedMaze_master ρ n hn1
  refine ⟨?_, cycle_free n _ _ htree, carvedMaze_openPairCnt ρ n hn1⟩
  intro p q hp hq
  have hcp := conn_to_root n _ _ htree p
    (carvedMaze_complete ρ n hn1 p.1 p.2 hp.1 hp.2)
  have hcq := conn_to_root n _ _ htree q
    (carvedMaze_complete ρ n hn1 q.1 q.2 hq.1 hq.2)
  have hsymm : Symmetric (openAdj n (carvedMaze ρ n)) :=
    fun a b h => openAdj_symm n _ a b h
  exact Relation.ReflTransGen.trans hcp
    ((Relation.ReflTransGen.symmetric hsymm) hcq)

theorem generate_spanning_tree_witness :
    2 ≤ 2 ∧
    ((∀ p q : Nat × Nat, inBounds 2 p.1 p.2 → inBounds 2 q.1 q.2 →
      Conn 2 (carvedMaze (fun _ => 0) 2) p q) ∧
    (∀ l : List (Nat × Nat), ¬ IsCycle 2 (carvedMaze (fun _ => 0) 2) l) ∧
    openPairCnt 2 (carvedMaze (fun _ => 0) 2) = 2 * 2 - 1) :=
  ⟨by decide, generate_spanning_tree (fun _ => 0) 2 (by decide)⟩


/-! ### Dead ends: `calculateDistances` and `findSpecialDeadEnds`
    (maze.ts lines 114-172) -/

/-- `Object.values(cell.walls).filter(wall => wall).length`
    (maze.ts line 156), in the declaration order of the walls object
    (maze.ts lines 31-36). -/
def wallCount (st : St) (x y : Nat) : Nat :=
  ([Wall.north, Wall.south, Wall.east, Wall.west].filter
    (fun v => st.walls x y v)).length

/-- A cell with exactly one absent wall has wall count three. -/
theorem wallCount_eq_three (st : St) (x y : Nat) (w : Wall)
    (hw : st.walls x y w = false)
    (hv : ∀ v : Wall, v ≠ w → st.walls x y v = true) :
    wallCount st x y = 3 := by
  unfold wallCount
  cases w with
  | north =>
    have h1 := hv Wall.south (by intro h; exact Wall.noConfusion h)
    have h2 := hv Wall.east (by intro h; exact Wall.noConfusion h)
    have h3 := hv Wall.west (by intro h; exact Wall.noConfusion h)
    simp [List.filter, hw, h1, h2, h3]
  | south =>
    have h1 := hv Wall.north (by intro h; exact Wall.noConfusion h)
    have h2 := hv Wall.east (by intro h; exact Wall.noConfusion h)
    have h3 := hv Wall.west (by intro h; exact Wall.noConfusion h)
    simp [List.filter, hw, h1, h2, h3]
  | east =>
    have h1 := hv Wall.north (by intro h; exact Wall.noConfusion h)
    have h2 := hv Wall.south (by intro h; exact Wall.noConfusion h)
    have h3 := hv Wall.west (by intro h; exact Wall.noConfusion h)
    simp [List.filter, hw, h1, h2, h3]
  | west =>
    have h1 := hv Wall.north (by intro h; exact Wall.noConfusion h)
    have h2 := hv Wall.south (by intro h; exact Wall.noConfusion h)
    have h3 := hv Wall.east (by intro h; exact Wall.noConfusion h)
    simp [List.filter, hw, h1, h2, h3]

/-- Reachability over grid steps that avoid one fixed interior-column
    cell `(ax, ay)` with `ax, ay ≥ 1`. -/
theorem grid_reach_avoid (n : Nat) (P : Nat → Nat → Prop) (ax ay : Nat)
    (hax : ax < n) (hay : ay < n) (hax1 : 1 ≤ ax) (hay1 : 1 ≤ ay)
    (hW : ∀ x y, x < n → y < n → 0 < x → ¬(x - 1 = ax ∧ y = ay) →
      P x y → P (x - 1) y)
    (hE : ∀ x y, x < n → y < n → x + 1 < n → ¬(x + 1 = ax ∧ y = ay) →
      P x y → P (x + 1) y)
    (hN : ∀ x y, x < n → y < n → 0 < y → ¬(x = ax ∧ y - 1 = ay) →
      P x y → P x (y - 1))
    (hS : ∀ x y, x < n → y < n → y + 1 < n → ¬(x = ax ∧ y + 1 = ay) →
      P x y → P x (y + 1))
    (sx sy : Nat) (hsx : sx < n) (hsy : sy < n)
    (hsne : ¬(sx = ax ∧ sy = ay)) (hP : P sx sy) :
    ∀ a b, a < n → b < n → ¬(a = ax ∧ b = ay) → P a b := by
  -- westward walk along a row that misses the avoided cell
  have walkW : ∀ x y, x < n → y < n → y ≠ ay → P x y →
      ∀ k, k ≤ x → P (x - k) y := by
    intro x y hx hy hyne hp k
    induction k with
    | zero => intro _; simpa using hp
    | succ m ihm =>
      intro hk
      have hm := ihm (by omega)
      have := hW (x - m) y (by omega) hy (by omega) (by omega) hm
      have heq : x - m - 1 = x - (m + 1) := by omega
      rwa [heq] at this
  have walkE : ∀ x y, x < n → y < n → y ≠ ay → P x y →
      ∀ k, x + k < n → P (x + k) y := by
    intro x y hx hy hyne hp k
    induction k with
    | zero => intro _; simpa using hp
    | succ m ihm =>
      intro hk
      have hm := ihm (by omega)
      have := hE (x + m) y (by omega) hy (by omega) (by omega) hm
      have heq : x + m + 1 = x + (m + 1) := by omega
      rwa [heq] at this
  have walkN : ∀ x y, x < n → y < n → x ≠ ax → P x y →
      ∀ k, k ≤ y → P x (y - k) := by
    intro x y hx hy hxne hp k
    induction k with
    | zero => intro _; simpa using hp
    | succ m ihm =>
      intro hk
      have hm := ihm (by omega)
      have := hN x (y - m) hx (by omega) (by omega) (by omega) hm
      have heq : y - m - 1 = y - (m + 1) := by omega
      rwa [heq] at this
  have walkS : ∀ x y, x < n → y < n → x ≠ ax → P x y →
      ∀ k, y + k < n → P x (y + k) := by
    intro x y hx hy hxne hp k
    induction k with
    | zero => intro _; simpa using hp
    | succ m ihm =>
      intro hk
      have hm := ihm (by omega)
      have := hS x (y + m) hx (by omega) (by omega) (by omega) hm
      have heq : y + m + 1 = y + (m + 1) := by omega
      rwa [heq] at this
  -- reach the grid corner (0, 0)
  have hcorner : P 0 0 := by
    by_cases hrow : sy = ay
    · have hxne : sx ≠ ax := fun h => hsne ⟨h, hrow⟩
      have h1 : P sx 0 := by
        have := walkN sx sy hsx hsy hxne hP sy (by omega)
        simpa using this
      have h2 := walkW sx 0 hsx (by omega) (by omega) h1 sx (by omega)
      simpa using h2
    · have h1 : P 0 sy := by
        have := walkW sx sy hsx hsy hrow hP sx (by omega)
        simpa using this
      have h2 := walkN 0 sy (by omega) hsy (by omega) h1 sy (by omega)
      simpa using h2
  -- spread from the corner to any non-avoided cell
  intro a b ha hb habne
  by_cases hrow : b = ay
  · have hane : a ≠ ax := fun h => habne ⟨h, hrow⟩
    have h1 : P a 0 := by
      have := walkE 0 0 (by omega) (by omega) (by omega) hcorner a (by omega)
      simpa using this
    have h2 := walkS a 0 ha (by omega) hane h1 b (by omega)
    simpa using h2
  · have h1 : P 0 b := by
      have := walkS 0 0 (by omega) (by omega) (by omega) hcorner b (by omega)
      simpa using this
    have h2 := walkE 0 b (by omega) hb hrow h1 a (by omega)
    simpa using h2

/-- The target of a direction triple differs from its source cell. -/
theorem dirOK_target_ne (n x y : Nat) (d : Nat × Nat × Wall)
    (h : dirOK n x y d) : (d.1, d.2.1) ≠ (x, y) := by
  obtain ⟨_, hcase⟩ := h
  rcases hcase with ⟨_, hb, h1, h2⟩ | ⟨_, hb, h1, h2⟩ | ⟨_, hb, h1, h2⟩ | ⟨_, hb, h1, h2⟩ <;>
    intro heq <;>
    have e1 := congrArg Prod.fst heq <;>
    have e2 := congrArg Prod.snd heq <;>
    simp only at e1 e2 <;> omega


/-- The first loop iteration at the start cell opens exactly one wall and
    then recursive carving visits every remaining cell (the grid minus an
    interior cell stays connected), so the remaining iterations are
    no-ops: the start cell ends with exactly one wall removed. -/
theorem start_leaf_general (ρ : Nat → Nat) (n : Nat) (root : Nat × Nat)
    (fuel sx sy : Nat) (dirs : List (Nat × Nat × Wall)) (stv : St)
    (hsx1 : 1 ≤ sx) (hsxn : sx < n) (hsy1 : 1 ≤ sy) (hsyn : sy < n)
    (hfuel : unvisCnt n stv ≤ fuel)
    (hvisxy : stv.visited sx sy = true)
    (hvisother : ∀ a b, ¬(a = sx ∧ b = sy) → stv.visited a b = false)
    (hwalls : ∀ a b v, stv.walls a b v = true)
    (htree : TreeInv n stv root)
    (hdirs : ∀ d ∈ dirs, dirOK n sx sy d)
    (hdne : dirs ≠ [])
    (htargets : ∀ d ∈ dirs, stv.visited d.1 d.2.1 = false) :
    ∃ w : Wall,
      (carveDirs ρ n fuel sx sy dirs stv).walls sx sy w = false ∧
      ∀ v : Wall, v ≠ w →
        (carveDirs ρ n fuel sx sy dirs stv).walls sx sy v = true := by
  obtain ⟨d, rest, hdcons⟩ := List.exists_cons_of_ne_nil hdne
  subst hdcons
  obtain ⟨nx, ny, w⟩ := d
  have hok := hdirs (nx, ny, w) (List.mem_cons_self _ _)
  have htgt : stv.visited nx ny = false :=
    htargets (nx, ny, w) (List.mem_cons_self _ _)
  have hnv : ¬(stv.visited nx ny = true) := by
    rw [htgt]
    simp
  unfold carveDirs
  rw [if_neg hnv]
  unfold_let
  have hup : ∀ v, stv.walls nx ny v = true := fun v => hwalls nx ny v
  obtain ⟨bvis, bcnt, badj, bwmono, bstable, bnewh, bnewv⟩ :=
    removePair_bundle n sx sy nx ny w stv hok hup
  have htne : ((nx, ny) : Nat × Nat) ≠ (sx, sy) :=
    dirOK_target_ne n sx sy (nx, ny, w) hok
  have hcne : ¬(sx = nx ∧ sy = ny) := by
    intro hc
    exact htne (by rw [hc.1, hc.2])
  have htree2 : TreeInv n
      (removeWall nx ny (getOppositeWall w) (removeWall sx sy w stv)) root :=
    treeInv_extend n stv _ root (sx, sy) (nx, ny) bvis bwmono hvisxy htgt hup
      bnewh bnewv htree
  have hUWT2 : unvisitedWallsUp
      (removeWall nx ny (getOppositeWall w) (removeWall sx sy w stv))
      (nx, ny) := by
    intro a b hv hne v
    have hvst : stv.visited a b = false := by rw [← bvis a b]; exact hv
    have hnexy : (a, b) ≠ (sx, sy) := by
      intro he
      have e1 : a = sx := congrArg Prod.fst he
      have e2 : b = sy := congrArg Prod.snd he
      rw [e1, e2, hvisxy] at hvst
      exact Bool.noConfusion hvst
    rw [bstable a b v hnexy hne]
    exact hwalls a b v
  have hfuel2 : unvisCnt n
      (removeWall nx ny (getOppositeWall w) (removeWall sx sy w stv)) ≤ fuel :=
    hfuel
  have hpend2 : ((nx, ny) : Nat × Nat) = root ∨
      ∃ u : Nat × Nat, (removeWall nx ny (getOppositeWall w)
        (removeWall sx sy w stv)).visited u.1 u.2 = true ∧
        openAdj n (removeWall nx ny (getOppositeWall w)
          (removeWall sx sy w stv)) u (nx, ny) := by
    right
    exact ⟨(sx, sy), by rw [bvis]; exact hvisxy, badj⟩
  obtain ⟨k2, kUWT3, ktree3, kcnt3, kclosure3⟩ :=
    (carve_main ρ n root fuel).1 nx ny _ hfuel2
      (dirOK_target_inB n sx sy (nx, ny, w) hok)
      (by rw [bvis]; exact htgt) hUWT2 htree2 hpend2
  -- the nested call visits every cell of the grid
  have hall : ∀ a b, a < n → b < n →
      (carve ρ n fuel nx ny (removeWall nx ny (getOppositeWall w)
        (removeWall sx sy w stv))).visited a b = true := by
    have hinb := dirOK_target_inB n sx sy (nx, ny, w) hok
    have havoid := grid_reach_avoid n
      (fun a b => (carve ρ n fuel nx ny (removeWall nx ny (getOppositeWall w)
        (removeWall sx sy w stv))).visited a b = true ∧ ¬(a = sx ∧ b = sy))
      sx sy hsxn hsyn hsx1 hsy1
      (by
        intro x y hx hy hpos hne hp
        refine ⟨kclosure3 x y hp.1 (by rw [bvis]; exact hvisother x y hp.2)
          (x - 1, y, Wall.west) ⟨⟨hx, hy⟩, Or.inl ⟨rfl, hpos, rfl, rfl⟩⟩, hne⟩)
      (by
        intro x y hx hy hlt hne hp
        refine ⟨kclosure3 x y hp.1 (by rw [bvis]; exact hvisother x y hp.2)
          (x + 1, y, Wall.east)
          ⟨⟨hx, hy⟩, Or.inr (Or.inl ⟨rfl, hlt, rfl, rfl⟩)⟩, hne⟩)
      (by
        intro x y hx hy hpos hne hp
        refine ⟨kclosure3 x y hp.1 (by rw [bvis]; exact hvisother x y hp.2)
          (x, y - 1, Wall.north)
          ⟨⟨hx, hy⟩, Or.inr (Or.inr (Or.inl ⟨rfl, hpos, rfl, rfl⟩))⟩, hne⟩)
      (by
        intro x y hx hy hlt hne hp
        refine ⟨kclosure3 x y hp.1 (by rw [bvis]; exact hvisother x y hp.2)
          (x, y + 1, Wall.south)
          ⟨⟨hx, hy⟩, Or.inr (Or.inr (Or.inr ⟨rfl, hlt, rfl, rfl⟩))⟩, hne⟩)
      nx ny hinb.1 hinb.2
      (by
        intro hc
        exact htne (by rw [hc.1, hc.2]))
      ⟨k2, by
        intro hc
        exact htne (by rw [hc.1, hc.2])⟩
    intro a b ha hb
    by_cases hcs : a = sx ∧ b = sy
    · rw [hcs.1, hcs.2]
      exact carve_vis_mono ρ n fuel nx ny _ sx sy (by rw [bvis]; exact hvisxy)
    · exact (havoid a b ha hb hcs).1
  have hrest : ∀ d' ∈ rest,
      (carve ρ n fuel nx ny (removeWall nx ny (getOppositeWall w)
        (removeWall sx sy w stv))).visited d'.1 d'.2.1 = true := by
    intro d' hd'
    have hok' := hdirs d' (List.mem_cons_of_mem _ hd')
    have hin := dirOK_target_inB n sx sy d' hok'
    exact hall d'.1 d'.2.1 hin.1 hin.2
  rw [carveDirs_all_visited ρ n fuel sx sy rest _ hrest]
  -- the nested call never touches the start cell's walls
  have hstw : ∀ v, (carve ρ n fuel nx ny (removeWall nx ny (getOppositeWall w)
      (removeWall sx sy w stv))).walls sx sy v =
      (removeWall nx ny (getOppositeWall w)
        (removeWall sx sy w stv)).walls sx sy v := by
    intro v
    by_contra hne'
    rcases carve_wallStable ρ n fuel nx ny _ sx sy v hne' with heq' | hunv
    · exact htne heq'.symm
    · rw [bvis, hvisxy] at hunv
      exact Bool.noConfusion hunv
  -- the start cell's walls after the two removals: exactly `w` is down
  have hswv : ∀ v, (removeWall nx ny (getOppositeWall w)
      (removeWall sx sy w stv)).walls sx sy v =
      if v = w then false else stv.walls sx sy v := by
    intro v
    rw [removeWall_walls, removeWall_walls]
    rw [if_neg (by
      intro hc
      exact hcne ⟨hc.1, hc.2.1⟩)]
    by_cases hvw : v = w
    · rw [if_pos ⟨rfl, rfl, hvw⟩, if_pos hvw]
    · rw [if_neg (by
        intro hc
        exact hvw hc.2.2), if_neg hvw]
  refine ⟨w, ?_, ?_⟩
  · rw [hstw w, hswv w, if_pos rfl]
  · intro v hv
    rw [hstw v, hswv v, if_neg hv]
    exact hwalls sx sy v


/-- In the carved maze the start cell keeps exactly three walls: it is a
    dead end. -/
theorem carvedMaze_start_leaf (ρ : Nat → Nat) (n : Nat) (hn : 2 ≤ n) :
    ∃ w : Wall, (carvedMaze ρ n).walls (n / 2) (n / 2) w = false ∧
      ∀ v : Wall, v ≠ w → (carvedMaze ρ n).walls (n / 2) (n / 2) v = true := by
  have hnn : 1 ≤ n * n := Nat.one_le_iff_ne_zero.mpr (by positivity)
  have hfs : n * n = (n * n - 1) + 1 := by omega
  have heq : carvedMaze ρ n = carveDirs ρ n (n * n - 1) (n / 2) (n / 2)
      (shuffleDirs ρ (visitCell (n / 2) (n / 2) initSt).ctr
        (getUnvisitedNeighbors n (visitCell (n / 2) (n / 2) initSt)
          (n / 2) (n / 2))).1
      { visitCell (n / 2) (n / 2) initSt with
        ctr := (shuffleDirs ρ (visitCell (n / 2) (n / 2) initSt).ctr
          (getUnvisitedNeighbors n (visitCell (n / 2) (n / 2) initSt)
            (n / 2) (n / 2))).2 } := by
    unfold carvedMaze
    rw [hfs]
    unfold carve
    rfl
  rw [heq]
  have hxy : inBounds n (n / 2) (n / 2) := ⟨by omega, by omega⟩
  have hvis2 : ∀ a b, ({ visitCell (n / 2) (n / 2) initSt with
      ctr := (shuffleDirs ρ (visitCell (n / 2) (n / 2) initSt).ctr
        (getUnvisitedNeighbors n (visitCell (n / 2) (n / 2) initSt)
          (n / 2) (n / 2))).2 } : St).visited a b =
      if a = n / 2 ∧ b = n / 2 then true else initSt.visited a b :=
    fun a b => rfl
  refine start_leaf_general ρ n (startCell n) (n * n - 1) (n / 2) (n / 2) _ _
    (by omega) (by omega) (by omega) (by omega) ?_ ?_ ?_ (fun a b v => rfl)
    ?_ ?_ ?_ ?_
  · -- fuel bound: one cell is already visited
    have hdec := unvisCnt_visitCell n (n / 2) (n / 2) initSt hxy rfl
    have hsame : unvisCnt n ({ visitCell (n / 2) (n / 2) initSt with
        ctr := (shuffleDirs ρ (visitCell (n / 2) (n / 2) initSt).ctr
          (getUnvisitedNeighbors n (visitCell (n / 2) (n / 2) initSt)
            (n / 2) (n / 2))).2 } : St) =
        unvisCnt n (visitCell (n / 2) (n / 2) initSt) := rfl
    have hinit := unvisCnt_init n
    omega
  · rw [hvis2]
    rw [if_pos ⟨rfl, rfl⟩]
  · intro a b hne
    rw [hvis2, if_neg hne]
    rfl
  · exact treeInv_visit n initSt _ (startCell n) (n / 2) (n / 2) hvis2
      (fun a b v => rfl) rfl (Or.inl rfl) (treeInv_init n (startCell n))
  · intro d hd
    exact (getUnvisitedNeighbors_sound n (visitCell (n / 2) (n / 2) initSt)
      (n / 2) (n / 2) hxy d ((shuffleDirs_mem ρ _ _ d).mp hd)).1
  · -- the west neighbor of the start cell is in the direction list
    have hokw : dirOK n (n / 2) (n / 2) (n / 2 - 1, n / 2, Wall.west) :=
      ⟨hxy, Or.inl ⟨rfl, by omega, rfl, rfl⟩⟩
    have hunv : (visitCell (n / 2) (n / 2) initSt).visited (n / 2 - 1)
        (n / 2) = false := by
      rw [visitCell_visited, if_neg (by
        intro hc
        omega)]
      rfl
    have hmem := getUnvisitedNeighbors_complete n
      (visitCell (n / 2) (n / 2) initSt) (n / 2) (n / 2)
      (n / 2 - 1, n / 2, Wall.west) hokw hunv
    exact List.ne_nil_of_mem ((shuffleDirs_mem ρ _ _ _).mpr hmem)
  · intro d hd
    exact (getUnvisitedNeighbors_sound n (visitCell (n / 2) (n / 2) initSt)
      (n / 2) (n / 2) hxy d ((shuffleDirs_mem ρ _ _ d).mp hd)).2


/-- The cell on the far side of a wall. -/
def nbrOf (m : Nat × Nat) (v : Wall) : Nat × Nat :=
  match v with
  | Wall.west => (m.1 - 1, m.2)
  | Wall.east => (m.1 + 1, m.2)
  | Wall.north => (m.1, m.2 - 1)
  | Wall.south => (m.1, m.2 + 1)

/-- With symmetric in-bounds walls, a cleared wall yields an open
    adjacency to the neighbor behind it. -/
theorem false_wall_openAdj (n : Nat) (st : St) (hsym : wallsSym st)
    (hinB : wallsInB n st) (m1 m2 : Nat) (v : Wall)
    (hf : st.walls m1 m2 v = false) :
    openAdj n st (m1, m2) (nbrOf (m1, m2) v) := by
  have hb := hinB m1 m2 v hf
  cases v with
  | east =>
    simp only [nbrOf]
    obtain ⟨h1, h2⟩ := hb
    refine ⟨⟨by omega, h2⟩, ⟨h1, h2⟩, Or.inl ⟨rfl, hf, ?_⟩⟩
    rw [← (hsym m1 m2).1]
    exact hf
  | west =>
    simp only [nbrOf]
    obtain ⟨h1, h2, h3⟩ := hb
    have hm : m1 - 1 + 1 = m1 := by omega
    refine ⟨⟨h2, h3⟩, ⟨by omega, h3⟩, Or.inr (Or.inl ⟨?_, ?_, ?_⟩)⟩
    · show (m1, m2) = ((m1 - 1) + 1, m2)
      rw [hm]
    · have hs := (hsym (m1 - 1) m2).1
      rw [hm] at hs
      rw [hs]
      exact hf
    · show st.walls (m1 - 1 + 1) m2 Wall.west = false
      rw [hm]
      exact hf
  | south =>
    simp only [nbrOf]
    obtain ⟨h1, h2⟩ := hb
    refine ⟨⟨h2, by omega⟩, ⟨h2, h1⟩, Or.inr (Or.inr (Or.inl ⟨rfl, hf, ?_⟩))⟩
    rw [← (hsym m1 m2).2]
    exact hf
  | north =>
    simp only [nbrOf]
    obtain ⟨h1, h2, h3⟩ := hb
    have hm : m2 - 1 + 1 = m2 := by omega
    refine ⟨⟨h2, h3⟩, ⟨h2, by omega⟩, Or.inr (Or.inr (Or.inr ⟨?_, ?_, ?_⟩))⟩
    · show (m1, m2) = (m1, (m2 - 1) + 1)
      rw [hm]
    · have hs := (hsym m1 (m2 - 1)).2
      rw [hm] at hs
      rw [hs]
      exact hf
    · show st.walls m1 (m2 - 1 + 1) Wall.north = false
      rw [hm]
      exact hf

/-- Distinct cleared walls of one cell lead to distinct neighbors. -/
theorem nbrOf_ne (n : Nat) (st : St) (hinB : wallsInB n st) (m1 m2 : Nat)
    (v1 v2 : Wall) (hne : v1 ≠ v2) (h1 : st.walls m1 m2 v1 = false)
    (h2 : st.walls m1 m2 v2 = false) :
    nbrOf (m1, m2) v1 ≠ nbrOf (m1, m2) v2 := by
  have hb1 := hinB m1 m2 v1 h1
  have hb2 := hinB m1 m2 v2 h2
  cases v1 <;> cases v2 <;>
    first
    | exact absurd rfl hne
    | (simp only [slotInB] at hb1 hb2
       intro heq
       have e1 := congrArg Prod.fst heq
       have e2 := congrArg Prod.snd heq
       simp only [nbrOf] at e1 e2
       omega)

/-- Besides the start cell, the carved maze has a second dead end: the
    visited cell of maximal rank keeps exactly one open wall, the one to
    its parent. -/
theorem carvedMaze_second_leaf (ρ : Nat → Nat) (n : Nat) (hn : 2 ≤ n) :
    ∃ m : Nat × Nat, inBounds n m.1 m.2 ∧ m ≠ startCell n ∧
      wallCount (carvedMaze ρ n) m.1 m.2 = 3 := by
  obtain ⟨h1, h2, htree, h4, h5⟩ := carvedMaze_master ρ n (by omega)
  have hsym := carvedMaze_wallsSym ρ n
  have hinB := carvedMaze_wallsInB ρ n
  have hcomp := carvedMaze_complete ρ n (by omega)
  obtain ⟨ord, par, B, hB, hH, hV, hc⟩ := htree
  have hroot_lt : ∀ k, ∀ p : Nat × Nat, ord p = k →
      (carvedMaze ρ n).visited p.1 p.2 = true → p ≠ startCell n →
      ord (startCell n) < ord p := by
    intro k
    induction k using Nat.strong_induction_on with
    | _ k ih =>
      intro p hk hv hne
      obtain ⟨hadj, hpv, hlt⟩ := hc p hv hne
      by_cases hpr : par p = startCell n
      · rw [hpr] at hlt
        exact hlt
      · have := ih (ord (par p)) (by omega) (par p) rfl hpv hpr
        omega
  have hne0 : (gridFinset n).Nonempty :=
    ⟨(0, 0), (mem_gridFinset n _).mpr ⟨by omega, by omega⟩⟩
  obtain ⟨m, hmg, hmax⟩ := Finset.exists_max_image (gridFinset n)
    (fun p => ord p) hne0
  obtain ⟨m1, m2⟩ := m
  have hminB : inBounds n m1 m2 := by
    have := (mem_gridFinset n (m1, m2)).mp hmg
    exact ⟨this.1, this.2⟩
  have hmvis : (carvedMaze ρ n).visited m1 m2 = true :=
    hcomp m1 m2 hminB.1 hminB.2
  have h00 : ((0, 0) : Nat × Nat) ≠ startCell n := by
    intro heq
    have e1 := congrArg Prod.fst heq
    simp only [startCell] at e1
    omega
  have h00v : (carvedMaze ρ n).visited 0 0 = true :=
    hcomp 0 0 (by omega) (by omega)
  have hmne : ((m1, m2) : Nat × Nat) ≠ startCell n := by
    intro heq
    have hlt := hroot_lt (ord (0, 0)) (0, 0) rfl h00v h00
    have hle : ord (0, 0) ≤ ord (m1, m2) :=
      hmax (0, 0) ((mem_gridFinset n _).mpr ⟨by omega, by omega⟩)
    rw [heq] at hle
    omega
  obtain ⟨hadj, hpv, hlt⟩ := hc (m1, m2) hmvis hmne
  have hopen : ∃ v : Wall, (carvedMaze ρ n).walls m1 m2 v = false := by
    obtain ⟨hbp, hbm, hcase⟩ := hadj
    rcases hcase with ⟨he, ho⟩ | ⟨he, ho⟩ | ⟨he, ho⟩ | ⟨he, ho⟩
    · refine ⟨Wall.west, ?_⟩
      have e1 := congrArg Prod.fst he
      have e2 := congrArg Prod.snd he
      simp only at e1 e2
      have he2 := ho.2
      rw [← e1] at he2
      rw [← e2] at he2
      exact he2
    · exact ⟨Wall.east, ho.1⟩
    · refine ⟨Wall.north, ?_⟩
      have e1 := congrArg Prod.fst he
      have e2 := congrArg Prod.snd he
      simp only at e1 e2
      have he2 := ho.2
      rw [← e2] at he2
      rw [← e1] at he2
      exact he2
    · exact ⟨Wall.south, ho.1⟩
  obtain ⟨w0, hw0⟩ := hopen
  have huniq : ∀ v : Wall, (carvedMaze ρ n).walls m1 m2 v = false →
      par (m1, m2) = nbrOf (m1, m2) v := by
    intro v hv
    have hadj2 := false_wall_openAdj n _ hsym hinB m1 m2 v hv
    have hec := edge_cases n _ ord par hH hV (nbrOf (m1, m2) v) (m1, m2)
      (openAdj_symm n _ _ _ hadj2)
    rcases hec with ⟨hp, _, _⟩ | ⟨_, hlt2, _⟩
    · exact hp
    · have hnb := hadj2.2.1
      have hle : ord (nbrOf (m1, m2) v) ≤ ord (m1, m2) :=
        hmax (nbrOf (m1, m2) v) ((mem_gridFinset n _).mpr ⟨hnb.1, hnb.2⟩)
      omega
  have htrue : ∀ v : Wall, v ≠ w0 → (carvedMaze ρ n).walls m1 m2 v = true := by
    intro v hv
    by_contra hfv
    have hfv' : (carvedMaze ρ n).walls m1 m2 v = false := by
      simpa using hfv
    have q1 := huniq v hfv'
    have q2 := huniq w0 hw0
    exact nbrOf_ne n _ hinB m1 m2 v w0 hv hfv' hw0 (by rw [← q1, q2])
  exact ⟨(m1, m2), hminB, hmne,
    wallCount_eq_three (carvedMaze ρ n) m1 m2 w0 hw0 htrue⟩


/-- Distance map plus pending BFS queue for `calculateDistances`. -/
structure DState where
  dist : Nat → Nat → ℕ∞
  queue : List (Nat × Nat × Nat)

/-- The four directions scanned by the distance BFS, in source order
    (maze.ts lines 128-133): north, south, east, west as (dx, dy, wall). -/
def bfsDirs : List (Int × Int × Wall) :=
  [(0, -1, Wall.north), (0, 1, Wall.south),
    (1, 0, Wall.east), (-1, 0, Wall.west)]

/-- One `directions.forEach` body of the BFS (maze.ts lines 135-147):
    bounds check, the current cell's wall flag, then relax and enqueue. -/
def relaxDir (n : Nat) (st : St) (x y d : Nat) (dir : Int × Int × Wall)
    (ds : DState) : DState :=
  let nx : Int := (x : Int) + dir.1
  let ny : Int := (y : Int) + dir.2.1
  if 0 ≤ nx ∧ nx < (n : Int) ∧ 0 ≤ ny ∧ ny < (n : Int) ∧
      st.walls x y dir.2.2 = false then
    if ((d + 1 : Nat) : ℕ∞) < ds.dist nx.toNat ny.toNat then
      { dist := fun a b => if a = nx.toNat ∧ b = ny.toNat
          then ((d + 1 : Nat) : ℕ∞) else ds.dist a b,
        queue := ds.queue ++ [(nx.toNat, ny.toNat, d + 1)] }
    else ds
  else ds

/-- The BFS while-loop (maze.ts lines 124-148), one shift per fuel. -/
def calcLoop (n : Nat) (st : St) : Nat → DState → (Nat → Nat → ℕ∞)
  | 0, ds => ds.dist
  | fuel + 1, ds =>
    match ds.queue with
    | [] => ds.dist
    | (x, y, d) :: rest =>
      calcLoop n st fuel
        (bfsDirs.foldl (fun acc dir => relaxDir n st x y d dir acc)
          { dist := ds.dist, queue := rest })

/-- `calculateDistances` (maze.ts lines 114-149): every distance starts at
    Infinity, the start gets 0 and seeds the queue. The loop terminates
    well within `n⁴` shifts. -/
def calculateDistances (n : Nat) (st : St) (sx sy : Nat) :
    Nat → Nat → ℕ∞ :=
  calcLoop n st (n * n * n * n)
    { dist := fun a b => if a = sx ∧ b = sy then 0 else ⊤,
      queue := [(sx, sy, 0)] }

/-- The distance-map invariant: the start keeps label 0 and no other cell
    ever receives label 0. -/
def DInv (sx sy : Nat) (f : Nat → Nat → ℕ∞) : Prop :=
  f sx sy = 0 ∧ ∀ a b, ¬(a = sx ∧ b = sy) → f a b ≠ 0

/-- A single relaxation step preserves the invariant. -/
theorem relaxDir_DInv (n : Nat) (st : St) (sx sy x y d : Nat)
    (dir : Int × Int × Wall) (ds : DState) (h : DInv sx sy ds.dist) :
    DInv sx sy (relaxDir n st x y d dir ds).dist := by
  unfold relaxDir
  unfold_let
  split_ifs with h1 h2
  · constructor
    · show (if sx = ((x : Int) + dir.1).toNat ∧
          sy = ((y : Int) + dir.2.1).toNat then ((d + 1 : Nat) : ℕ∞)
          else ds.dist sx sy) = 0
      rw [if_neg, h.1]
      intro hc
      rw [← hc.1, ← hc.2, h.1] at h2
      exact lt_irrefl _ (lt_of_lt_of_le h2 (zero_le _))
    · intro a b hne
      show (if a = ((x : Int) + dir.1).toNat ∧
          b = ((y : Int) + dir.2.1).toNat then ((d + 1 : Nat) : ℕ∞)
          else ds.dist a b) ≠ 0
      by_cases hc : a = ((x : Int) + dir.1).toNat ∧
          b = ((y : Int) + dir.2.1).toNat
      · rw [if_pos hc]
        simp
      · rw [if_neg hc]
        exact h.2 a b hne
  · exact h
  · exact h

/-- The direction fold preserves the invariant. -/
theorem foldRelax_DInv (n : Nat) (st : St) (sx sy x y d : Nat) :
    ∀ (l : List (Int × Int × Wall)) (ds : DState), DInv sx sy ds.dist →
      DInv sx sy
        ((l.foldl (fun acc dir => relaxDir n st x y d dir acc) ds).dist) := by
  intro l
  induction l with
  | nil => intro ds h; exact h
  | cons a t ih =>
    intro ds h
    exact ih (relaxDir n st x y d a ds) (relaxDir_DInv n st sx sy x y d a ds h)

/-- The BFS loop preserves the invariant. -/
theorem calcLoop_DInv (n : Nat) (st : St) (sx sy : Nat) :
    ∀ (fuel : Nat) (ds : DState), DInv sx sy ds.dist →
      DInv sx sy (calcLoop n st fuel ds) := by
  intro fuel
  induction fuel with
  | zero => intro ds h; exact h
  | succ f ih =>
    intro ds h
    obtain ⟨dd, dq⟩ := ds
    rcases dq with _ | ⟨⟨qx, qy, qd⟩, rest⟩
    · exact h
    · exact ih _ (foldRelax_DInv n st sx sy qx qy qd bfsDirs
        { dist := dd, queue := rest } h)

/-- The produced distance map labels the start 0 and every other cell
    nonzero. -/
theorem calculateDistances_DInv (n : Nat) (st : St) (sx sy : Nat) :
    DInv sx sy (calculateDistances n st sx sy) := by
  apply calcLoop_DInv
  constructor
  · show (if sx = sx ∧ sy = sy then (0 : ℕ∞) else ⊤) = 0
    rw [if_pos ⟨rfl, rfl⟩]
  · intro a b hne
    show (if a = sx ∧ b = sy then (0 : ℕ∞) else ⊤) ≠ 0
    rw [if_neg hne]
    simp

/-- Dead-end cells in the traversal order of `findSpecialDeadEnds`
    (maze.ts lines 155-161): row-major over `grid[x][y]`, keeping cells
    with exactly three walls. -/
def deadEnds (n : Nat) (st : St) : List (Nat × Nat) :=
  (List.range n).flatMap (fun x =>
    ((List.range n).filter (fun y => wallCount st x y == 3)).map
      (fun y => (x, y)))

theorem mem_deadEnds (n : Nat) (st : St) (p : Nat × Nat) :
    p ∈ deadEnds n st ↔ p.1 < n ∧ p.2 < n ∧ wallCount st p.1 p.2 = 3 := by
  unfold deadEnds
  simp only [List.mem_flatMap, List.mem_map, List.mem_filter, List.mem_range,
    beq_iff_eq]
  constructor
  · rintro ⟨x, hx, y, ⟨hy, hf⟩, hp⟩
    rw [← hp]
    exact ⟨hx, hy, hf⟩
  · rintro ⟨h1, h2, h3⟩
    exact ⟨p.1, h1, p.2, ⟨h2, h3⟩, rfl⟩

/-- The `reduce` selecting the closest dead end (maze.ts lines 164-166). -/
def reduceMin (dist : Nat → Nat → ℕ∞) (init : Nat × Nat)
    (l : List (Nat × Nat)) : Nat × Nat :=
  l.foldl (fun closest current =>
    if dist current.1 current.2 < dist closest.1 closest.2 then current
    else closest) init

/-- The `reduce` selecting the farthest dead end (maze.ts lines 169-171). -/
def reduceMax (dist : Nat → Nat → ℕ∞) (init : Nat × Nat)
    (l : List (Nat × Nat)) : Nat × Nat :=
  l.foldl (fun farthest current =>
    if dist farthest.1 farthest.2 < dist current.1 current.2 then current
    else farthest) init

/-- `findSpecialDeadEnds` (maze.ts lines 151-172): both reduces start from
    `deadEnds[0]` and scan the whole list; with no dead ends the source
    would yield `undefined`, modelled as `none`. -/
def findSpecialDeadEnds (n : Nat) (st : St) (dist : Nat → Nat → ℕ∞) :
    Option ((Nat × Nat) × (Nat × Nat)) :=
  match deadEnds n st with
  | [] => none
  | d0 :: ds => some (reduceMin dist d0 (d0 :: ds), reduceMax dist d0 (d0 :: ds))

/-- The min-reduce result is no farther than the seed and than any listed
    cell. -/
theorem reduceMin_le (dist : Nat → Nat → ℕ∞) :
    ∀ (l : List (Nat × Nat)) (init : Nat × Nat),
      dist (reduceMin dist init l).1 (reduceMin dist init l).2 ≤
        dist init.1 init.2 ∧
      ∀ x ∈ l, dist (reduceMin dist init l).1 (reduceMin dist init l).2 ≤
        dist x.1 x.2 := by
  intro l
  induction l with
  | nil =>
    intro init
    exact ⟨le_refl _, fun x hx => absurd hx (List.not_mem_nil x)⟩
  | cons a t ih =>
    intro init
    have hstep : reduceMin dist init (a :: t) =
        reduceMin dist
          (if dist a.1 a.2 < dist init.1 init.2 then a else init) t := rfl
    rw [hstep]
    obtain ⟨ih1, ih2⟩ := ih (if dist a.1 a.2 < dist init.1 init.2 then a
      else init)
    refine ⟨?_, ?_⟩
    · by_cases hc : dist a.1 a.2 < dist init.1 init.2
      · rw [if_pos hc] at ih1 ⊢
        exact le_trans ih1 (le_of_lt hc)
      · rw [if_neg hc] at ih1 ⊢
        exact ih1
    · intro x hx
      rcases List.mem_cons.mp hx with he | hx'
      · rw [he]
        by_cases hc : dist a.1 a.2 < dist init.1 init.2
        · rw [if_pos hc] at ih1 ⊢
          exact ih1
        · rw [if_neg hc] at ih1 ⊢
          exact le_trans ih1 (not_lt.mp hc)
      · exact ih2 x hx'

/-- The max-reduce result is no closer than the seed and than any listed
    cell. -/
theorem reduceMax_ge (dist : Nat → Nat → ℕ∞) :
    ∀ (l : List (Nat × Nat)) (init : Nat × Nat),
      dist init.1 init.2 ≤
        dist (reduceMax dist init l).1 (reduceMax dist init l).2 ∧
      ∀ x ∈ l, dist x.1 x.2 ≤
        dist (reduceMax dist init l).1 (reduceMax dist init l).2 := by
  intro l
  induction l with
  | nil =>
    intro init
    exact ⟨le_refl _, fun x hx => absurd hx (List.not_mem_nil x)⟩
  | cons a t ih =>
    intro init
    have hstep : reduceMax dist init (a :: t) =
        reduceMax dist
          (if dist init.1 init.2 < dist a.1 a.2 then a else init) t := rfl
    rw [hstep]
    obtain ⟨ih1, ih2⟩ := ih (if dist init.1 init.2 < dist a.1 a.2 then a
      else init)
    refine ⟨?_, ?_⟩
    · by_cases hc : dist init.1 init.2 < dist a.1 a.2
      · rw [if_pos hc] at ih1 ⊢
        exact le_trans (le_of_lt hc) ih1
      · rw [if_neg hc] at ih1 ⊢
        exact ih1
    · intro x hx
      rcases List.mem_cons.mp hx with he | hx'
      · rw [he]
        by_cases hc : dist init.1 init.2 < dist a.1 a.2
        · rw [if_pos hc] at ih1 ⊢
          exact ih1
        · rw [if_neg hc] at ih1 ⊢
          exact le_trans (not_lt.mp hc) ih1
      · exact ih2 x hx'


/-- C3: For every generated maze with size ≥ 2, `findSpecialDeadEnds`
    selects a closest dead end and a farthest dead end (by
    `distanceFromCenter` as computed by `calculateDistances` from the
    center start cell), and the two selected cells are distinct: the
    start is itself a dead end at distance 0, while a second dead end
    exists whose distance is nonzero. -/
theorem specialDeadEnds_distinct (ρ : Nat → Nat) (n : Nat) (hn : 2 ≤ n) :
    ∃ c f : Nat × Nat,
      findSpecialDeadEnds n (carvedMaze ρ n)
        (calculateDistances n (carvedMaze ρ n) (n / 2) (n / 2)) =
        some (c, f) ∧ c ≠ f := by
  obtain ⟨w0, hw0, hw0t⟩ := carvedMaze_start_leaf ρ n hn
  have hstart3 : wallCount (carvedMaze ρ n) (n / 2) (n / 2) = 3 :=
    wallCount_eq_three (carvedMaze ρ n) (n / 2) (n / 2) w0 hw0 hw0t
  have hstartmem : ((n / 2, n / 2) : Nat × Nat) ∈ deadEnds n (carvedMaze ρ n) :=
    (mem_deadEnds n (carvedMaze ρ n) _).mpr ⟨by omega, by omega, hstart3⟩
  obtain ⟨m, hmB, hmne, hm3⟩ := carvedMaze_second_leaf ρ n hn
  obtain ⟨m1, m2⟩ := m
  have hmmem : ((m1, m2) : Nat × Nat) ∈ deadEnds n (carvedMaze ρ n) :=
    (mem_deadEnds n (carvedMaze ρ n) _).mpr ⟨hmB.1, hmB.2, hm3⟩
  have hdinv := calculateDistances_DInv n (carvedMaze ρ n) (n / 2) (n / 2)
  cases hde : deadEnds n (carvedMaze ρ n) with
  | nil =>
    rw [hde] at hstartmem
    exact absurd hstartmem (List.not_mem_nil _)
  | cons d0 ds =>
    refine ⟨reduceMin (calculateDistances n (carvedMaze ρ n) (n / 2) (n / 2))
        d0 (d0 :: ds),
      reduceMax (calculateDistances n (carvedMaze ρ n) (n / 2) (n / 2))
        d0 (d0 :: ds), ?_, ?_⟩
    · unfold findSpecialDeadEnds
      rw [hde]
    · rw [hde] at hstartmem hmmem
      have hminle := (reduceMin_le
        (calculateDistances n (carvedMaze ρ n) (n / 2) (n / 2))
        (d0 :: ds) d0).2 (n / 2, n / 2) hstartmem
      have hmaxge := (reduceMax_ge
        (calculateDistances n (carvedMaze ρ n) (n / 2) (n / 2))
        (d0 :: ds) d0).2 (m1, m2) hmmem
      have hd0 : calculateDistances n (carvedMaze ρ n) (n / 2) (n / 2)
          (n / 2) (n / 2) = 0 := hdinv.1
      have hdm : calculateDistances n (carvedMaze ρ n) (n / 2) (n / 2)
          m1 m2 ≠ 0 := by
        refine hdinv.2 m1 m2 ?_
        intro hc
        apply hmne
        rw [hc.1, hc.2]
        rfl
      intro hcf
      rw [hd0] at hminle
      have hc0 := le_antisymm hminle (zero_le _)
      rw [hcf] at hc0
      have hfpos : (0 : ℕ∞) <
          calculateDistances n (carvedMaze ρ n) (n / 2) (n / 2) m1 m2 :=
        lt_of_le_of_ne (zero_le _) (Ne.symm hdm)
      have := lt_of_lt_of_le hfpos hmaxge
      rw [hc0] at this
      exact lt_irrefl _ this

theorem specialDeadEnds_distinct_witness :
    2 ≤ 2 ∧
    (∃ c f : Nat × Nat,
      findSpecialDeadEnds 2 (carvedMaze (fun _ => 0) 2)
        (calculateDistances 2 (carvedMaze (fun _ => 0) 2) (2 / 2) (2 / 2)) =
        some (c, f) ∧ c ≠ f) :=
  ⟨by decide, specialDeadEnds_distinct (fun _ => 0) 2 (by decide)⟩


/-! ### `findClosestRedTile` (maze-renderer.ts lines 211-292) and
    `getClosestRedTilePosition` (object-placement-manager.ts lines 78-97) -/

/-- BFS state: pending queue `[x, z, distance]`, the visited set, and the
    best red tile found so far (`closestRedTile` / `shortestDistance`). -/
structure BfsState where
  queue : List (Int × Int × Nat)
  visited : List (Int × Int)
  closest : Option (Int × Int)
  shortest : ℕ∞

/-- One direction check of the BFS loop (maze-renderer.ts lines 279-289):
    bounds, the visited set, and the current cell's wall flag, then push
    and mark visited. -/
def bfsStep (n : Nat) (st : St) (x z : Int) (d : Nat)
    (dir : Int × Int × Wall) (bs : BfsState) : BfsState :=
  let nx := x + dir.1
  let nz := z + dir.2.1
  if 0 ≤ nx ∧ nx < (n : Int) ∧ 0 ≤ nz ∧ nz < (n : Int) ∧
      ¬(nx, nz) ∈ bs.visited ∧ st.walls x.toNat z.toNat dir.2.2 = false then
    { bs with
      queue := bs.queue ++ [(nx, nz, d + 1)]
      visited := (nx, nz) :: bs.visited }
  else bs

/-- The red-tile check on the dequeued cell (maze-renderer.ts lines
    248-265): record it when it beats the shortest distance so far, in
    world coordinates. -/
def bfsCheckRed (n : Nat) (redG : List (Int × Int)) (x z : Int) (d : Nat)
    (bs : BfsState) : BfsState :=
  if (x, z) ∈ redG ∧ (d : ℕ∞) < bs.shortest then
    { bs with
      shortest := (d : ℕ∞)
      closest := some (x * 2 - ((n : Int) - 1), z * 2 - ((n : Int) - 1)) }
  else bs

/-- The BFS while-loop (maze-renderer.ts lines 244-290), one shift per
    fuel. -/
def bfsLoop (n : Nat) (st : St) (redG : List (Int × Int)) :
    Nat → BfsState → Option (Int × Int)
  | 0, bs => bs.closest
  | fuel + 1, bs =>
    match bs.queue with
    | [] => bs.closest
    | (x, z, d) :: rest =>
      bfsLoop n st redG fuel
        (bfsDirs.foldl (fun acc dir => bfsStep n st x z d dir acc)
          (bfsCheckRed n redG x z d
            { bs with queue := rest }))

/-- `findClosestRedTile` (maze-renderer.ts lines 211-292): convert the
    center and the red tiles to grid coordinates, then BFS from the
    center. Each cell is enqueued at most once, so `n² + 1` shifts drain
    the queue. -/
def findClosestRedTile (n : Nat) (st : St) (redTiles : List (Int × Int))
    (centerX centerZ : Int) : Option (Int × Int) :=
  let sgx := gridIndexOf centerX n
  let sgz := gridIndexOf centerZ n
  let redG := redTiles.map (fun p => (gridIndexOf p.1 n, gridIndexOf p.2 n))
  bfsLoop n st redG (n * n + 1)
    { queue := [(sgx, sgz, 0)], visited := [(sgx, sgz)],
      closest := none, shortest := ⊤ }

/-- `getClosestRedTilePosition` (object-placement-manager.ts lines
    78-97): empty candidates give `[]`, a found tile gives a singleton,
    a `null` result gives `[]`. -/
def getClosestRedTilePosition (n : Nat) (st : St)
    (redTiles : List (Int × Int)) (centerX centerZ : Int) :
    List (Int × Int) :=
  if redTiles.length = 0 then []
  else
    match findClosestRedTile n st redTiles centerX centerZ with
    | some p => [p]
    | none => []

/-- The directed step relation the BFS explores: in-bounds target reached
    by one of the four direction offsets whose wall flag on the current
    cell is down. -/
def stepG (n : Nat) (st : St) (p q : Int × Int) : Prop :=
  0 ≤ q.1 ∧ q.1 < (n : Int) ∧ 0 ≤ q.2 ∧ q.2 < (n : Int) ∧
  ∃ dir ∈ bfsDirs, q.1 = p.1 + dir.1 ∧ q.2 = p.2 + dir.2.1 ∧
    st.walls p.1.toNat p.2.toNat dir.2.2 = false

/-- A walk of the given hop length from `s` in the step graph. -/
inductive PathLen (n : Nat) (st : St) (s : Int × Int) :
    Int × Int → Nat → Prop where
  | zero : PathLen n st s s 0
  | succ (p q : Int × Int) (k : Nat) : PathLen n st s p k →
      stepG n st p q → PathLen n st s q (k + 1)

/-- `bfsStep` only grows the visited set. -/
theorem bfsStep_visited_mono (n : Nat) (st : St) (x z : Int) (d : Nat)
    (dir : Int × Int × Wall) (bs : BfsState) (c : Int × Int)
    (hc : c ∈ bs.visited) : c ∈ (bfsStep n st x z d dir bs).visited := by
  unfold bfsStep
  unfold_let
  split_ifs with h
  · exact List.mem_cons_of_mem _ hc
  · exact hc

/-- After its direction's step, a passable in-bounds neighbor is
    visited. -/
theorem bfsStep_covers (n : Nat) (st : St) (x z : Int) (d : Nat)
    (dir : Int × Int × Wall) (bs : BfsState)
    (hb : 0 ≤ x + dir.1 ∧ x + dir.1 < (n : Int) ∧ 0 ≤ z + dir.2.1 ∧
      z + dir.2.1 < (n : Int))
    (hw : st.walls x.toNat z.toNat dir.2.2 = false) :
    (x + dir.1, z + dir.2.1) ∈ (bfsStep n st x z d dir bs).visited := by
  unfold bfsStep
  unfold_let
  by_cases hv : (x + dir.1, z + dir.2.1) ∈ bs.visited
  · split_ifs with h
    · exact List.mem_cons_of_mem _ hv
    · exact hv
  · rw [if_pos ⟨hb.1, hb.2.1, hb.2.2.1, hb.2.2.2, hv, hw⟩]
    exact List.mem_cons_self _ _

/-- `bfsStep` never touches the best-so-far fields. -/
theorem bfsStep_best (n : Nat) (st : St) (x z : Int) (d : Nat)
    (dir : Int × Int × Wall) (bs : BfsState) :
    (bfsStep n st x z d dir bs).closest = bs.closest ∧
    (bfsStep n st x z d dir bs).shortest = bs.shortest := by
  unfold bfsStep
  unfold_let
  split_ifs with h
  · exact ⟨rfl, rfl⟩
  · exact ⟨rfl, rfl⟩

/-- Neither does the whole direction fold. -/
theorem bfsFold_best (n : Nat) (st : St) (x z : Int) (d : Nat) :
    ∀ (ds : List (Int × Int × Wall)) (bs : BfsState),
      ((ds.foldl (fun acc dir => bfsStep n st x z d dir acc) bs).closest =
        bs.closest ∧
      (ds.foldl (fun acc dir => bfsStep n st x z d dir acc) bs).shortest =
        bs.shortest) := by
  intro ds
  induction ds with
  | nil => intro bs; exact ⟨rfl, rfl⟩
  | cons a t ih =>
    intro bs
    have h1 := ih (bfsStep n st x z d a bs)
    have h2 := bfsStep_best n st x z d a bs
    exact ⟨h1.1.trans h2.1, h1.2.trans h2.2⟩

/-- The fold also only grows the visited set. -/
theorem bfsFold_visited_mono (n : Nat) (st : St) (x z : Int) (d : Nat) :
    ∀ (ds : List (Int × Int × Wall)) (bs : BfsState) (c : Int × Int),
      c ∈ bs.visited →
      c ∈ (ds.foldl (fun acc dir => bfsStep n st x z d dir acc) bs).visited := by
  intro ds
  induction ds with
  | nil => intro bs c hc; exact hc
  | cons a t ih =>
    intro bs c hc
    exact ih (bfsStep n st x z d a bs) c (bfsStep_visited_mono n st x z d a bs c hc)

/-- After the full direction fold every step-successor of the dequeued
    cell is visited. -/
theorem bfsFold_covers (n : Nat) (st : St) (x z : Int) (d : Nat)
    (bs : BfsState) (q : Int × Int) (hq : stepG n st (x, z) q) :
    q ∈ (bfsDirs.foldl (fun acc dir => bfsStep n st x z d dir acc)
      bs).visited := by
  obtain ⟨hb1, hb2, hb3, hb4, dir, hdir, he1, he2, hw⟩ := hq
  have hqe : q = (x + dir.1, z + dir.2.1) := by
    have : q = (q.1, q.2) := rfl
    rw [this, he1, he2]
  have hfold : bfsDirs.foldl (fun acc dir => bfsStep n st x z d dir acc) bs =
      bfsStep n st x z d (-1, 0, Wall.west)
        (bfsStep n st x z d (1, 0, Wall.east)
          (bfsStep n st x z d (0, 1, Wall.south)
            (bfsStep n st x z d (0, -1, Wall.north) bs))) := rfl
  rw [hfold, hqe]
  rw [hqe] at hb1 hb2 hb3 hb4
  simp only [bfsDirs, List.mem_cons, List.not_mem_nil, or_false] at hdir
  have hm := bfsStep_visited_mono
  rcases hdir with h | h | h | h <;> rw [h] <;> rw [h] at hb1 hb2 hb3 hb4 hw
  · have s1 := bfsStep_covers n st x z d (0, -1, Wall.north) bs
      ⟨hb1, hb2, hb3, hb4⟩ hw
    have s2 := hm n st x z d (0, 1, Wall.south) _ _ s1
    have s3 := hm n st x z d (1, 0, Wall.east) _ _ s2
    exact hm n st x z d (-1, 0, Wall.west) _ _ s3
  · have s1 := bfsStep_covers n st x z d (0, 1, Wall.south)
      (bfsStep n st x z d (0, -1, Wall.north) bs) ⟨hb1, hb2, hb3, hb4⟩ hw
    have s2 := hm n st x z d (1, 0, Wall.east) _ _ s1
    exact hm n st x z d (-1, 0, Wall.west) _ _ s2
  · have s1 := bfsStep_covers n st x z d (1, 0, Wall.east)
      (bfsStep n st x z d (0, 1, Wall.south)
        (bfsStep n st x z d (0, -1, Wall.north) bs)) ⟨hb1, hb2, hb3, hb4⟩ hw
    exact hm n st x z d (-1, 0, Wall.west) _ _ s1
  · exact bfsStep_covers n st x z d (-1, 0, Wall.west)
      (bfsStep n st x z d (1, 0, Wall.east)
        (bfsStep n st x z d (0, 1, Wall.south)
          (bfsStep n st x z d (0, -1, Wall.north) bs))) ⟨hb1, hb2, hb3, hb4⟩ hw


/-- The BFS invariant: some global labelling `L` of visited cells by
    valid walk lengths such that queue entries carry their cells' labels
    in FIFO-sorted order within a band of width one, fully processed
    cells are closed under steps with labels growing by at most one and
    have reported themselves if red, and the best-so-far fields describe
    a genuine red tile. -/
def BfsInv (n : Nat) (st : St) (redG : List (Int × Int)) (s : Int × Int)
    (bs : BfsState) : Prop :=
  ∃ L : Int × Int → Nat,
    (∀ c ∈ bs.visited, PathLen n st s c (L c)) ∧
    (∀ e ∈ bs.queue, (e.1, e.2.1) ∈ bs.visited ∧ e.2.2 = L (e.1, e.2.1)) ∧
    List.Pairwise (· ≤ ·) (bs.queue.map (fun e => e.2.2)) ∧
    (∀ e ∈ bs.queue, ∀ e0 ∈ bs.queue.head?, e.2.2 ≤ e0.2.2 + 1) ∧
    (∀ c ∈ bs.visited, (∀ e ∈ bs.queue, (e.1, e.2.1) ≠ c) →
      (∀ e0 ∈ bs.queue.head?, L c ≤ e0.2.2) ∧
      (∀ q, stepG n st c q → q ∈ bs.visited ∧ L q ≤ L c + 1) ∧
      (c ∈ redG → bs.shortest ≤ (L c : ℕ∞))) ∧
    (∀ p, bs.closest = some p → ∃ q k, q ∈ redG ∧ PathLen n st s q k ∧
      bs.shortest = (k : ℕ∞) ∧
      p = (q.1 * 2 - ((n : Int) - 1), q.2 * 2 - ((n : Int) - 1))) ∧
    (bs.closest = none → bs.shortest = ⊤) ∧
    (s ∈ bs.visited ∧ L s = 0) ∧
    (bs.queue.map (fun e => (e.1, e.2.1))).Nodup ∧
    bs.visited.Nodup ∧
    (∀ c ∈ bs.visited, 0 ≤ c.1 ∧ c.1 < (n : Int) ∧ 0 ≤ c.2 ∧
      c.2 < (n : Int))

/-- The during-fold invariant while the successors of the dequeued cell
    `(x, z)` (label `d`, remaining queue `R`, visited set `OV` at dequeue
    time) are pushed. -/
def MidInv (n : Nat) (st : St) (redG : List (Int × Int)) (s : Int × Int)
    (x z : Int) (d : Nat) (R : List (Int × Int × Nat))
    (OV : List (Int × Int)) (bs : BfsState) : Prop :=
  ∃ (pushes : List (Int × Int × Nat)) (L : Int × Int → Nat),
    bs.queue = R ++ pushes ∧
    (∀ e ∈ pushes, e.2.2 = d + 1 ∧ (e.1, e.2.1) ∉ OV) ∧
    (∀ c, c ∈ bs.visited ↔ c ∈ OV ∨ ∃ e ∈ pushes, (e.1, e.2.1) = c) ∧
    (∀ c ∈ bs.visited, PathLen n st s c (L c)) ∧
    (∀ e ∈ bs.queue, (e.1, e.2.1) ∈ bs.visited ∧ e.2.2 = L (e.1, e.2.1)) ∧
    (∀ c ∈ OV, (∀ e ∈ (x, z, d) :: R, (e.1, e.2.1) ≠ c) →
      L c ≤ d ∧
      (∀ q, stepG n st c q → q ∈ OV ∧ L q ≤ L c + 1) ∧
      (c ∈ redG → bs.shortest ≤ (L c : ℕ∞))) ∧
    L s = 0 ∧
    L (x, z) = d ∧
    (bs.queue.map (fun e => (e.1, e.2.1))).Nodup ∧
    bs.visited.Nodup ∧
    (∀ c ∈ bs.visited, 0 ≤ c.1 ∧ c.1 < (n : Int) ∧ 0 ≤ c.2 ∧
      c.2 < (n : Int)) ∧
    bs.visited.length + 0 = OV.length + pushes.length ∧
    s ∈ OV ∧ (x, z) ∈ OV

/-- A push during the fold keeps the during-fold invariant. -/
theorem bfsStep_mid (n : Nat) (st : St) (redG : List (Int × Int))
    (s : Int × Int) (x z : Int) (d : Nat) (R : List (Int × Int × Nat))
    (OV : List (Int × Int)) (dir : Int × Int × Wall) (hdir : dir ∈ bfsDirs)
    (bs : BfsState) (hMid : MidInv n st redG s x z d R OV bs) :
    MidInv n st redG s x z d R OV (bfsStep n st x z d dir bs) := by
  obtain ⟨pushes, L, hq, hpl, hviff, hpath, hqe, hOV, hLs, hLxz, hqnd, hvnd,
    hvb, hvlen, hsOV, hxzOV⟩ := hMid
  unfold bfsStep
  unfold_let
  split_ifs with hcond
  · obtain ⟨hc1, hc2, hc3, hc4, hc5, hc6⟩ := hcond
    refine ⟨pushes ++ [(x + dir.1, z + dir.2.1, d + 1)],
      fun c => if c = (x + dir.1, z + dir.2.1) then d + 1 else L c,
      ?_, ?_, ?_, ?_, ?_, ?_, ?_, ?_, ?_, ?_, ?_, ?_, ?_, ?_⟩
    · show bs.queue ++ _ = R ++ (pushes ++ _)
      rw [hq, List.append_assoc]
    · intro e he
      rcases List.mem_append.mp he with h | h
      · exact ⟨(hpl e h).1, (hpl e h).2⟩
      · have : e = (x + dir.1, z + dir.2.1, d + 1) := List.mem_singleton.mp h
        rw [this]
        refine ⟨rfl, ?_⟩
        intro hmem
        exact hc5 ((hviff _).mpr (Or.inl hmem))
    · intro c
      show c ∈ (x + dir.1, z + dir.2.1) :: bs.visited ↔ _
      rw [List.mem_cons, hviff c]
      constructor
      · rintro (h | h | ⟨e, he, hec⟩)
        · exact Or.inr ⟨(x + dir.1, z + dir.2.1, d + 1),
            List.mem_append.mpr (Or.inr (List.mem_singleton.mpr rfl)), h.symm⟩
        · exact Or.inl h
        · exact Or.inr ⟨e, List.mem_append.mpr (Or.inl he), hec⟩
      · rintro (h | ⟨e, he, hec⟩)
        · exact Or.inr (Or.inl h)
        · rcases List.mem_append.mp he with h' | h'
          · exact Or.inr (Or.inr ⟨e, h', hec⟩)
          · left
            have he' : e = (x + dir.1, z + dir.2.1, d + 1) :=
              List.mem_singleton.mp h'
            rw [he'] at hec
            exact hec.symm
    · intro c hc
      beta_reduce
      rcases List.mem_cons.mp hc with h | h
      · rw [h]
        beta_reduce
        rw [if_pos rfl]
        have hpxz : PathLen n st s (x, z) d := by
          have := hpath (x, z) ((hviff _).mpr (Or.inl hxzOV))
          rwa [hLxz] at this
        refine PathLen.succ (x, z) (x + dir.1, z + dir.2.1) d hpxz ?_
        exact ⟨hc1, hc2, hc3, hc4, dir, hdir, rfl, rfl, hc6⟩
      · have hne : c ≠ (x + dir.1, z + dir.2.1) := by
          intro heq
          rw [heq] at h
          exact hc5 h
        rw [if_neg hne]
        exact hpath c h
    · intro e he
      beta_reduce
      rcases List.mem_append.mp he with h | h
      · obtain ⟨h1, h2⟩ := hqe e h
        have hne : ((e.1, e.2.1) : Int × Int) ≠ (x + dir.1, z + dir.2.1) := by
          intro heq
          rw [heq] at h1
          exact hc5 h1
        refine ⟨List.mem_cons_of_mem _ h1, ?_⟩
        rw [if_neg hne]
        exact h2
      · have he' : e = (x + dir.1, z + dir.2.1, d + 1) :=
          List.mem_singleton.mp h
        rw [he']
        refine ⟨List.mem_cons_self _ _, ?_⟩
        beta_reduce
        rw [if_pos rfl]
    · intro c hc hg
      beta_reduce
      obtain ⟨k1, k2, k3⟩ := hOV c hc hg
      have hcne : c ≠ (x + dir.1, z + dir.2.1) := by
        intro heq
        rw [heq] at hc
        exact hc5 ((hviff _).mpr (Or.inl hc))
      refine ⟨by rw [if_neg hcne]; exact k1, ?_, ?_⟩
      · intro q hsq
        obtain ⟨k4, k5⟩ := k2 q hsq
        have hqne : q ≠ (x + dir.1, z + dir.2.1) := by
          intro heq
          rw [heq] at k4
          exact hc5 ((hviff _).mpr (Or.inl k4))
        refine ⟨k4, ?_⟩
        rw [if_neg hqne, if_neg hcne]
        exact k5
      · intro hred
        rw [if_neg hcne]
        exact k3 hred
    · beta_reduce
      have hsne : s ≠ (x + dir.1, z + dir.2.1) := by
        intro heq
        rw [heq] at hsOV
        exact hc5 ((hviff _).mpr (Or.inl hsOV))
      rw [if_neg hsne]
      exact hLs
    · beta_reduce
      have hne : ((x, z) : Int × Int) ≠ (x + dir.1, z + dir.2.1) := by
        intro heq
        rw [heq] at hxzOV
        exact hc5 ((hviff _).mpr (Or.inl hxzOV))
      rw [if_neg hne]
      exact hLxz
    · show ((bs.queue ++ _).map (fun e => (e.1, e.2.1))).Nodup
      rw [List.map_append]
      rw [List.nodup_append]
      refine ⟨hqnd, List.nodup_singleton _, ?_⟩
      intro a ha hb
      have hb' : a = (x + dir.1, z + dir.2.1) := by
        simpa using hb
      obtain ⟨e, he, hec⟩ := List.mem_map.mp ha
      rw [hb'] at hec
      have : ((x + dir.1, z + dir.2.1) : Int × Int) ∈ bs.visited :=
        hec ▸ (hqe e he).1
      exact hc5 this
    · show ((x + dir.1, z + dir.2.1) :: bs.visited).Nodup
      exact List.nodup_cons.mpr ⟨hc5, hvnd⟩
    · intro c hc
      rcases List.mem_cons.mp hc with h | h
      · rw [h]
        exact ⟨hc1, hc2, hc3, hc4⟩
      · exact hvb c h
    · show ((x + dir.1, z + dir.2.1) :: bs.visited).length + 0 =
        OV.length + (pushes ++ _).length
      rw [List.length_cons, List.length_append]
      simp only [List.length_singleton]
      omega
    · exact hsOV
    · exact hxzOV
  · exact ⟨pushes, L, hq, hpl, hviff, hpath, hqe, hOV, hLs, hLxz, hqnd, hvnd,
      hvb, hvlen, hsOV, hxzOV⟩


/-- The whole direction fold keeps the during-fold invariant. -/
theorem bfsFold_mid (n : Nat) (st : St) (redG : List (Int × Int))
    (s : Int × Int) (x z : Int) (d : Nat) (R : List (Int × Int × Nat))
    (OV : List (Int × Int)) :
    ∀ (ds : List (Int × Int × Wall)), (∀ dir ∈ ds, dir ∈ bfsDirs) →
      ∀ bs, MidInv n st redG s x z d R OV bs →
        MidInv n st redG s x z d R OV
          (ds.foldl (fun acc dir => bfsStep n st x z d dir acc) bs) := by
  intro ds
  induction ds with
  | nil => intro _ bs h; exact h
  | cons a t ih =>
    intro hmem bs h
    exact ih (fun dir hd => hmem dir (List.mem_cons_of_mem _ hd))
      (bfsStep n st x z d a bs)
      (bfsStep_mid n st redG s x z d R OV a (hmem a (List.mem_cons_self _ _))
        bs h)

/-- A constant list is nondecreasing. -/
theorem pairwise_le_of_const (c : Nat) :
    ∀ (l : List Nat), (∀ a ∈ l, a = c) → List.Pairwise (· ≤ ·) l := by
  intro l
  induction l with
  | nil => intro _; exact List.Pairwise.nil
  | cons a t ih =>
    intro h
    refine List.Pairwise.cons ?_ (ih (fun b hb => h b (List.mem_cons_of_mem _ hb)))
    intro b hb
    rw [h a (List.mem_cons_self _ _), h b (List.mem_cons_of_mem _ hb)]

/-- A duplicate-free list of in-bounds cells has at most `n²` entries. -/
theorem visited_card_le (n : Nat) (v : List (Int × Int)) (hnd : v.Nodup)
    (hb : ∀ c ∈ v, 0 ≤ c.1 ∧ c.1 < (n : Int) ∧ 0 ≤ c.2 ∧ c.2 < (n : Int)) :
    v.length ≤ n * n := by
  classical
  have h1 : v.toFinset.card = v.length := List.toFinset_card_of_nodup hnd
  have h2 : v.toFinset ⊆
      (gridFinset n).image (fun p => ((p.1 : Int), (p.2 : Int))) := by
    intro c hc
    have hcb := hb c (List.mem_toFinset.mp hc)
    refine Finset.mem_image.mpr ⟨(c.1.toNat, c.2.toNat), ?_, ?_⟩
    · exact (mem_gridFinset n _).mpr ⟨by omega, by omega⟩
    · have e1 : ((c.1.toNat : Int)) = c.1 := by omega
      have e2 : ((c.2.toNat : Int)) = c.2 := by omega
      show ((c.1.toNat : Int), (c.2.toNat : Int)) = c
      rw [e1, e2]
  have h3 := Finset.card_le_card h2
  have h4 : ((gridFinset n).image
      (fun p => ((p.1 : Int), (p.2 : Int)))).card ≤ (gridFinset n).card :=
    Finset.card_image_le
  have h5 : (gridFinset n).card = n * n := by
    unfold gridFinset
    rw [Finset.card_product]
    simp
  omega


/-- One dequeue (red check plus direction fold) keeps the BFS invariant
    and strictly decreases the drain measure. -/
theorem bfsPop_inv (n : Nat) (st : St) (redG : List (Int × Int))
    (s : Int × Int) (x z : Int) (d : Nat) (R : List (Int × Int × Nat))
    (bs : BfsState) (hq : bs.queue = (x, z, d) :: R)
    (hInv : BfsInv n st redG s bs) :
    BfsInv n st redG s
      (bfsDirs.foldl (fun acc dir => bfsStep n st x z d dir acc)
        (bfsCheckRed n redG x z d { bs with queue := R })) ∧
    (bfsDirs.foldl (fun acc dir => bfsStep n st x z d dir acc)
      (bfsCheckRed n redG x z d { bs with queue := R })).queue.length +
      (n * n - (bfsDirs.foldl (fun acc dir => bfsStep n st x z d dir acc)
        (bfsCheckRed n redG x z d
          { bs with queue := R })).visited.length) + 1 ≤
      bs.queue.length + (n * n - bs.visited.length) := by
  obtain ⟨L0, a0, b0, c0, d0, e0, f0, g0, h0, i0, j0, k0⟩ := hInv
  have hhead := b0 (x, z, d) (by rw [hq]; exact List.mem_cons_self _ _)
  have hRmem : ∀ e ∈ R, e ∈ bs.queue := by
    intro e he
    rw [hq]
    exact List.mem_cons_of_mem _ he
  have HRb : ∀ e ∈ R, d ≤ e.2.2 ∧ e.2.2 ≤ d + 1 := by
    intro e he
    constructor
    · have hc := c0
      rw [hq, List.map_cons] at hc
      exact (List.pairwise_cons.mp hc).1 e.2.2 (List.mem_map.mpr ⟨e, he, rfl⟩)
    · exact d0 e (hRmem e he) (x, z, d) (by rw [hq]; rfl)
  have hq1 : (bfsCheckRed n redG x z d { bs with queue := R }).queue = R := by
    unfold bfsCheckRed
    split_ifs <;> rfl
  have hv1 : (bfsCheckRed n redG x z d { bs with queue := R }).visited =
      bs.visited := by
    unfold bfsCheckRed
    split_ifs <;> rfl
  have hsh1 : (bfsCheckRed n redG x z d { bs with queue := R }).shortest ≤
      bs.shortest := by
    unfold bfsCheckRed
    split_ifs with h
    · exact le_of_lt h.2
    · exact le_refl _
  have hxzshort : (x, z) ∈ redG →
      (bfsCheckRed n redG x z d { bs with queue := R }).shortest ≤
        (d : ℕ∞) := by
    unfold bfsCheckRed
    split_ifs with h
    · intro _
      exact le_refl _
    · intro hred
      have hnot : ¬((d : ℕ∞) <
          ({ bs with queue := R } : BfsState).shortest) :=
        fun hlt => h ⟨hred, hlt⟩
      exact not_lt.mp hnot
  have hf1 : ∀ p,
      (bfsCheckRed n redG x z d { bs with queue := R }).closest = some p →
      ∃ q k, q ∈ redG ∧ PathLen n st s q k ∧
        (bfsCheckRed n redG x z d { bs with queue := R }).shortest =
          (k : ℕ∞) ∧
        p = (q.1 * 2 - ((n : Int) - 1), q.2 * 2 - ((n : Int) - 1)) := by
    unfold bfsCheckRed
    split_ifs with h
    · intro p hp
      have hp' := Option.some_inj.mp hp
      refine ⟨(x, z), d, h.1, ?_, rfl, hp'.symm⟩
      have := a0 (x, z) hhead.1
      rwa [← hhead.2] at this
    · intro p hp
      exact f0 p hp
  have hg1 : (bfsCheckRed n redG x z d { bs with queue := R }).closest =
      none →
      (bfsCheckRed n redG x z d { bs with queue := R }).shortest = ⊤ := by
    unfold bfsCheckRed
    split_ifs with h
    · intro hcon
      exact absurd hcon (by simp)
    · exact g0
  set bs1 := bfsCheckRed n redG x z d { bs with queue := R } with hbs1
  have hMid0 : MidInv n st redG s x z d R bs.visited bs1 := by
    refine ⟨[], L0, by rw [hq1, List.append_nil],
      fun e he => absurd he (List.not_mem_nil e), ?_, ?_, ?_, ?_, h0.2,
      hhead.2.symm, ?_, ?_, ?_, ?_, h0.1, hhead.1⟩
    · intro c
      rw [hv1]
      simp
    · intro c hc
      rw [hv1] at hc
      exact a0 c hc
    · intro e he
      rw [hq1] at he
      rw [hv1]
      exact ⟨(b0 e (hRmem e he)).1, (b0 e (hRmem e he)).2⟩
    · intro c hc hgg
      have hgg' : ∀ e ∈ bs.queue, ((e.1, e.2.1) : Int × Int) ≠ c := by
        rw [hq]
        exact hgg
      obtain ⟨m1, m2, m3⟩ := e0 c hc hgg'
      refine ⟨m1 (x, z, d) (by rw [hq]; rfl), m2, ?_⟩
      intro hred
      exact le_trans hsh1 (m3 hred)
    · rw [hq1]
      have hnd := i0
      rw [hq, List.map_cons] at hnd
      exact (List.nodup_cons.mp hnd).2
    · rw [hv1]
      exact j0
    · intro c hc
      rw [hv1] at hc
      exact k0 c hc
    · rw [hv1]
      simp
  have hMidF := bfsFold_mid n st redG s x z d R bs.visited bfsDirs
    (fun dir hd => hd) bs1 hMid0
  have hFbest := bfsFold_best n st x z d bfsDirs bs1
  set F := bfsDirs.foldl (fun acc dir => bfsStep n st x z d dir acc) bs1
    with hF
  obtain ⟨pushes, L, mq, mpl, miff, mpath, mqe, mOV, mLs, mLxz, mqnd, mvnd,
    mvb, mvlen, msOV, mxzOV⟩ := hMidF
  have hlab_ge : ∀ e0 ∈ F.queue, d ≤ e0.2.2 := by
    intro e0 he0
    rw [mq] at he0
    rcases List.mem_append.mp he0 with h | h
    · exact (HRb e0 h).1
    · rw [(mpl e0 h).1]
      omega
  constructor
  · refine ⟨L, mpath, mqe, ?_, ?_, ?_, ?_, ?_,
      ⟨(miff s).mpr (Or.inl msOV), mLs⟩, mqnd, mvnd, mvb⟩
    · rw [mq, List.map_append, List.pairwise_append]
      refine ⟨?_, ?_, ?_⟩
      · have hc := c0
        rw [hq, List.map_cons] at hc
        exact (List.pairwise_cons.mp hc).2
      · refine pairwise_le_of_const (d + 1) _ ?_
        intro a ha
        obtain ⟨e, he, hec⟩ := List.mem_map.mp ha
        rw [← hec]
        exact (mpl e he).1
      · intro a ha b hb
        obtain ⟨e1, he1, hec1⟩ := List.mem_map.mp ha
        obtain ⟨e2, he2, hec2⟩ := List.mem_map.mp hb
        rw [← hec1, ← hec2, (mpl e2 he2).1]
        exact (HRb e1 he1).2
    · intro e he e0 he0
      rw [mq] at he he0
      rcases hR : R with _ | ⟨r0, R'⟩
      · rw [hR, List.nil_append] at he he0
        have he0' : e0 ∈ pushes := List.mem_of_mem_head? he0
        rw [(mpl e he).1, (mpl e0 he0').1]
        omega
      · rw [hR, List.cons_append] at he he0
        have he0' : r0 = e0 := by
          simpa using he0
        rw [← he0']
        have hr0 := HRb r0 (by rw [hR]; exact List.mem_cons_self _ _)
        rcases List.mem_cons.mp he with h | h
        · rw [h]
          omega
        · rcases List.mem_append.mp h with h' | h'
          · have := HRb e (by rw [hR]; exact List.mem_cons_of_mem _ h')
            omega
          · rw [(mpl e h').1]
            omega
    · intro c hcv hgg
      rcases (miff c).mp hcv with hOVc | ⟨e, he, hec⟩
      swap
      · exfalso
        refine hgg e ?_ hec
        rw [mq]
        exact List.mem_append.mpr (Or.inr he)
      by_cases hcxz : c = (x, z)
      · subst hcxz
        refine ⟨?_, ?_, ?_⟩
        · intro e0 he0
          have := hlab_ge e0 (List.mem_of_mem_head? he0)
          rw [mLxz]
          omega
        · intro q hsq
          have hqF : q ∈ F.visited := by
            rw [hF]
            exact bfsFold_covers n st x z d bs1 q hsq
          refine ⟨hqF, ?_⟩
          rw [mLxz]
          rcases (miff q).mp hqF with hqOV | ⟨e, he, hec⟩
          · by_cases hqa : q = (x, z)
            · rw [hqa, mLxz]
              omega
            · by_cases hqb : ∃ e ∈ R, ((e.1, e.2.1) : Int × Int) = q
              · obtain ⟨e, he, hec⟩ := hqb
                have hbq := mqe e (by
                  rw [mq]
                  exact List.mem_append.mpr (Or.inl he))
                rw [hec] at hbq
                rw [← hbq.2]
                exact (HRb e he).2
              · have hgg2 : ∀ e ∈ (x, z, d) :: R,
                    ((e.1, e.2.1) : Int × Int) ≠ q := by
                  intro e he
                  rcases List.mem_cons.mp he with h | h
                  · rw [h]
                    intro hh
                    exact hqa hh.symm
                  · intro hh
                    exact hqb ⟨e, h, hh⟩
                have := (mOV q hqOV hgg2).1
                omega
          · have hbq := mqe e (by
              rw [mq]
              exact List.mem_append.mpr (Or.inr he))
            rw [hec] at hbq
            rw [← hbq.2, (mpl e he).1]
        · intro hred
          rw [mLxz, hFbest.2]
          exact hxzshort hred
      · have hgg2 : ∀ e ∈ (x, z, d) :: R,
            ((e.1, e.2.1) : Int × Int) ≠ c := by
          intro e he
          rcases List.mem_cons.mp he with h | h
          · rw [h]
            intro hh
            exact hcxz hh.symm
          · intro hh
            refine hgg e ?_ hh
            rw [mq]
            exact List.mem_append.mpr (Or.inl h)
        obtain ⟨m1, m2, m3⟩ := mOV c hOVc hgg2
        refine ⟨?_, ?_, m3⟩
        · intro e0 he0
          have := hlab_ge e0 (List.mem_of_mem_head? he0)
          omega
        · intro q hsq
          obtain ⟨m4, m5⟩ := m2 q hsq
          exact ⟨(miff q).mpr (Or.inl m4), m5⟩
    · intro p hp
      rw [hFbest.1] at hp
      obtain ⟨q, k, u1, u2, u3, u4⟩ := hf1 p hp
      refine ⟨q, k, u1, u2, ?_, u4⟩
      rw [hFbest.2]
      exact u3
    · intro hnone
      rw [hFbest.1] at hnone
      rw [hFbest.2]
      exact hg1 hnone
  · have hlen1 : F.queue.length = R.length + pushes.length := by
      rw [mq, List.length_append]
    have hcard := visited_card_le n F.visited mvnd mvb
    rw [hq, List.length_cons]
    omega


/-- With enough fuel to drain the queue, the BFS answers correctly: a
    `some` result names a reachable red grid cell of minimal hop length
    (in world coordinates), a `none` result means no red grid cell is
    reachable. -/
theorem bfsLoop_correct (n : Nat) (st : St) (redG : List (Int × Int))
    (s : Int × Int) :
    ∀ (fuel : Nat) (bs : BfsState), BfsInv n st redG s bs →
      bs.queue.length + (n * n - bs.visited.length) < fuel →
      ((∀ p, bfsLoop n st redG fuel bs = some p →
        ∃ q k, q ∈ redG ∧ PathLen n st s q k ∧
          p = (q.1 * 2 - ((n : Int) - 1), q.2 * 2 - ((n : Int) - 1)) ∧
          (∀ r j, r ∈ redG → PathLen n st s r j → k ≤ j)) ∧
      (bfsLoop n st redG fuel bs = none →
        ∀ r j, r ∈ redG → PathLen n st s r j → False)) := by
  intro fuel
  induction fuel with
  | zero =>
    intro bs _ hfuel
    omega
  | succ f ih =>
    intro bs hInv hfuel
    rcases hqq : bs.queue with _ | ⟨⟨qx, qz, qd⟩, rest⟩
    · -- drained queue: extract the final answer
      have hres : bfsLoop n st redG (f + 1) bs = bs.closest := by
        unfold bfsLoop
        rw [hqq]
      obtain ⟨L, a0, b0, c0, d0, e0, f0, g0, h0, i0, j0, k0⟩ := hInv
      have hreach : ∀ c j, PathLen n st s c j →
          c ∈ bs.visited ∧ L c ≤ j := by
        intro c j hp
        induction hp with
        | zero => exact ⟨h0.1, by rw [h0.2]⟩
        | succ p q k hpk hstep ihp =>
          obtain ⟨hv, hl⟩ := ihp
          have hproc : ∀ e ∈ bs.queue, ((e.1, e.2.1) : Int × Int) ≠ p := by
            rw [hqq]
            intro e he
            exact absurd he (List.not_mem_nil e)
          obtain ⟨_, m2, _⟩ := e0 p hv hproc
          obtain ⟨m4, m5⟩ := m2 q hstep
          exact ⟨m4, by omega⟩
      rw [hres]
      constructor
      · intro p hp
        obtain ⟨q, k, u1, u2, u3, u4⟩ := f0 p hp
        refine ⟨q, k, u1, u2, u4, ?_⟩
        intro r j hr hj
        obtain ⟨hv, hl⟩ := hreach r j hj
        have hproc : ∀ e ∈ bs.queue, ((e.1, e.2.1) : Int × Int) ≠ r := by
          rw [hqq]
          intro e he
          exact absurd he (List.not_mem_nil e)
        obtain ⟨_, _, m3⟩ := e0 r hv hproc
        have hle := m3 hr
        rw [u3] at hle
        have : k ≤ L r := by
          exact_mod_cast hle
        omega
      · intro hnone r j hr hj
        have htop := g0 hnone
        obtain ⟨hv, hl⟩ := hreach r j hj
        have hproc : ∀ e ∈ bs.queue, ((e.1, e.2.1) : Int × Int) ≠ r := by
          rw [hqq]
          intro e he
          exact absurd he (List.not_mem_nil e)
        obtain ⟨_, _, m3⟩ := e0 r hv hproc
        have hle := m3 hr
        rw [htop] at hle
        have := top_le_iff.mp hle
        exact WithTop.coe_ne_top this
    · -- dequeue one cell and recurse
      have hres : bfsLoop n st redG (f + 1) bs =
          bfsLoop n st redG f
            (bfsDirs.foldl (fun acc dir => bfsStep n st qx qz qd dir acc)
              (bfsCheckRed n redG qx qz qd { bs with queue := rest })) := by
        conv_lhs => rw [bfsLoop, hqq]
      obtain ⟨hInv2, hmeas⟩ := bfsPop_inv n st redG s qx qz qd rest bs hqq hInv
      rw [hres]
      refine ih _ hInv2 ?_
      have hql : bs.queue.length = rest.length + 1 := by
        rw [hqq, List.length_cons]
      omega


/-- For symmetric wall pairs, the BFS step relation is exactly open-wall
    adjacency on the grid. -/
theorem stepG_iff_openAdj (n : Nat) (st : St) (hsym : wallsSym st)
    (p q : Int × Int)
    (hp : 0 ≤ p.1 ∧ p.1 < (n : Int) ∧ 0 ≤ p.2 ∧ p.2 < (n : Int))
    (hq : 0 ≤ q.1 ∧ q.1 < (n : Int) ∧ 0 ≤ q.2 ∧ q.2 < (n : Int)) :
    stepG n st p q ↔
      openAdj n st (p.1.toNat, p.2.toNat) (q.1.toNat, q.2.toNat) := by
  have hpB : inBounds n p.1.toNat p.2.toNat := ⟨by omega, by omega⟩
  have hqB : inBounds n q.1.toNat q.2.toNat := ⟨by omega, by omega⟩
  constructor
  · rintro ⟨hb1, hb2, hb3, hb4, dir, hdir, he1, he2, hw⟩
    simp only [bfsDirs, List.mem_cons, List.not_mem_nil, or_false] at hdir
    refine ⟨hpB, hqB, ?_⟩
    rcases hdir with h | h | h | h <;> rw [h] at he1 he2 hw <;>
      simp only at he1 he2 hw
    · -- north: q is above p
      refine Or.inr (Or.inr (Or.inr ⟨?_, ?_, ?_⟩))
      · show ((p.1.toNat : Nat), p.2.toNat) =
          (q.1.toNat, q.2.toNat + 1)
        have e1 : p.1.toNat = q.1.toNat := by omega
        have e2 : p.2.toNat = q.2.toNat + 1 := by omega
        rw [e1, e2]
      · show st.walls q.1.toNat q.2.toNat Wall.south = false
        have hs := (hsym q.1.toNat q.2.toNat).2
        have e1 : q.1.toNat = p.1.toNat := by omega
        have e2 : q.2.toNat + 1 = p.2.toNat := by omega
        rw [e1]
        rw [e1, e2] at hs
        rw [hs]
        exact hw
      · show st.walls q.1.toNat (q.2.toNat + 1) Wall.north = false
        have e1 : q.1.toNat = p.1.toNat := by omega
        have e2 : q.2.toNat + 1 = p.2.toNat := by omega
        rw [e1, e2]
        exact hw
    · -- south: q is below p
      refine Or.inr (Or.inr (Or.inl ⟨?_, ?_, ?_⟩))
      · show ((q.1.toNat : Nat), q.2.toNat) =
          (p.1.toNat, p.2.toNat + 1)
        have e1 : q.1.toNat = p.1.toNat := by omega
        have e2 : q.2.toNat = p.2.toNat + 1 := by omega
        rw [e1, e2]
      · exact hw
      · have hs := (hsym p.1.toNat p.2.toNat).2
        rw [← hs]
        exact hw
    · -- east
      refine Or.inl ⟨?_, ?_, ?_⟩
      · show ((q.1.toNat : Nat), q.2.toNat) =
          (p.1.toNat + 1, p.2.toNat)
        have e1 : q.1.toNat = p.1.toNat + 1 := by omega
        have e2 : q.2.toNat = p.2.toNat := by omega
        rw [e1, e2]
      · exact hw
      · have hs := (hsym p.1.toNat p.2.toNat).1
        rw [← hs]
        exact hw
    · -- west
      refine Or.inr (Or.inl ⟨?_, ?_, ?_⟩)
      · show ((p.1.toNat : Nat), p.2.toNat) =
          (q.1.toNat + 1, q.2.toNat)
        have e1 : p.1.toNat = q.1.toNat + 1 := by omega
        have e2 : p.2.toNat = q.2.toNat := by omega
        rw [e1, e2]
      · show st.walls q.1.toNat q.2.toNat Wall.east = false
        have hs := (hsym q.1.toNat q.2.toNat).1
        have e1 : q.1.toNat + 1 = p.1.toNat := by omega
        have e2 : q.2.toNat = p.2.toNat := by omega
        rw [e2]
        rw [e1, e2] at hs
        rw [hs]
        exact hw
      · show st.walls (q.1.toNat + 1) q.2.toNat Wall.west = false
        have e1 : q.1.toNat + 1 = p.1.toNat := by omega
        have e2 : q.2.toNat = p.2.toNat := by omega
        rw [e1, e2]
        exact hw
  · rintro ⟨_, _, hcase⟩
    refine ⟨hq.1, hq.2.1, hq.2.2.1, hq.2.2.2, ?_⟩
    rcases hcase with ⟨he, ho⟩ | ⟨he, ho⟩ | ⟨he, ho⟩ | ⟨he, ho⟩
    · -- q east of p
      refine ⟨(1, 0, Wall.east), by simp [bfsDirs], ?_, ?_, ho.1⟩
      · show q.1 = p.1 + 1
        have e1 := congrArg Prod.fst he
        simp only at e1
        omega
      · show q.2 = p.2 + 0
        have e2 := congrArg Prod.snd he
        simp only at e2
        omega
    · -- q west of p
      refine ⟨(-1, 0, Wall.west), by simp [bfsDirs], ?_, ?_, ?_⟩
      · show q.1 = p.1 + -1
        have e1 := congrArg Prod.fst he
        simp only at e1
        omega
      · show q.2 = p.2 + 0
        have e2 := congrArg Prod.snd he
        simp only at e2
        omega
      · have e1 := congrArg Prod.fst he
        have e2 := congrArg Prod.snd he
        simp only at e1 e2
        have hx : q.1.toNat + 1 = p.1.toNat := by omega
        have hz : q.2.toNat = p.2.toNat := by omega
        have := ho.2
        rw [hx, hz] at this
        exact this
    · -- q south of p
      refine ⟨(0, 1, Wall.south), by simp [bfsDirs], ?_, ?_, ho.1⟩
      · show q.1 = p.1 + 0
        have e1 := congrArg Prod.fst he
        simp only at e1
        omega
      · show q.2 = p.2 + 1
        have e2 := congrArg Prod.snd he
        simp only at e2
        omega
    · -- q north of p
      refine ⟨(0, -1, Wall.north), by simp [bfsDirs], ?_, ?_, ?_⟩
      · show q.1 = p.1 + 0
        have e1 := congrArg Prod.fst he
        simp only at e1
        omega
      · show q.2 = p.2 + -1
        have e2 := congrArg Prod.snd he
        simp only at e2
        omega
      · have e1 := congrArg Prod.fst he
        have e2 := congrArg Prod.snd he
        simp only at e1 e2
        have hx : q.1.toNat = p.1.toNat := by omega
        have hz : q.2.toNat + 1 = p.2.toNat := by omega
        have := ho.2
        rw [hx, hz] at this
        exact this


/-- C7: In closest-placement mode, with the usual grid-aligned inputs
    (center at an in-bounds cell, red tiles at cell-aligned world
    positions) and symmetric wall pairs, the BFS step relation is the
    wall-permeability adjacency; the selector returns `[]` when no red
    tile is reachable from the start cell (in particular when there are
    no candidates), and otherwise returns exactly one position — a red
    tile whose hop distance from the start cell is minimal among all
    reachable red tiles. -/
theorem closestRedTile_spec (n : Nat) (st : St) (redTiles : List (Int × Int))
    (sx sy : Nat) (hsx : sx < n) (hsy : sy < n) (hsym : wallsSym st)
    (haligned : ∀ p ∈ redTiles, ∃ g h : Nat, g < n ∧ h < n ∧
      p = (worldCoordOf g n, worldCoordOf h n)) :
    (∀ p q : Int × Int,
      (0 ≤ p.1 ∧ p.1 < (n : Int) ∧ 0 ≤ p.2 ∧ p.2 < (n : Int)) →
      (0 ≤ q.1 ∧ q.1 < (n : Int) ∧ 0 ≤ q.2 ∧ q.2 < (n : Int)) →
      (stepG n st p q ↔
        openAdj n st (p.1.toNat, p.2.toNat) (q.1.toNat, q.2.toNat))) ∧
    (¬(∃ rt ∈ redTiles, ∃ k, PathLen n st ((sx : Int), (sy : Int))
        (gridIndexOf rt.1 n, gridIndexOf rt.2 n) k) →
      getClosestRedTilePosition n st redTiles (worldCoordOf sx n)
        (worldCoordOf sy n) = []) ∧
    ((∃ rt ∈ redTiles, ∃ k, PathLen n st ((sx : Int), (sy : Int))
        (gridIndexOf rt.1 n, gridIndexOf rt.2 n) k) →
      ∃ p k, getClosestRedTilePosition n st redTiles (worldCoordOf sx n)
          (worldCoordOf sy n) = [p] ∧ p ∈ redTiles ∧
        PathLen n st ((sx : Int), (sy : Int))
          (gridIndexOf p.1 n, gridIndexOf p.2 n) k ∧
        ∀ r ∈ redTiles, ∀ j, PathLen n st ((sx : Int), (sy : Int))
          (gridIndexOf r.1 n, gridIndexOf r.2 n) j → k ≤ j) := by
  have hn : 0 < n := by omega
  have hstartx : gridIndexOf (worldCoordOf sx n) n = (sx : Int) :=
    gridIndexOf_worldCoordOf n sx hn hsx
  have hstarty : gridIndexOf (worldCoordOf sy n) n = (sy : Int) :=
    gridIndexOf_worldCoordOf n sy hn hsy
  set redG := redTiles.map (fun p => (gridIndexOf p.1 n, gridIndexOf p.2 n))
    with hredG
  have heq : findClosestRedTile n st redTiles (worldCoordOf sx n)
      (worldCoordOf sy n) =
      bfsLoop n st redG (n * n + 1)
        { queue := [((sx : Int), (sy : Int), 0)],
          visited := [((sx : Int), (sy : Int))],
          closest := none, shortest := ⊤ } := by
    unfold findClosestRedTile
    unfold_let
    rw [hstartx, hstarty]
  have hInv0 : BfsInv n st redG ((sx : Int), (sy : Int))
      { queue := [((sx : Int), (sy : Int), 0)],
        visited := [((sx : Int), (sy : Int))],
        closest := none, shortest := ⊤ } := by
    refine ⟨fun _ => 0, ?_, ?_, ?_, ?_, ?_, ?_, ?_, ?_, ?_, ?_, ?_⟩
    · intro c hc
      beta_reduce
      have hc' : c = ((sx : Int), (sy : Int)) := by simpa using hc
      rw [hc']
      exact PathLen.zero
    · intro e he
      have he' : e = ((sx : Int), (sy : Int), 0) := by simpa using he
      rw [he']
      exact ⟨by simp, rfl⟩
    · simp
    · intro e he e0 he0
      have he' : e = ((sx : Int), (sy : Int), 0) := by simpa using he
      rw [he']
      show (0 : Nat) ≤ e0.2.2 + 1
      omega
    · intro c hc hg
      exfalso
      have hc' : c = ((sx : Int), (sy : Int)) := by simpa using hc
      refine hg ((sx : Int), (sy : Int), 0) (by simp) ?_
      rw [hc']
    · intro p hp
      exact Option.noConfusion hp
    · intro _
      rfl
    · exact ⟨by simp, rfl⟩
    · simp
    · simp
    · intro c hc
      have hc' : c = ((sx : Int), (sy : Int)) := by simpa using hc
      rw [hc']
      refine ⟨by omega, by omega, by omega, by omega⟩
  have hnn : 1 ≤ n * n := Nat.one_le_iff_ne_zero.mpr (by positivity)
  have hmain := bfsLoop_correct n st redG ((sx : Int), (sy : Int))
    (n * n + 1)
    { queue := [((sx : Int), (sy : Int), 0)],
      visited := [((sx : Int), (sy : Int))],
      closest := none, shortest := ⊤ } hInv0 (by simp; omega)
  refine ⟨fun p q hp hq => stepG_iff_openAdj n st hsym p q hp hq, ?_, ?_⟩
  · intro hno
    unfold getClosestRedTilePosition
    by_cases hlen : redTiles.length = 0
    · rw [if_pos hlen]
    · rw [if_neg hlen]
      rcases hopt : findClosestRedTile n st redTiles (worldCoordOf sx n)
          (worldCoordOf sy n) with _ | p
      · rfl
      · exfalso
        rw [heq] at hopt
        obtain ⟨q, k, u1, u2, _, _⟩ := hmain.1 p hopt
        obtain ⟨rt, hrt, hconv⟩ := List.mem_map.mp u1
        refine hno ⟨rt, hrt, k, ?_⟩
        have hconv' : (gridIndexOf rt.1 n, gridIndexOf rt.2 n) = q := hconv
        rw [hconv']
        exact u2
  · rintro ⟨rt0, hrt0, k0, hpath0⟩
    have hlen : ¬(redTiles.length = 0) := by
      have := List.length_pos.mpr (List.ne_nil_of_mem hrt0)
      omega
    rcases hopt : findClosestRedTile n st redTiles (worldCoordOf sx n)
        (worldCoordOf sy n) with _ | p
    · exfalso
      rw [heq] at hopt
      exact hmain.2 hopt (gridIndexOf rt0.1 n, gridIndexOf rt0.2 n) k0
        (List.mem_map.mpr ⟨rt0, hrt0, rfl⟩) hpath0
    · rw [heq] at hopt
      obtain ⟨q, k, u1, u2, u3, u4⟩ := hmain.1 p hopt
      obtain ⟨rt', hrt', hconv⟩ := List.mem_map.mp u1
      obtain ⟨rta, rtb⟩ := rt'
      obtain ⟨g, h, hg, hh, hrtform⟩ := haligned (rta, rtb) hrt'
      have e1 : rta = worldCoordOf g n := congrArg Prod.fst hrtform
      have e2 : rtb = worldCoordOf h n := congrArg Prod.snd hrtform
      have hq1 : gridIndexOf rta n = q.1 := congrArg Prod.fst hconv
      have hq2 : gridIndexOf rtb n = q.2 := congrArg Prod.snd hconv
      have hg1 : q.1 = (g : Int) := by
        rw [← hq1, e1]
        exact gridIndexOf_worldCoordOf n g hn hg
      have hg2 : q.2 = (h : Int) := by
        rw [← hq2, e2]
        exact gridIndexOf_worldCoordOf n h hn hh
      have hprt : p = (rta, rtb) := by
        rw [u3, hg1, hg2, e1, e2]
        unfold worldCoordOf
        rfl
      have hp1 : p.1 = rta := congrArg Prod.fst hprt
      have hp2 : p.2 = rtb := congrArg Prod.snd hprt
      refine ⟨p, k, ?_, ?_, ?_, ?_⟩
      · unfold getClosestRedTilePosition
        rw [if_neg hlen]
        rw [heq, hopt]
      · rw [hprt]
        exact hrt'
      · have hpq : ((gridIndexOf p.1 n, gridIndexOf p.2 n) : Int × Int) =
            q := by
          rw [hp1, hp2, hq1, hq2]
        rw [hpq]
        exact u2
      · intro r hr j hj
        exact u4 (gridIndexOf r.1 n, gridIndexOf r.2 n) j
          (List.mem_map.mpr ⟨r, hr, rfl⟩) hj

theorem closestRedTile_spec_witness :
    (0 < 1 ∧ wallsSym initSt ∧
      (∀ p ∈ ([] : List (Int × Int)), ∃ g h : Nat, g < 1 ∧ h < 1 ∧
        p = (worldCoordOf g 1, worldCoordOf h 1))) ∧
    ((∀ p q : Int × Int,
      (0 ≤ p.1 ∧ p.1 < (1 : Int) ∧ 0 ≤ p.2 ∧ p.2 < (1 : Int)) →
      (0 ≤ q.1 ∧ q.1 < (1 : Int) ∧ 0 ≤ q.2 ∧ q.2 < (1 : Int)) →
      (stepG 1 initSt p q ↔
        openAdj 1 initSt (p.1.toNat, p.2.toNat) (q.1.toNat, q.2.toNat))) ∧
    (¬(∃ rt ∈ ([] : List (Int × Int)), ∃ k,
        PathLen 1 initSt ((0 : Int), (0 : Int))
        (gridIndexOf rt.1 1, gridIndexOf rt.2 1) k) →
      getClosestRedTilePosition 1 initSt [] (worldCoordOf 0 1)
        (worldCoordOf 0 1) = []) ∧
    ((∃ rt ∈ ([] : List (Int × Int)), ∃ k,
        PathLen 1 initSt ((0 : Int), (0 : Int))
        (gridIndexOf rt.1 1, gridIndexOf rt.2 1) k) →
      ∃ p k, getClosestRedTilePosition 1 initSt [] (worldCoordOf 0 1)
          (worldCoordOf 0 1) = [p] ∧ p ∈ ([] : List (Int × Int)) ∧
        PathLen 1 initSt ((0 : Int), (0 : Int))
          (gridIndexOf p.1 1, gridIndexOf p.2 1) k ∧
        ∀ r ∈ ([] : List (Int × Int)), ∀ j,
          PathLen 1 initSt ((0 : Int), (0 : Int))
          (gridIndexOf r.1 1, gridIndexOf r.2 1) j → k ≤ j)) :=
  ⟨⟨by decide, fun a b => ⟨rfl, rfl⟩,
      fun p hp => absurd hp (List.not_mem_nil p)⟩,
    closestRedTile_spec 1 initSt [] 0 0 (by decide) (by decide)
      (fun a b => ⟨rfl, rfl⟩) (fun p hp => absurd hp (List.not_mem_nil p))⟩

end Maze3d
